import Mathlib

/-! ParallelSmooth/Sorter.cpp: the splitter-search coordinator.

A shallow embedding of `Sorter::startSorting`, `Sorter::collectEvaluations` and
`Sorter::adjustSplitters`.

Modelling conventions.

* `Key` is the unsigned key type declared in `Sorter.h`, which is not modelled; its two
  constants `firstPossibleKey` and `lastPossibleKey` are parameters of every operation.
  Keys are natural numbers (`Nat`).  With `firstPossibleKey ≤ lastPossibleKey` no key
  operation wraps around: the sums `k += delta` of `startSorting` stay at or below
  `lastPossibleKey`, and `leftBound / 2 + rightBound / 2` is at most the larger of the two
  keys.
* Counts are C++ `int` (32 bits); they are integers here, and the additions of
  `std::partial_sum` on `binCounts` (line 72) are `int` additions: signed overflow is
  undefined behaviour, and `partial_sum` returns `none` there.  `numChares` is a natural
  number; the operations are meant for `numChares ≥ 1`.
* `tolerance` is a `double`; its value is a rational number.  The product
  `avgValue * tolerance` of line 77 is a `double` product: the exact product of the two
  `double`s rounded to the nearest `double` (`roundToDouble`), and `static_cast<int>`
  truncates it towards zero.
* An access outside a vector, a dereference of `end()` and a division by zero are
  undefined behaviour in C++; the operations return `none` there.
* The two messages sent to the data manager are returned as values of `Msg`.
-/

namespace ParallelSmooth

/-- The member variables of `Sorter` that the three member functions use. -/
structure Sorter where
  numChares : Nat
  tolerance : ℚ
  sorted : Bool
  numIterations : Nat
  numKeys : Int
  numCounts : Nat
  closeEnough : Int
  keyBoundaries : List Nat
  splitters : List Nat
  binCounts : List Int
  goals : List Int
deriving DecidableEq

/-- The messages the coordinator sends to the data manager: `acceptCandidateKeys` carries the
candidate keys, `acceptFinalKeys` the final boundaries, the responsibility table `chareIDs` and
the counts from `binCounts.begin() + 1` on. -/
inductive Msg where
  | acceptCandidateKeys (keys : List Nat)
  | acceptFinalKeys (keys : List Nat) (chareIDs : List Int) (counts : List Int)
deriving DecidableEq

/-- The running sums of a list behind the start value `acc`, as exact integers. -/
def runningSumsFrom (acc : Int) : List Int → List Int
  | [] => []
  | x :: xs => (acc + x) :: runningSumsFrom (acc + x) xs

/-- The running sums of a list, as exact integers: the values `std::partial_sum` stores as
long as no addition overflows. -/
def runningSums : List Int → List Int
  | [] => []
  | x :: xs => x :: runningSumsFrom x xs

/-- The least value of `int` (32 bits, two's complement). -/
def INT_MIN : Int := -2147483648

/-- The greatest value of `int`. -/
def INT_MAX : Int := 2147483647

/-- Whether an integer is a value of `int`. -/
def isInt (x : Int) : Bool := decide (INT_MIN ≤ x ∧ x ≤ INT_MAX)

/-- The sum `a + b` of two `int`s.  Signed overflow is undefined behaviour: the result is
`none` when `a` and `b` are values of `int` and their sum is not. -/
def intAdd (a b : Int) : Option Int :=
  if isInt a = true ∧ isInt b = true ∧ isInt (a + b) = false then none else some (a + b)

/-- The loop of `std::partial_sum` behind the first element: every element is added to the
running sum `acc` in `int` arithmetic and the sum is stored. -/
def partialSumFrom (acc : Int) : List Int → Option (List Int)
  | [] => some []
  | x :: xs =>
    match intAdd acc x with
    | none => none
    | some sum =>
      match partialSumFrom sum xs with
      | none => none
      | some rest => some (sum :: rest)

/-- `std::partial_sum(v.begin(), v.end(), v.begin())` on a `vector<int>`: `none` when an
addition overflows. -/
def partial_sum : List Int → Option (List Int)
  | [] => some []
  | x :: xs =>
    match partialSumFrom x xs with
    | none => none
    | some rest => some (x :: rest)

/-- The loop `for(i = 0; i < n; i++, k += delta) splitters.push_back(k)` of `startSorting`. -/
def pushEven : Nat → Nat → Nat → List Nat
  | 0, _, _ => []
  | n + 1, k, delta => k :: pushEven n (k + delta) delta

/-- `Sorter::startSorting`: resets the search state, builds the first candidate keys and
sends them. -/
def startSorting (firstPossibleKey lastPossibleKey : Nat) (s : Sorter) (nChares : Nat)
    (toler : ℚ) : Sorter × Msg :=
  let delta := (lastPossibleKey - firstPossibleKey) / (3 * nChares - 2)
  let splitters := pushEven (3 * nChares - 2) firstPossibleKey delta ++ [lastPossibleKey]
  ({ s with
      numChares := nChares
      tolerance := toler
      sorted := false
      numIterations := 0
      numKeys := 0
      keyBoundaries := [firstPossibleKey]
      splitters := splitters },
   Msg.acceptCandidateKeys splitters)

/-- The number of times `n` can be halved before it is below `2`; `fuel` bounds the number
of halvings (`n` of them are always enough). -/
def halvings : Nat → Nat → Nat
  | 0, _ => 0
  | fuel + 1, n => if n < 2 then 0 else halvings fuel (n / 2) + 1

/-- The integer `e` with `2 ^ e ≤ n / d < 2 ^ (e + 1)`, for positive `n` and `d`: the
difference `k` of the binary lengths of `n` and `d`, or `k - 1`. -/
def floorLog2 (n d : Nat) : Int :=
  let k : Int := (halvings n n : Int) - (halvings d d : Int)
  if 0 ≤ k then
    if d * 2 ^ k.toNat ≤ n then k else k - 1
  else
    if d ≤ n * 2 ^ (-k).toNat then k else k - 1

/-- The quotient `n / d` rounded to the nearest natural number, a tie to the even one. -/
def roundHalfEven (n d : Nat) : Nat :=
  let q := n / d
  let r := n % d
  if 2 * r < d then q
  else if d < 2 * r then q + 1
  else if q % 2 = 0 then q else q + 1

/-- The `double` nearest to the real number `q` (IEEE 754 binary64, round to nearest, ties to
even): 53 significant bits, the least exponent being `-1022` (so the subnormal numbers are
multiples of `2 ^ (-1074)`).  Numbers beyond the greatest `double` are not treated apart. -/
def roundToDouble (q : ℚ) : ℚ :=
  if q = 0 then 0
  else
    let n := q.num.natAbs
    let d := q.den
    let s : Int := max (floorLog2 n d) (-1022) - 52
    let r : ℚ :=
      if 0 ≤ s then ((roundHalfEven n (d * 2 ^ s.toNat) * 2 ^ s.toNat : Nat) : ℚ)
      else (roundHalfEven (n * 2 ^ (-s).toNat) d : ℚ) / ((2 ^ (-s).toNat : Nat) : ℚ)
    if q < 0 then -r else r

/-- `static_cast<int>` of a real number: truncation towards zero.  The cast is undefined for
a value beyond the range of `int`; such a value is kept as it is here. -/
def truncate (q : ℚ) : Int := Int.tdiv q.num (q.den : Int)

/-- The product `avgValue * tolerance` of line 77: the `int` `avgValue` is converted to
`double` and multiplied by the `double` `tolerance` in `double` arithmetic, so the result is
the exact product of the two `double`s rounded to the nearest `double`.  A rational
`tolerance` that is not a `double` stands for the `double` nearest to it. -/
def doubleProduct (avgValue : Int) (tolerance : ℚ) : ℚ :=
  roundToDouble (roundToDouble (avgValue : ℚ) * roundToDouble tolerance)

/-- Lines 77-81 of `collectEvaluations`: the tolerance window for an average `avgValue`, the
`double` product cast to `int`; a window that is negative or not below the average is
replaced by `0`. -/
def closeEnoughFor (avgValue : Int) (tolerance : ℚ) : Int :=
  let closeEnough := truncate (doubleProduct avgValue tolerance)
  if closeEnough < 0 ∨ closeEnough ≥ avgValue then 0 else closeEnough

/-- The block `if(!numKeys) { ... }` of `collectEvaluations` (lines 74-89): total, average,
tolerance window and goals.  `binCounts.back()` is undefined for an empty vector, the
division `numKeys / numChares` for `numChares = 0`.  The partial sums of the goals (line 85)
are the multiples `avgValue, ..., (numChares - 1) * avgValue`, which lie between `0` and
`numKeys`, so none of these additions overflows (`partial_sum_goals`). -/
def firstResponse (s : Sorter) : Option Sorter :=
  match s.binCounts.getLast? with
  | none => none
  | some numKeys =>
    if s.numChares = 0 then none
    else
      let avgValue := Int.tdiv numKeys (s.numChares : Int)
      some { s with
        numKeys := numKeys
        closeEnough := closeEnoughFor avgValue s.tolerance
        goals := runningSums (List.replicate (s.numChares - 1) avgValue) }

/-- The halving loop of `std::lower_bound` on the range `[first, first + len)` of `v`;
`fuel` bounds the number of rounds (`len` rounds are always enough). -/
def lowerBoundLoop (v : List Int) (val : Int) : Nat → Nat → Nat → Nat
  | 0, first, _ => first
  | fuel + 1, first, len =>
    if len = 0 then first
    else
      let half := len / 2
      let middle := first + half
      if v.getD middle 0 < val then
        lowerBoundLoop v val fuel (middle + 1) (len - half - 1)
      else
        lowerBoundLoop v val fuel first half

/-- `std::lower_bound(v.begin() + first, v.end(), val)`, as a position of `v`. -/
def lower_bound (v : List Int) (first : Nat) (val : Int) : Nat :=
  lowerBoundLoop v val (v.length - first) first (v.length - first)

/-- `std::set<Key>::insert`: the set is kept as a strictly increasing list. -/
def setInsert (k : Nat) : List Nat → List Nat
  | [] => [k]
  | x :: xs =>
    if k < x then k :: x :: xs
    else if k = x then x :: xs
    else x :: setInsert k xs

/-- What one round of the loop of `adjustSplitters` decides for its goal. -/
inductive Verdict where
  | acceptLeft
  | acceptRight
  | unresolved
deriving DecidableEq

/-- The bracket of one goal: `pos` is `numRightKey - binCounts.begin()`. -/
structure Bracket where
  pos : Nat
  leftBound : Nat
  rightBound : Nat
  verdict : Verdict
deriving DecidableEq

/-- Lines 131-156 of `adjustSplitters` for one goal, the cursor `numRightKey` standing at
`cursor`: the lower-bound search, the two bracketing keys and the two tolerance tests.
`none` when `numLeftKey` falls before the first position, when `splitters` is indexed outside
its bounds, or when `*numRightKey` is read at `binCounts.end()`. -/
def bracketGoal (binCounts : List Int) (splitters : List Nat) (closeEnough : Int)
    (cursor : Nat) (goal : Int) : Option Bracket :=
  let r := lower_bound binCounts cursor goal
  if r = 0 then none
  else
    match splitters[r - 1]?, splitters[r]?, binCounts[r - 1]? with
    | some leftBound, some rightBound, some numLeft =>
      if ((numLeft - goal).natAbs : Int) ≤ closeEnough then
        some ⟨r, leftBound, rightBound, Verdict.acceptLeft⟩
      else
        match binCounts[r]? with
        | none => none
        | some numRight =>
          if ((numRight - goal).natAbs : Int) ≤ closeEnough then
            some ⟨r, leftBound, rightBound, Verdict.acceptRight⟩
          else
            some ⟨r, leftBound, rightBound, Verdict.unresolved⟩
    | _, _, _ => none

/-- The loop of `adjustSplitters` (lines 128-163) over the goals from the iterator `Ngoal`
on.  It returns the goals that remain in the list, `keyBoundaries` and `newSplitters`. -/
def adjustLoop (binCounts : List Int) (splitters : List Nat) (closeEnough : Int) :
    Nat → List Int → List Nat → List Nat → Option (List Int × List Nat × List Nat)
  | _, [], keyBoundaries, newSplitters => some ([], keyBoundaries, newSplitters)
  | cursor, goal :: rest, keyBoundaries, newSplitters =>
    match bracketGoal binCounts splitters closeEnough cursor goal with
    | none => none
    | some b =>
      match b.verdict with
      | Verdict.acceptLeft =>
        adjustLoop binCounts splitters closeEnough b.pos rest
          (keyBoundaries ++ [b.leftBound]) newSplitters
      | Verdict.acceptRight =>
        adjustLoop binCounts splitters closeEnough b.pos rest
          (keyBoundaries ++ [b.rightBound]) newSplitters
      | Verdict.unresolved =>
        match adjustLoop binCounts splitters closeEnough b.pos rest keyBoundaries
            (setInsert b.rightBound
              (setInsert (b.leftBound / 2 + b.rightBound / 2)
                (setInsert b.leftBound newSplitters))) with
        | none => none
        | some (goals, kb, ns) => some (goal :: goals, kb, ns)

/-- `Sorter::adjustSplitters`. -/
def adjustSplitters (firstPossibleKey lastPossibleKey : Nat) (s : Sorter) : Option Sorter :=
  match adjustLoop s.binCounts s.splitters s.closeEnough 0 s.goals s.keyBoundaries [] with
  | none => none
  | some (goals, keyBoundaries, newSplitters) =>
    if newSplitters = [] then
      some { s with goals := goals, keyBoundaries := keyBoundaries, sorted := true }
    else
      some { s with
        goals := goals
        keyBoundaries := keyBoundaries
        splitters := setInsert lastPossibleKey (setInsert firstPossibleKey newSplitters) }

/-- The brackets the loop of `adjustSplitters` computes, one per goal in the order of the
goal list, each started at the position the one before it found. -/
def traceGoals (binCounts : List Int) (splitters : List Nat) (closeEnough : Int) :
    Nat → List Int → Option (List (Int × Bracket))
  | _, [] => some []
  | cursor, goal :: rest =>
    match bracketGoal binCounts splitters closeEnough cursor goal with
    | none => none
    | some b =>
      match traceGoals binCounts splitters closeEnough b.pos rest with
      | none => none
      | some tr => some ((goal, b) :: tr)

/-- The key a bracket adds to `keyBoundaries`, if its goal is resolved. -/
def acceptedKey (gb : Int × Bracket) : Option Nat :=
  match gb.2.verdict with
  | Verdict.acceptLeft => some gb.2.leftBound
  | Verdict.acceptRight => some gb.2.rightBound
  | Verdict.unresolved => none

/-- The three insertions into `newSplitters` for a bracket whose goal stays unresolved. -/
def addProbes (newSplitters : List Nat) (gb : Int × Bracket) : List Nat :=
  match gb.2.verdict with
  | Verdict.unresolved =>
    setInsert gb.2.rightBound
      (setInsert (gb.2.leftBound / 2 + gb.2.rightBound / 2)
        (setInsert gb.2.leftBound newSplitters))
  | _ => newSplitters

/-- Whether the goal of a bracket stays in the goal list. -/
def staysUnresolved (gb : Int × Bracket) : Bool :=
  match gb.2.verdict with
  | Verdict.unresolved => true
  | _ => false

/-- The responsibility table of lines 56-58: `vector<int> chareIDs(numChares, 1)`,
`chareIDs[0] = 0`, then the partial sums.  The sums are `0, ..., numChares - 1`; `numChares`
being an `int`, none of these additions overflows (`partial_sum_chareIDs`). -/
def chareIDs (numChares : Nat) : List Int :=
  runningSums ((List.replicate numChares 1).set 0 0)

/-- Lines 46-51 of `collectEvaluations`: the counts of the message behind a leading zero. -/
def receiveCounts (s : Sorter) (counts : List Int) : Sorter :=
  { s with
    numIterations := s.numIterations + 1
    numCounts := counts.length
    binCounts := 0 :: counts }

/-- Lines 72-89 of `collectEvaluations`: the cumulative counts (`std::partial_sum` on
`binCounts`, undefined when an addition overflows), and on the first response (`numKeys`
still zero) the total, the average, the tolerance window and the goals. -/
def prepareRound (s : Sorter) : Option Sorter :=
  match partial_sum s.binCounts with
  | none => none
  | some sums =>
    let s1 := { s with binCounts := sums }
    if s1.numKeys = 0 then firstResponse s1 else some s1

/-- Lines 100-110 of `collectEvaluations`: after convergence the decided keys are sorted
behind the first one, `lastPossibleKey` is appended and they are sent; otherwise the new
guesses are sent. -/
def sendRound (lastPossibleKey : Nat) (s : Sorter) : Option (Sorter × Msg) :=
  if s.sorted then
    match s.keyBoundaries with
    | [] => none
    | b :: bs =>
      let kb := b :: (bs.insertionSort (· ≤ ·) ++ [lastPossibleKey])
      some ({ s with keyBoundaries := kb }, Msg.acceptCandidateKeys kb)
  else
    some (s, Msg.acceptCandidateKeys s.splitters)

/-- `Sorter::collectEvaluations` for a reduction message holding `counts`. -/
def collectEvaluations (firstPossibleKey lastPossibleKey : Nat) (s : Sorter)
    (counts : List Int) : Option (Sorter × Msg) :=
  let s1 := receiveCounts s counts
  if s1.sorted then
    if s1.numChares = 0 then none
    else
      some ({ s1 with numIterations := 0, sorted := false },
        Msg.acceptFinalKeys s1.keyBoundaries (chareIDs s1.numChares) (s1.binCounts.drop 1))
  else
    match prepareRound s1 with
    | none => none
    | some s2 =>
      match adjustSplitters firstPossibleKey lastPossibleKey s2 with
      | none => none
      | some s3 => sendRound lastPossibleKey s3

/-- The number of records of `data` with key in `[a, b)`. -/
def countIn (data : List Nat) (a b : Nat) : Int :=
  (data.countP (fun d => decide (a ≤ d ∧ d < b)) : Int)

/-- Modelled from the spec: the Histogram Provider (the data manager behind
`acceptCandidateKeys`, whose code is not part of `Sorter.cpp`).  For a data set `data` it answers
the candidate keys with one count per gap, entry `i` being the number of records with key in
`[candidate[i], candidate[i+1])`. -/
def histogram (data : List Nat) : List Nat → List Int
  | a :: b :: rest => countIn data a b :: histogram data (b :: rest)
  | _ => []

/-- The request/response cycle: every `acceptCandidateKeys` message is answered by one call of
`collectEvaluations` with the counts `provider` returns for the keys sent, until
`acceptFinalKeys` is sent.  The result is the final state and the messages sent after `msg`;
`none` when a step is undefined or `fuel` responses were not enough. -/
def serve (provider : List Nat → List Int) (firstPossibleKey lastPossibleKey : Nat) :
    Nat → Sorter → Msg → Option (Sorter × List Msg)
  | _, s, Msg.acceptFinalKeys _ _ _ => some (s, [])
  | 0, _, Msg.acceptCandidateKeys _ => none
  | fuel + 1, s, Msg.acceptCandidateKeys keys =>
    match collectEvaluations firstPossibleKey lastPossibleKey s (provider keys) with
    | none => none
    | some (s1, m) =>
      match serve provider firstPossibleKey lastPossibleKey fuel s1 m with
      | none => none
      | some (s2, ms) => some (s2, m :: ms)

/-- A whole sort against `provider`: `startSorting`, then the cycle `serve`.  The result
lists every message sent, the first one included. -/
def runSort (provider : List Nat → List Int) (firstPossibleKey lastPossibleKey : Nat)
    (fuel : Nat) (s : Sorter) (nChares : Nat) (toler : ℚ) : Option (Sorter × List Msg) :=
  let start := startSorting firstPossibleKey lastPossibleKey s nChares toler
  match serve provider firstPossibleKey lastPossibleKey fuel start.1 start.2 with
  | none => none
  | some (s1, ms) => some (s1, start.2 :: ms)

/-- The probing rounds of a sort: `collectEvaluations` is applied to the responses
`responses` one after the other, every one of them arriving while the search has not
converged.  The result is the state and the message sent after the last response; `none`
when a step is undefined or a response arrives after the search has converged (that
response belongs to the exact-count pass). -/
def probeRounds (firstPossibleKey lastPossibleKey : Nat) :
    Sorter → Msg → List (List Int) → Option (Sorter × Msg)
  | s, m, [] => some (s, m)
  | s, _, counts :: rest =>
    if s.sorted then none
    else
      match collectEvaluations firstPossibleKey lastPossibleKey s counts with
      | none => none
      | some (s1, m1) => probeRounds firstPossibleKey lastPossibleKey s1 m1 rest

/-- The counting invariant of the probing rounds of a sort into `P` partitions:
`keyBoundaries` starts with `firstPossibleKey`, and once the total is known the decided keys
behind it and the goals still open are `P - 1` together. -/
def Probing (firstPossibleKey P : Nat) (s : Sorter) : Prop :=
  s.sorted = false ∧ s.numChares = P ∧
    ∃ rest, s.keyBoundaries = firstPossibleKey :: rest ∧
      ((s.numKeys = 0 ∧ rest = []) ∨
        (s.numKeys ≠ 0 ∧ rest.length + s.goals.length + 1 = P))

/-- The key-range invariant of the probing rounds against a histogram: the candidate keys are
sorted from `firstPossibleKey` to `lastPossibleKey` and the decided keys lie between the two
sentinels. -/
def InRange (firstPossibleKey lastPossibleKey : Nat) (s : Sorter) : Prop :=
  s.splitters.Pairwise (· ≤ ·) ∧
    (∀ k ∈ s.splitters, firstPossibleKey ≤ k ∧ k ≤ lastPossibleKey) ∧
    (∀ k ∈ s.keyBoundaries, firstPossibleKey ≤ k ∧ k ≤ lastPossibleKey) ∧
    s.splitters.head? = some firstPossibleKey ∧ s.splitters.getLast? = some lastPossibleKey

/-- The data invariant of a sort against the histogram of `data`, once the total is known:
`numKeys` is the number of records between the sentinels, `closeEnough` is the window for
the average, and every decided key of `keys` was accepted for a goal of its own with the
count of the records below it within `closeEnough` of that goal; the goals of the decided
keys and the goals still open are the targets `avg, 2 * avg, ..., (P - 1) * avg`. -/
def Decided (data : List Nat) (firstPossibleKey lastPossibleKey P : Nat) (toler : ℚ)
    (s : Sorter) (keys : List Nat) : Prop :=
  s.numKeys = countIn data firstPossibleKey lastPossibleKey ∧
    s.closeEnough =
      closeEnoughFor (Int.tdiv (countIn data firstPossibleKey lastPossibleKey) P) toler ∧
    ∃ pairs : List (Nat × Int), keys = pairs.map Prod.fst ∧
      (∀ p ∈ pairs, |countIn data firstPossibleKey p.1 - p.2| ≤ s.closeEnough) ∧
      (pairs.map Prod.snd ++ s.goals).Perm
        ((List.range (P - 1)).map (fun (j : Nat) =>
          ((j : Int) + 1) * Int.tdiv (countIn data firstPossibleKey lastPossibleKey) P))

/-- The pair of key and goal a bracket resolves, if it resolves its goal. -/
def acceptedPair (gb : Int × Bracket) : Option (Nat × Int) :=
  (acceptedKey gb).map (fun k => (k, gb.1))

/-- The key-range invariant of the probing rounds that does not need a strictly increasing
first candidate list: the decided keys lie between the sentinels, the candidate keys are at
most `lastPossibleKey`, only the first of them can be below `firstPossibleKey` (by one), so
can the middle of two neighbours, and once the total is known no goal is within the
tolerance window of the count `0`. -/
def WideRange (firstPossibleKey lastPossibleKey : Nat) (s : Sorter) : Prop :=
  (∀ k ∈ s.keyBoundaries, firstPossibleKey ≤ k ∧ k ≤ lastPossibleKey) ∧
    (∀ k ∈ s.splitters, firstPossibleKey - 1 ≤ k ∧ k ≤ lastPossibleKey) ∧
    (∀ i k, 1 ≤ i → s.splitters[i]? = some k → firstPossibleKey ≤ k) ∧
    (∀ i a b, s.splitters[i]? = some a → s.splitters[i + 1]? = some b →
      firstPossibleKey - 1 ≤ a / 2 + b / 2) ∧
    (s.numKeys ≠ 0 → ∀ g ∈ s.goals, ¬ |0 - g| ≤ s.closeEnough)

/-! ## States for the examples -/

/-- A start state for the examples: every member zero or empty. -/
def idle : Sorter :=
  { numChares := 0, tolerance := 0, sorted := false, numIterations := 0, numKeys := 0,
    numCounts := 0, closeEnough := 0, keyBoundaries := [], splitters := [], binCounts := [],
    goals := [] }

/-- A converged state with two partitions, for the examples. -/
def convergedTwo : Sorter :=
  { numChares := 2, tolerance := 0, sorted := true, numIterations := 3, numKeys := 11,
    numCounts := 2, closeEnough := 0, keyBoundaries := [0, 6, 100], splitters := [0, 6, 100],
    binCounts := [0, 5, 11], goals := [] }

/-- The state after `startSorting` for three partitions with tolerance one half, the keys
ranging over `0 .. 70`. -/
def startedThree : Sorter := (startSorting 0 70 idle 3 (1 / 2)).1

/-- A state in the first probing round of a sort into three partitions (thirty records with
the keys `0 .. 29`, tolerance one half), for the examples. -/
def probingThree : Sorter :=
  { numChares := 3, tolerance := 1 / 2, sorted := false, numIterations := 1, numKeys := 30,
    numCounts := 7, closeEnough := 5, keyBoundaries := [0],
    splitters := [0, 14, 28, 42, 56, 70, 84, 100],
    binCounts := [0, 14, 28, 30, 30, 30, 30, 30], goals := [10, 20] }

/-- The state `adjustSplitters` reaches from `probingThree`: the goal `10` is resolved at the
key `14`, the goal `20` stays unresolved between the keys `14` and `28`. -/
def refinedThree : Sorter :=
  { probingThree with
    goals := [20], keyBoundaries := [0, 14], splitters := [0, 14, 21, 28, 100] }

/-- The state in which the sort of thirty records with the keys `0 .. 29` into three
partitions (tolerance one half, keys ranging over `0 .. 100`) has converged, after the
responses `[14, 14, 2, 0, 0, 0, 0]` and `[14, 7, 7, 2]`. -/
def convergedThree : Sorter :=
  { numChares := 3, tolerance := 1 / 2, sorted := true, numIterations := 2, numKeys := 30,
    numCounts := 4, closeEnough := 5, keyBoundaries := [0, 14, 21, 100],
    splitters := [0, 14, 21, 28, 100], binCounts := [0, 14, 21, 28, 30], goals := [] }

/-- The state in which the sort of six records with the keys `10, 10, 10, 20, 20, 20` into
three partitions (tolerance one half, keys ranging over `0 .. 70`) has converged, after the
single response `[0, 3, 3, 0, 0, 0, 0]`. -/
def duplicateThree : Sorter :=
  { numChares := 3, tolerance := 1 / 2, sorted := true, numIterations := 1, numKeys := 6,
    numCounts := 7, closeEnough := 1, keyBoundaries := [0, 20, 20, 70],
    splitters := [0, 10, 20, 30, 40, 50, 60, 70], binCounts := [0, 0, 3, 6, 6, 6, 6, 6],
    goals := [] }

/-- Twelve records for the examples: three with key `5`, six with key `15`, three with key
`25`. -/
def twelveRecords : List Nat := [5, 5, 5, 15, 15, 15, 15, 15, 15, 25, 25, 25]

/-- The state after the commit of the sort of `twelveRecords` into three partitions
(tolerance one quarter, keys ranging over `0 .. 70`). -/
def committedThree : Sorter :=
  { numChares := 3, tolerance := 1 / 4, sorted := false, numIterations := 0, numKeys := 12,
    numCounts := 3, closeEnough := 1, keyBoundaries := [0, 10, 20, 70],
    splitters := [0, 10, 20, 30, 40, 50, 60, 70], binCounts := [0, 3, 6, 3], goals := [] }

/-- Thirteen records for the examples: five with key `5`, two with key `15`, six with key
`25`. -/
def thirteenRecords : List Nat := [5, 5, 5, 5, 5, 15, 15, 25, 25, 25, 25, 25, 25]

/-- The state after the commit of the sort of `thirteenRecords` into three partitions
(tolerance one quarter, keys ranging over `0 .. 70`). -/
def committedThirteen : Sorter :=
  { numChares := 3, tolerance := 1 / 4, sorted := false, numIterations := 0, numKeys := 13,
    numCounts := 3, closeEnough := 1, keyBoundaries := [0, 10, 20, 70],
    splitters := [0, 10, 20, 30, 40, 50, 60, 70], binCounts := [0, 5, 2, 6], goals := [] }

/-! ## The cursor of the refinement step -/

/-- The positions the cursor `numRightKey` takes in the loop of `adjustSplitters` (line 131),
one per goal in the order of the goal list: every search starts at the position the search
before it found, the first one at `cursor`. -/
def cursorPositions (binCounts : List Int) : Nat → List Int → List Nat
  | _, [] => []
  | cursor, goal :: rest =>
    lower_bound binCounts cursor goal ::
      cursorPositions binCounts (lower_bound binCounts cursor goal) rest

/-- Following the specification ("the first Cumulative Count Vector position whose value is
at least the Goal's target"): a scan of the whole vector from its start; the result is the
length of the vector when no entry is at least `target`. -/
def firstPositionAtLeast (v : List Int) (target : Int) : Nat :=
  v.findIdx (fun x => decide (target ≤ x))

/-! ## A sort that does not converge -/

/-- Four records for the examples: two with key `5`, two with key `6`. -/
def fourRecords : List Nat := [5, 5, 6, 6]

/-- The state after the first response `[0, 4, 0, 0]` of the sort of `fourRecords` into two
partitions (tolerance zero, keys ranging over `0 .. 20`): the goal `2` is open between the
candidates `5` and `10`, and `7` is the new candidate between them. -/
def probedTwo : Sorter :=
  { numChares := 2, tolerance := 0, sorted := false, numIterations := 1, numKeys := 4,
    numCounts := 4, closeEnough := 0, keyBoundaries := [0], splitters := [0, 5, 7, 10, 20],
    binCounts := [0, 0, 4, 4, 4], goals := [2] }

/-- The state of the same sort after the second response `[0, 4, 0, 0]`: the goal `2` is
open between the candidates `5` and `7`. -/
def narrowedTwo : Sorter :=
  { probedTwo with numIterations := 2, splitters := [0, 5, 7, 20] }

/-- The state of the same sort after `n` responses, `n ≥ 3`. -/
def stuckTwo (n : Nat) : Sorter :=
  { narrowedTwo with numIterations := n, numCounts := 3, binCounts := [0, 0, 4, 4] }

/-! ## Partial sums -/

theorem runningSumsFrom_replicate (n : Nat) (acc c : Int) :
    runningSumsFrom acc (List.replicate n c) =
      (List.range n).map (fun (i : Nat) => acc + ((i : Int) + 1) * c) := by
  induction n generalizing acc with
  | zero => rfl
  | succ n ih =>
    rw [List.replicate_succ, runningSumsFrom, ih, List.range_succ_eq_map, List.map_cons,
      List.map_map]
    refine congrArg₂ _ (by simp) (List.map_congr_left fun i _ => ?_)
    simp only [Function.comp_apply, Nat.cast_succ]
    ring

theorem runningSums_replicate (n : Nat) (c : Int) :
    runningSums (List.replicate n c) = (List.range n).map (fun (i : Nat) => ((i : Int) + 1) * c) := by
  cases n with
  | zero => rfl
  | succ n =>
    rw [List.replicate_succ, runningSums, runningSumsFrom_replicate, List.range_succ_eq_map,
      List.map_cons, List.map_map]
    refine congrArg₂ _ (by simp) (List.map_congr_left fun i _ => ?_)
    simp only [Function.comp_apply, Nat.cast_succ]
    ring

theorem chareIDs_eq_range (n : Nat) :
    chareIDs n = (List.range n).map (fun (i : Nat) => (i : Int)) := by
  cases n with
  | zero => rfl
  | succ n =>
    rw [chareIDs, List.replicate_succ, List.set_cons_zero, runningSums,
      runningSumsFrom_replicate, List.range_succ_eq_map, List.map_cons, List.map_map]
    refine congrArg₂ _ (by simp) (List.map_congr_left fun i _ => ?_)
    simp only [Function.comp_apply, Nat.cast_succ]
    ring

theorem runningSumsFrom_length (acc : Int) (l : List Int) :
    (runningSumsFrom acc l).length = l.length := by
  induction l generalizing acc with
  | nil => rfl
  | cons x xs ih => simp [runningSumsFrom, ih]

theorem runningSums_length (l : List Int) : (runningSums l).length = l.length := by
  cases l with
  | nil => rfl
  | cons x xs => simp [runningSums, runningSumsFrom_length]

/-! ## Truncation -/

theorem truncate_of_nonneg {q : ℚ} (h : 0 ≤ q) : truncate q = ⌊q⌋ := by
  rw [Rat.floor_def, truncate]
  exact Int.tdiv_eq_ediv (Rat.num_nonneg.mpr h) (Int.ofNat_nonneg _)

theorem truncate_nonpos_of_neg {q : ℚ} (h : q < 0) : truncate q ≤ 0 := by
  have hn : q.num < 0 := Rat.num_neg.mpr h
  have h1 : 0 ≤ (-q.num).tdiv (q.den : Int) :=
    Int.tdiv_nonneg (by omega) (Int.ofNat_nonneg _)
  rw [Int.neg_tdiv] at h1
  unfold truncate
  omega

theorem closeEnoughFor_eq_floor (a : Int) (t : ℚ) :
    closeEnoughFor a t =
      if 0 ≤ ⌊doubleProduct a t⌋ ∧ ⌊doubleProduct a t⌋ < a then ⌊doubleProduct a t⌋ else 0 := by
  unfold closeEnoughFor
  generalize doubleProduct a t = q
  rcases le_or_lt 0 q with h | h
  · have h0 : 0 ≤ ⌊q⌋ := Int.floor_nonneg.mpr h
    simp only [truncate_of_nonneg h]
    split_ifs <;> omega
  · have h0 : ⌊q⌋ < 0 := Int.floor_lt.mpr (by simpa using h)
    have h1 := truncate_nonpos_of_neg h
    simp only []
    split_ifs <;> omega

/-! ## Sums in `int` arithmetic -/

theorem isInt_iff (x : Int) : isInt x = true ↔ INT_MIN ≤ x ∧ x ≤ INT_MAX := by
  simp [isInt]

theorem intAdd_eq_some {a b c : Int} (h : intAdd a b = some c) : c = a + b := by
  unfold intAdd at h
  split_ifs at h
  simp only [Option.some.injEq] at h
  exact h.symm

theorem intAdd_of_isInt {a b : Int} (h : isInt (a + b) = true) : intAdd a b = some (a + b) := by
  unfold intAdd
  simp [h]

theorem partialSumFrom_eq_some (l : List Int) :
    ∀ (acc : Int) (r : List Int), partialSumFrom acc l = some r → r = runningSumsFrom acc l := by
  induction l with
  | nil =>
    intro acc r h
    simp only [partialSumFrom, Option.some.injEq] at h
    rw [← h]
    rfl
  | cons x xs ih =>
    intro acc r h
    rw [partialSumFrom] at h
    rcases ha : intAdd acc x with _ | sum
    · simp [ha] at h
    · simp only [ha] at h
      rcases hr : partialSumFrom sum xs with _ | rest
      · simp [hr] at h
      · simp only [hr, Option.some.injEq] at h
        rw [← h, runningSumsFrom, ← intAdd_eq_some ha, ← ih sum rest hr]

theorem partial_sum_eq_some {l r : List Int} (h : partial_sum l = some r) :
    r = runningSums l := by
  cases l with
  | nil =>
    simp only [partial_sum, Option.some.injEq] at h
    rw [← h]
    rfl
  | cons x xs =>
    rw [partial_sum] at h
    rcases hr : partialSumFrom x xs with _ | rest
    · simp [hr] at h
    · simp only [hr, Option.some.injEq] at h
      rw [← h, runningSums, ← partialSumFrom_eq_some xs x rest hr]

theorem partialSumFrom_of_isInt (l : List Int) :
    ∀ (acc : Int), (∀ i, i < l.length → isInt (acc + (l.take (i + 1)).sum) = true) →
      partialSumFrom acc l = some (runningSumsFrom acc l) := by
  induction l with
  | nil => intro acc _; rfl
  | cons x xs ih =>
    intro acc h
    have h0 : isInt (acc + x) = true := by simpa using h 0 (by simp)
    have hrest : ∀ i, i < xs.length → isInt (acc + x + (xs.take (i + 1)).sum) = true := by
      intro i hi
      have := h (i + 1) (by simpa using hi)
      simpa [List.take_succ_cons, add_assoc] using this
    rw [partialSumFrom, intAdd_of_isInt h0]
    simp only [ih (acc + x) hrest, runningSumsFrom]

theorem partial_sum_zero_cons_of_isInt {counts : List Int}
    (h : ∀ i, i ≤ counts.length → isInt ((counts.take i).sum) = true) :
    partial_sum (0 :: counts) = some (runningSums (0 :: counts)) := by
  have h1 : partialSumFrom 0 counts = some (runningSumsFrom 0 counts) :=
    partialSumFrom_of_isInt counts 0 (fun i hi => by simpa using h (i + 1) (by omega))
  rw [partial_sum, h1]
  rfl

theorem partialSumFrom_of_mem_isInt (l : List Int) :
    ∀ (acc : Int), (∀ y ∈ runningSumsFrom acc l, isInt y = true) →
      partialSumFrom acc l = some (runningSumsFrom acc l) := by
  induction l with
  | nil => intro acc _; rfl
  | cons x xs ih =>
    intro acc h
    rw [runningSumsFrom] at h
    have h0 : isInt (acc + x) = true := h _ (List.mem_cons_self _ _)
    rw [partialSumFrom, intAdd_of_isInt h0]
    simp only [ih (acc + x) (fun y hy => h y (List.mem_cons_of_mem _ hy)), runningSumsFrom]

theorem partial_sum_of_mem_isInt {l : List Int} (h : ∀ y ∈ runningSums l, isInt y = true) :
    partial_sum l = some (runningSums l) := by
  cases l with
  | nil => rfl
  | cons x xs =>
    rw [runningSums] at h
    rw [partial_sum, partialSumFrom_of_mem_isInt xs x
      (fun y hy => h y (List.mem_cons_of_mem _ hy))]
    rfl

/-- For a `numChares` that is an `int`, the partial sums of line 58 do not overflow:
`std::partial_sum` gives the table `chareIDs`. -/
theorem partial_sum_chareIDs (numChares : Nat) (h : (numChares : Int) ≤ INT_MAX) :
    partial_sum ((List.replicate numChares 1).set 0 0) = some (chareIDs numChares) := by
  apply partial_sum_of_mem_isInt
  intro y hy
  have hy1 : y ∈ chareIDs numChares := hy
  rw [chareIDs_eq_range, List.mem_map] at hy1
  obtain ⟨i, hi, rfl⟩ := hy1
  rw [List.mem_range] at hi
  rw [isInt_iff]
  have hmin : INT_MIN ≤ 0 := by decide
  constructor <;> omega

theorem mul_tdiv_bounds (T : Int) {P : Nat} (hP : 1 ≤ P) {j : Nat} (hj : j ≤ P) :
    (0 ≤ T → 0 ≤ (j : Int) * Int.tdiv T P ∧ (j : Int) * Int.tdiv T P ≤ T) ∧
      (T < 0 → T ≤ (j : Int) * Int.tdiv T P ∧ (j : Int) * Int.tdiv T P ≤ 0) := by
  have hPpos : (0 : Int) < P := by omega
  constructor
  · intro hT
    have hdiv : Int.tdiv T P = T / (P : Int) := Int.tdiv_eq_ediv hT (Int.ofNat_nonneg _)
    have hq : 0 ≤ T / (P : Int) := Int.ediv_nonneg hT (by omega)
    have hmod := Int.emod_add_ediv T P
    have hnn := Int.emod_nonneg T (show (P : Int) ≠ 0 by omega)
    have hle : (j : Int) * (T / (P : Int)) ≤ (P : Int) * (T / (P : Int)) :=
      Int.mul_le_mul_of_nonneg_right (by omega) hq
    have h0 : 0 ≤ (j : Int) * (T / (P : Int)) := Int.mul_nonneg (by omega) hq
    rw [hdiv]
    generalize (j : Int) * (T / (P : Int)) = x at hle h0 ⊢
    generalize (P : Int) * (T / (P : Int)) = y at hle hmod
    constructor <;> omega
  · intro hT
    have hT1 : 0 ≤ -T := by omega
    have hneg : Int.tdiv T P = -((-T) / (P : Int)) := by
      rw [← Int.tdiv_eq_ediv hT1 (Int.ofNat_nonneg _), Int.neg_tdiv, neg_neg]
    have hq : 0 ≤ (-T) / (P : Int) := Int.ediv_nonneg hT1 (by omega)
    have hmod := Int.emod_add_ediv (-T) P
    have hnn := Int.emod_nonneg (-T) (show (P : Int) ≠ 0 by omega)
    have hle : (j : Int) * ((-T) / (P : Int)) ≤ (P : Int) * ((-T) / (P : Int)) :=
      Int.mul_le_mul_of_nonneg_right (by omega) hq
    have h0 : 0 ≤ (j : Int) * ((-T) / (P : Int)) := Int.mul_nonneg (by omega) hq
    have hx : (j : Int) * -((-T) / (P : Int)) = -((j : Int) * ((-T) / (P : Int))) := by ring
    rw [hneg, hx]
    generalize (j : Int) * ((-T) / (P : Int)) = x at hle h0 ⊢
    generalize (P : Int) * ((-T) / (P : Int)) = y at hle hmod
    constructor <;> omega

/-- For a total `numKeys` that is an `int`, the partial sums of the goals (line 85) do not
overflow: `std::partial_sum` gives the multiples of the average. -/
theorem partial_sum_goals (numKeys : Int) (numChares : Nat) (hP : 1 ≤ numChares)
    (hT : isInt numKeys = true) :
    partial_sum (List.replicate (numChares - 1) (Int.tdiv numKeys numChares)) =
      some (runningSums (List.replicate (numChares - 1) (Int.tdiv numKeys numChares))) := by
  apply partial_sum_of_mem_isInt
  intro y hy
  rw [runningSums_replicate, List.mem_map] at hy
  obtain ⟨i, hi, rfl⟩ := hy
  rw [List.mem_range] at hi
  obtain ⟨hb1, hb2⟩ := mul_tdiv_bounds numKeys hP (show i + 1 ≤ numChares by omega)
  rw [isInt_iff] at hT ⊢
  have hmin : INT_MIN = -2147483648 := rfl
  have hmax : INT_MAX = 2147483647 := rfl
  push_cast at hb1 hb2
  rcases le_or_lt 0 numKeys with h0 | h0
  · have := hb1 h0
    constructor <;> omega
  · have := hb2 h0
    constructor <;> omega

theorem runningSumsFrom_getLast (acc : Int) (l : List Int) :
    (runningSumsFrom acc l).getLast?.getD acc = acc + l.sum := by
  induction l generalizing acc with
  | nil => simp [runningSumsFrom]
  | cons x xs ih =>
    rw [runningSumsFrom, List.getLast?_cons, Option.getD_some, ih, List.sum_cons]
    omega

theorem runningSums_zero_cons_getLast? (counts : List Int) :
    (runningSums (0 :: counts)).getLast? = some counts.sum := by
  rw [runningSums, List.getLast?_cons, runningSumsFrom_getLast]
  simp

theorem runningSums_zero_cons_getLast (counts : List Int) :
    (runningSums (0 :: counts)).getLast?.getD 0 = counts.sum := by
  rw [runningSums, List.getLast?_cons, Option.getD_some, runningSumsFrom_getLast]
  omega

/-! ## What `adjustSplitters` and `sendRound` leave alone -/

theorem adjustSplitters_frame {fk lk : Nat} {s t : Sorter} (h : adjustSplitters fk lk s = some t) :
    t.numChares = s.numChares ∧ t.tolerance = s.tolerance ∧ t.numKeys = s.numKeys ∧
      t.closeEnough = s.closeEnough ∧ t.binCounts = s.binCounts ∧
      t.numIterations = s.numIterations ∧ t.numCounts = s.numCounts := by
  unfold adjustSplitters at h
  split at h
  · exact absurd h (by simp)
  · split at h <;> (cases h; simp)

theorem sendRound_frame {lk : Nat} {s t : Sorter} {m : Msg} (h : sendRound lk s = some (t, m)) :
    t.numChares = s.numChares ∧ t.tolerance = s.tolerance ∧ t.numKeys = s.numKeys ∧
      t.closeEnough = s.closeEnough ∧ t.binCounts = s.binCounts ∧ t.sorted = s.sorted ∧
      t.goals = s.goals ∧ t.splitters = s.splitters := by
  unfold sendRound at h
  split at h
  · split at h
    · exact absurd h (by simp)
    · cases h; simp
  · cases h; simp

theorem collectEvaluations_probing {fk lk : Nat} {s : Sorter} (counts : List Int)
    (hs : s.sorted = false) :
    collectEvaluations fk lk s counts =
      ((prepareRound (receiveCounts s counts)).bind (adjustSplitters fk lk)).bind
        (sendRound lk) := by
  unfold collectEvaluations
  simp only [receiveCounts, hs, Bool.false_eq_true, if_false]
  rcases prepareRound _ with _ | s2
  · rfl
  · simp only [Option.some_bind]
    rcases adjustSplitters fk lk s2 with _ | s3 <;> rfl

/-! ## The first candidate keys -/

theorem pushEven_eq_map (n : Nat) (k delta : Nat) :
    pushEven n k delta = (List.range n).map (fun i => k + i * delta) := by
  induction n generalizing k with
  | zero => rfl
  | succ n ih =>
    rw [pushEven, ih, List.range_succ_eq_map, List.map_cons, List.map_map]
    refine congrArg₂ _ (by simp) (List.map_congr_left fun i _ => ?_)
    simp only [Function.comp_apply, Nat.succ_eq_add_one]
    ring

theorem pushEven_mem {n : Nat} {k delta x : Nat} (h : x ∈ pushEven n k delta) :
    ∃ i, i < n ∧ x = k + i * delta := by
  rw [pushEven_eq_map, List.mem_map] at h
  obtain ⟨i, hi, rfl⟩ := h
  exact ⟨i, List.mem_range.mp hi, rfl⟩

/-- The candidate keys of `startSorting` lie between the two sentinels. -/
theorem startSplitters_range (fk lk : Nat) (P : Nat) (hk : fk ≤ lk) :
    ∀ x ∈ pushEven (3 * P - 2) fk ((lk - fk) / (3 * P - 2)) ++ [lk], fk ≤ x ∧ x ≤ lk := by
  intro x hx
  rw [List.mem_append, List.mem_singleton] at hx
  rcases hx with hx | rfl
  · obtain ⟨i, hi, rfl⟩ := pushEven_mem hx
    have h1 : (3 * P - 2) * ((lk - fk) / (3 * P - 2)) ≤ lk - fk := Nat.mul_div_le _ _
    have h2 : i * ((lk - fk) / (3 * P - 2)) ≤ (3 * P - 2) * ((lk - fk) / (3 * P - 2)) :=
      Nat.mul_le_mul_right _ (by omega)
    generalize (lk - fk) / (3 * P - 2) = q at h1 h2 ⊢
    generalize (3 * P - 2) * q = C at h1 h2
    generalize i * q = A at h2 ⊢
    omega
  · exact ⟨hk, le_refl _⟩

/-- C3: in the final (sorted) round `collectEvaluations` passes to `acceptFinalKeys` the
responsibility table `0, 1, ..., P - 1`: it has `P` entries, entry `i` is `i`, and it is
strictly increasing. -/
theorem collectEvaluations_responsibility_table (firstPossibleKey lastPossibleKey : Nat)
    (s : Sorter) (counts : List Int) (hP : 1 ≤ s.numChares) (hs : s.sorted = true) :
    ∃ t table,
      collectEvaluations firstPossibleKey lastPossibleKey s counts =
        some (t, Msg.acceptFinalKeys s.keyBoundaries table counts) ∧
      table = (List.range s.numChares).map (fun (i : Nat) => (i : Int)) ∧
      table.length = s.numChares ∧
      (∀ i, i < s.numChares → table[i]? = some (i : Int)) ∧
      table.Pairwise (· < ·) := by
  refine ⟨{ receiveCounts s counts with numIterations := 0, sorted := false },
    (List.range s.numChares).map (fun (i : Nat) => (i : Int)), ?_, rfl, by simp, ?_, ?_⟩
  · unfold collectEvaluations
    have h0 : ¬ s.numChares = 0 := by omega
    simp [receiveCounts, hs, h0, chareIDs_eq_range]
  · intro i hi
    simp [List.getElem?_map, List.getElem?_range hi]
  · rw [List.pairwise_map]
    exact (List.pairwise_lt_range _).imp (fun h => by exact_mod_cast h)

/-- C3 at a converged state with two partitions. -/
theorem collectEvaluations_responsibility_table_witness :
    ∃ t table,
      collectEvaluations 0 100 convergedTwo [5, 6] =
        some (t, Msg.acceptFinalKeys convergedTwo.keyBoundaries table [5, 6]) ∧
      table = (List.range convergedTwo.numChares).map (fun (i : Nat) => (i : Int)) ∧
      table.length = convergedTwo.numChares ∧
      (∀ i, i < convergedTwo.numChares → table[i]? = some (i : Int)) ∧
      table.Pairwise (· < ·) :=
  collectEvaluations_responsibility_table 0 100 convergedTwo [5, 6] (by decide) (by decide)

theorem prepareRound_defined {s s2 : Sorter} {counts : List Int}
    (h : prepareRound (receiveCounts s counts) = some s2) :
    partial_sum (0 :: counts) = some (runningSums (0 :: counts)) := by
  unfold prepareRound at h
  simp only [receiveCounts] at h
  rcases hps : partial_sum (0 :: counts) with _ | sums
  · simp [hps] at h
  · rw [partial_sum_eq_some hps]

theorem prepareRound_first {s : Sorter} (counts : List Int) (hP : 1 ≤ s.numChares)
    (hk : s.numKeys = 0)
    (hov : partial_sum (0 :: counts) = some (runningSums (0 :: counts))) :
    prepareRound (receiveCounts s counts) =
      some { receiveCounts s counts with
        binCounts := runningSums (0 :: counts)
        numKeys := counts.sum
        closeEnough := closeEnoughFor (Int.tdiv counts.sum s.numChares) s.tolerance
        goals := (List.range (s.numChares - 1)).map
          (fun (i : Nat) => ((i : Int) + 1) * Int.tdiv counts.sum s.numChares) } := by
  have h0 : ¬ s.numChares = 0 := by omega
  simp only [prepareRound, receiveCounts, hov, hk, if_true, firstResponse, h0, if_false,
    runningSums_zero_cons_getLast?, runningSums_replicate]

/-- C5, the claim as stated fails: a sort into one partition with the tolerance `0.3`, the
`double` nearest to `3 / 10`, whose exact value is `5404319552844595 / 2 ^ 54`, and the
single count `10`.  The average is `10`; the exact product of average and tolerance is just
below `3`, so its floor is `2`, within `0 ≤ 2 < 10`; line 77 multiplies in `double`, the
product rounds to `3`, and the window stored is `3`. -/
theorem closeEnough_not_exact_floor :
    roundToDouble (3 / 10) = 5404319552844595 / 18014398509481984 ∧
    (18014398509481984 : ℚ) = 2 ^ 54 ∧
    (collectEvaluations 0 20
        (startSorting 0 20 idle 1 (5404319552844595 / 18014398509481984)).1 [10]).map
        (fun r => (r.1.numKeys, r.1.closeEnough)) = some (10, 3) ∧
    Int.tdiv 10 ((1 : Nat) : Int) = 10 ∧
    doubleProduct 10 (5404319552844595 / 18014398509481984) = 3 ∧
    ⌊((10 : Int) : ℚ) * (5404319552844595 / 18014398509481984)⌋ = 2 ∧
    (0 : Int) ≤ 2 ∧ (2 : Int) < 10 ∧
    ¬ (3 : Int) =
      if 0 ≤ ⌊((10 : Int) : ℚ) * (5404319552844595 / 18014398509481984)⌋ ∧
          ⌊((10 : Int) : ℚ) * (5404319552844595 / 18014398509481984)⌋ < 10
      then ⌊((10 : Int) : ℚ) * (5404319552844595 / 18014398509481984)⌋ else 0 := by
  refine ⟨by decide!, by norm_num, by decide!, by decide, by decide!, by decide!, by decide,
    by decide, by decide!⟩

/-- C5 as amended: on the first response (`numKeys` still zero, the running sums of the
counts within `int`) the tolerance window `closeEnough` that `collectEvaluations` stores is
computed from the `double` product `p` of the average `a = T / P` and the tolerance `t`
(`doubleProduct`, the exact product rounded to the nearest `double`): it is `floor(p)` when
`0 ≤ floor(p) < a`, and `0` when `floor(p) < 0` or `floor(p) ≥ a`. -/
theorem collectEvaluations_closeEnough (firstPossibleKey lastPossibleKey : Nat) (s : Sorter)
    (counts : List Int) (hP : 1 ≤ s.numChares) (hs : s.sorted = false)
    (hk : s.numKeys = 0)
    (hr : ∀ i, i ≤ counts.length → isInt ((counts.take i).sum) = true) :
    (∃ s2, prepareRound (receiveCounts s counts) = some s2 ∧
      s2.closeEnough =
        if 0 ≤ ⌊doubleProduct (Int.tdiv counts.sum s.numChares) s.tolerance⌋ ∧
            ⌊doubleProduct (Int.tdiv counts.sum s.numChares) s.tolerance⌋ <
              Int.tdiv counts.sum s.numChares
        then ⌊doubleProduct (Int.tdiv counts.sum s.numChares) s.tolerance⌋
        else 0) ∧
    ∀ t m, collectEvaluations firstPossibleKey lastPossibleKey s counts = some (t, m) →
      t.closeEnough =
        if 0 ≤ ⌊doubleProduct (Int.tdiv counts.sum s.numChares) s.tolerance⌋ ∧
            ⌊doubleProduct (Int.tdiv counts.sum s.numChares) s.tolerance⌋ <
              Int.tdiv counts.sum s.numChares
        then ⌊doubleProduct (Int.tdiv counts.sum s.numChares) s.tolerance⌋
        else 0 := by
  have hprep := prepareRound_first counts hP hk (partial_sum_zero_cons_of_isInt hr)
  refine ⟨⟨_, hprep, ?_⟩, ?_⟩
  · simp only [receiveCounts]
    exact closeEnoughFor_eq_floor _ _
  · intro t m h
    rw [collectEvaluations_probing counts hs, hprep, Option.some_bind] at h
    cases h3 : adjustSplitters firstPossibleKey lastPossibleKey _ with
    | none => rw [h3] at h; exact absurd h (by simp)
    | some s3 =>
      rw [h3, Option.some_bind] at h
      rw [(sendRound_frame h).2.2.2.1, (adjustSplitters_frame h3).2.2.2.1]
      simp only [receiveCounts]
      exact closeEnoughFor_eq_floor _ _

/-- C5 as amended, at the first response of a sort into three partitions. -/
theorem collectEvaluations_closeEnough_witness :
    (1 ≤ startedThree.numChares ∧ startedThree.sorted = false ∧ startedThree.numKeys = 0 ∧
      ∀ i, i ≤ [(0 : Int), 3, 3, 0, 0, 0, 0].length →
        isInt (([(0 : Int), 3, 3, 0, 0, 0, 0].take i).sum) = true) ∧
    ((∃ s2, prepareRound (receiveCounts startedThree [0, 3, 3, 0, 0, 0, 0]) = some s2 ∧
      s2.closeEnough =
        if 0 ≤ ⌊doubleProduct (Int.tdiv [0, 3, 3, 0, 0, 0, 0].sum startedThree.numChares)
              startedThree.tolerance⌋ ∧
            ⌊doubleProduct (Int.tdiv [0, 3, 3, 0, 0, 0, 0].sum startedThree.numChares)
              startedThree.tolerance⌋ <
              Int.tdiv [0, 3, 3, 0, 0, 0, 0].sum startedThree.numChares
        then ⌊doubleProduct (Int.tdiv [0, 3, 3, 0, 0, 0, 0].sum startedThree.numChares)
              startedThree.tolerance⌋
        else 0) ∧
    ∀ t m, collectEvaluations 0 70 startedThree [0, 3, 3, 0, 0, 0, 0] = some (t, m) →
      t.closeEnough =
        if 0 ≤ ⌊doubleProduct (Int.tdiv [0, 3, 3, 0, 0, 0, 0].sum startedThree.numChares)
              startedThree.tolerance⌋ ∧
            ⌊doubleProduct (Int.tdiv [0, 3, 3, 0, 0, 0, 0].sum startedThree.numChares)
              startedThree.tolerance⌋ <
              Int.tdiv [0, 3, 3, 0, 0, 0, 0].sum startedThree.numChares
        then ⌊doubleProduct (Int.tdiv [0, 3, 3, 0, 0, 0, 0].sum startedThree.numChares)
              startedThree.tolerance⌋
        else 0) :=
  ⟨⟨by decide, by decide, by decide, by decide⟩,
    collectEvaluations_closeEnough 0 70 startedThree [0, 3, 3, 0, 0, 0, 0] (by decide)
      (by decide) (by decide) (by decide)⟩

/-- C6: on the first response of a sort with `P ≥ 1` partitions, the running sums of the
counts staying within `int`, `collectEvaluations` sets the total `numKeys` to the last entry
of the cumulative count vector (the sum of the counts), and the goal list to the `P - 1`
targets `average, 2 * average, ..., (P - 1) * average` in this order, `average` being
`numKeys / P` in the integer division of C++; these are the values the refinement step
`adjustSplitters` then works on. -/
theorem collectEvaluations_first_response (firstPossibleKey lastPossibleKey : Nat)
    (s : Sorter) (P : Nat) (toler : ℚ) (counts : List Int) (hP : 1 ≤ P)
    (hr : ∀ i, i ≤ counts.length → isInt ((counts.take i).sum) = true) :
    ∃ s2,
      prepareRound
          (receiveCounts (startSorting firstPossibleKey lastPossibleKey s P toler).1 counts)
        = some s2 ∧
      collectEvaluations firstPossibleKey lastPossibleKey
          (startSorting firstPossibleKey lastPossibleKey s P toler).1 counts
        = (adjustSplitters firstPossibleKey lastPossibleKey s2).bind
            (sendRound lastPossibleKey) ∧
      partial_sum (0 :: counts) = some s2.binCounts ∧
      s2.binCounts = runningSums (0 :: counts) ∧
      s2.binCounts.getLast? = some s2.numKeys ∧
      s2.numKeys = counts.sum ∧
      s2.goals =
        (List.range (P - 1)).map (fun (i : Nat) => ((i : Int) + 1) * Int.tdiv s2.numKeys P) ∧
      s2.goals.length = P - 1 ∧
      (0 ≤ s2.numKeys → Int.tdiv s2.numKeys P = s2.numKeys / P) := by
  have hov := partial_sum_zero_cons_of_isInt hr
  have hprep := prepareRound_first
    (s := (startSorting firstPossibleKey lastPossibleKey s P toler).1) counts hP rfl hov
  refine ⟨_, hprep, ?_, hov, rfl, ?_, rfl, rfl, by simp [startSorting], ?_⟩
  · rw [collectEvaluations_probing counts rfl, hprep, Option.some_bind]
  · exact runningSums_zero_cons_getLast? counts
  · intro h
    exact Int.tdiv_eq_ediv h (Int.ofNat_nonneg _)

/-- C6 at a sort into three partitions. -/
theorem collectEvaluations_first_response_witness :
    (1 ≤ 3 ∧
      ∀ i, i ≤ [(0 : Int), 3, 3, 0, 0, 0, 0].length →
        isInt (([(0 : Int), 3, 3, 0, 0, 0, 0].take i).sum) = true) ∧
    ∃ s2,
      prepareRound (receiveCounts (startSorting 0 70 idle 3 0).1 [0, 3, 3, 0, 0, 0, 0])
        = some s2 ∧
      collectEvaluations 0 70 (startSorting 0 70 idle 3 0).1 [0, 3, 3, 0, 0, 0, 0]
        = (adjustSplitters 0 70 s2).bind (sendRound 70) ∧
      partial_sum (0 :: [0, 3, 3, 0, 0, 0, 0]) = some s2.binCounts ∧
      s2.binCounts = runningSums (0 :: [0, 3, 3, 0, 0, 0, 0]) ∧
      s2.binCounts.getLast? = some s2.numKeys ∧
      s2.numKeys = [0, 3, 3, 0, 0, 0, 0].sum ∧
      s2.goals =
        (List.range (3 - 1)).map
          (fun (i : Nat) => ((i : Int) + 1) * Int.tdiv s2.numKeys (3 : Nat)) ∧
      s2.goals.length = 3 - 1 ∧
      (0 ≤ s2.numKeys → Int.tdiv s2.numKeys (3 : Nat) = s2.numKeys / (3 : Nat)) :=
  ⟨⟨by decide, by decide⟩,
    collectEvaluations_first_response 0 70 idle 3 0 [0, 3, 3, 0, 0, 0, 0] (by decide)
      (by decide)⟩

theorem intAdd_zero_left (x : Int) : intAdd 0 x = some x := by
  unfold intAdd
  rw [zero_add]
  cases isInt x <;> simp

theorem serve_final (provider : List Nat → List Int) (fk lk fuel : Nat) (s : Sorter)
    (keys : List Nat) (ids counts : List Int) :
    serve provider fk lk fuel s (Msg.acceptFinalKeys keys ids counts) = some (s, []) := by
  cases fuel <;> rfl

/-- C7: with one partition and a provider that answers the candidate keys
`[firstPossibleKey, lastPossibleKey]` with the single count `T`, the first response converges
at once with no interior boundary, the keys sent for the exact counts are
`[firstPossibleKey, lastPossibleKey]`, and the second response calls `acceptFinalKeys` once,
with the boundaries `[firstPossibleKey, lastPossibleKey]`, the responsibility table `[0]` and
the counts `[T]`. -/
theorem single_partition_sort (firstPossibleKey lastPossibleKey : Nat) (s : Sorter)
    (toler : ℚ) (T : Int) (provider : List Nat → List Int) (fuel : Nat) :
    ∃ s1 s2 s3,
      startSorting firstPossibleKey lastPossibleKey s 1 toler =
        (s1, Msg.acceptCandidateKeys [firstPossibleKey, lastPossibleKey]) ∧
      collectEvaluations firstPossibleKey lastPossibleKey s1 [T] =
        some (s2, Msg.acceptCandidateKeys [firstPossibleKey, lastPossibleKey]) ∧
      s2.sorted = true ∧
      s2.keyBoundaries = [firstPossibleKey, lastPossibleKey] ∧
      collectEvaluations firstPossibleKey lastPossibleKey s2 [T] =
        some (s3, Msg.acceptFinalKeys [firstPossibleKey, lastPossibleKey] [0] [T]) ∧
      (provider [firstPossibleKey, lastPossibleKey] = [T] →
        runSort provider firstPossibleKey lastPossibleKey (fuel + 2) s 1 toler =
          some (s3, [Msg.acceptCandidateKeys [firstPossibleKey, lastPossibleKey],
            Msg.acceptCandidateKeys [firstPossibleKey, lastPossibleKey],
            Msg.acceptFinalKeys [firstPossibleKey, lastPossibleKey] [0] [T]])) := by
  have h1 : collectEvaluations firstPossibleKey lastPossibleKey
      (startSorting firstPossibleKey lastPossibleKey s 1 toler).1 [T] =
      some ({ (startSorting firstPossibleKey lastPossibleKey s 1 toler).1 with
          numIterations := 1
          numCounts := 1
          binCounts := [0, T]
          numKeys := T
          closeEnough := closeEnoughFor (Int.tdiv T (1 : Nat)) toler
          goals := []
          sorted := true
          keyBoundaries := [firstPossibleKey, lastPossibleKey] },
        Msg.acceptCandidateKeys [firstPossibleKey, lastPossibleKey]) := by
    simp [collectEvaluations, receiveCounts, prepareRound, firstResponse, startSorting,
      partial_sum, partialSumFrom, intAdd_zero_left, runningSums, runningSumsFrom,
      adjustSplitters, adjustLoop, sendRound]
  obtain ⟨s2, h1, hsorted, hkb, hP⟩ : ∃ s2,
      collectEvaluations firstPossibleKey lastPossibleKey
        (startSorting firstPossibleKey lastPossibleKey s 1 toler).1 [T] =
        some (s2, Msg.acceptCandidateKeys [firstPossibleKey, lastPossibleKey]) ∧
      s2.sorted = true ∧ s2.keyBoundaries = [firstPossibleKey, lastPossibleKey] ∧
      s2.numChares = 1 := ⟨_, h1, rfl, rfl, rfl⟩
  have h2 : collectEvaluations firstPossibleKey lastPossibleKey s2 [T] =
      some ({ receiveCounts s2 [T] with numIterations := 0, sorted := false },
        Msg.acceptFinalKeys [firstPossibleKey, lastPossibleKey] [0] [T]) := by
    simp [collectEvaluations, receiveCounts, hsorted, hkb, hP, chareIDs, runningSums, runningSumsFrom]
  refine ⟨_, s2, _, rfl, h1, hsorted, hkb, h2, ?_⟩
  intro hp
  have e : serve provider firstPossibleKey lastPossibleKey (fuel + 2)
      (startSorting firstPossibleKey lastPossibleKey s 1 toler).1
      (startSorting firstPossibleKey lastPossibleKey s 1 toler).2 =
      some ({ receiveCounts s2 [T] with numIterations := 0, sorted := false },
        [Msg.acceptCandidateKeys [firstPossibleKey, lastPossibleKey],
          Msg.acceptFinalKeys [firstPossibleKey, lastPossibleKey] [0] [T]]) := by
    show serve provider firstPossibleKey lastPossibleKey (fuel + 2) _
      (Msg.acceptCandidateKeys [firstPossibleKey, lastPossibleKey]) = _
    rw [serve, hp, h1]
    simp only []
    rw [serve, hp, h2]
    simp only [serve_final]
  simp only [runSort, e]
  rfl

/-! ## The set of new splitters -/

theorem mem_setInsert {k x : Nat} {l : List Nat} : x ∈ setInsert k l ↔ x = k ∨ x ∈ l := by
  induction l with
  | nil => simp [setInsert]
  | cons y ys ih =>
    unfold setInsert
    split_ifs with h1 h2
    · simp
    · subst h2; simp
    · simp only [List.mem_cons, ih]
      tauto

theorem setInsert_ne_nil (k : Nat) (l : List Nat) : setInsert k l ≠ [] := by
  intro h
  have : k ∈ setInsert k l := mem_setInsert.mpr (Or.inl rfl)
  rw [h] at this
  exact absurd this (List.not_mem_nil _)

theorem setInsert_pairwise {k : Nat} {l : List Nat} (h : l.Pairwise (· < ·)) :
    (setInsert k l).Pairwise (· < ·) := by
  induction l with
  | nil => simp [setInsert]
  | cons y ys ih =>
    rw [List.pairwise_cons] at h
    unfold setInsert
    split_ifs with h1 h2
    · refine List.pairwise_cons.mpr ⟨?_, List.pairwise_cons.mpr h⟩
      intro a ha
      rcases List.mem_cons.mp ha with rfl | ha
      · exact h1
      · exact lt_trans h1 (h.1 a ha)
    · exact List.pairwise_cons.mpr h
    · refine List.pairwise_cons.mpr ⟨?_, ih h.2⟩
      intro a ha
      rcases mem_setInsert.mp ha with rfl | ha
      · omega
      · exact h.1 a ha

/-- A strictly increasing list starts with its least element. -/
theorem head?_of_pairwise_lt {l : List Nat} {a : Nat} (h : l.Pairwise (· < ·)) (ha : a ∈ l)
    (hmin : ∀ x ∈ l, a ≤ x) : l.head? = some a := by
  cases l with
  | nil => exact absurd ha (List.not_mem_nil _)
  | cons y ys =>
    rw [List.pairwise_cons] at h
    rcases List.mem_cons.mp ha with rfl | ha
    · rfl
    · have h1 := h.1 a ha
      have h2 := hmin y (List.mem_cons_self _ _)
      omega

/-- A strictly increasing list ends with its greatest element. -/
theorem getLast?_of_pairwise_lt {l : List Nat} {a : Nat} (h : l.Pairwise (· < ·)) (ha : a ∈ l)
    (hmax : ∀ x ∈ l, x ≤ a) : l.getLast? = some a := by
  induction l with
  | nil => exact absurd ha (List.not_mem_nil _)
  | cons y ys ih =>
    rw [List.pairwise_cons] at h
    cases ys with
    | nil =>
      rcases List.mem_cons.mp ha with rfl | ha
      · rfl
      · exact absurd ha (List.not_mem_nil _)
    | cons z zs =>
      rw [List.getLast?_cons_cons]
      refine ih h.2 ?_ (fun x hx => hmax x (List.mem_cons_of_mem _ hx))
      rcases List.mem_cons.mp ha with rfl | ha
      · have h1 := h.1 z (List.mem_cons_self _ _)
        have h2 := hmax z (List.mem_cons_of_mem _ (List.mem_cons_self _ _))
        omega
      · exact ha

theorem mem_addProbes {ns : List Nat} {gb : Int × Bracket} {x : Nat} :
    x ∈ addProbes ns gb ↔
      x ∈ ns ∨ (gb.2.verdict = Verdict.unresolved ∧
        (x = gb.2.leftBound ∨ x = gb.2.rightBound ∨
          x = gb.2.leftBound / 2 + gb.2.rightBound / 2)) := by
  unfold addProbes
  cases h : gb.2.verdict <;> simp [mem_setInsert]
  tauto

theorem addProbes_pairwise {ns : List Nat} (gb : Int × Bracket) (h : ns.Pairwise (· < ·)) :
    (addProbes ns gb).Pairwise (· < ·) := by
  unfold addProbes
  cases gb.2.verdict
  · exact h
  · exact h
  · exact setInsert_pairwise (setInsert_pairwise (setInsert_pairwise h))

theorem addProbes_eq_nil {ns : List Nat} {gb : Int × Bracket} :
    addProbes ns gb = [] ↔ ns = [] ∧ staysUnresolved gb = false := by
  unfold addProbes staysUnresolved
  cases gb.2.verdict <;> simp [setInsert_ne_nil]

theorem mem_foldl_addProbes {tr : List (Int × Bracket)} {ns : List Nat} {x : Nat} :
    x ∈ tr.foldl addProbes ns ↔
      x ∈ ns ∨ ∃ gb ∈ tr, gb.2.verdict = Verdict.unresolved ∧
        (x = gb.2.leftBound ∨ x = gb.2.rightBound ∨
          x = gb.2.leftBound / 2 + gb.2.rightBound / 2) := by
  induction tr generalizing ns with
  | nil => simp
  | cons gb tr ih =>
    rw [List.foldl_cons, ih, mem_addProbes]
    constructor
    · rintro ((h | h) | ⟨gb1, hm, h⟩)
      · exact Or.inl h
      · exact Or.inr ⟨gb, List.mem_cons_self _ _, h⟩
      · exact Or.inr ⟨gb1, List.mem_cons_of_mem _ hm, h⟩
    · rintro (h | ⟨gb1, hm, h⟩)
      · exact Or.inl (Or.inl h)
      · rcases List.mem_cons.mp hm with rfl | hm
        · exact Or.inl (Or.inr h)
        · exact Or.inr ⟨gb1, hm, h⟩

theorem foldl_addProbes_pairwise (tr : List (Int × Bracket)) {ns : List Nat}
    (h : ns.Pairwise (· < ·)) : (tr.foldl addProbes ns).Pairwise (· < ·) := by
  induction tr generalizing ns with
  | nil => exact h
  | cons gb tr ih => exact ih (addProbes_pairwise gb h)

theorem foldl_addProbes_eq_nil {tr : List (Int × Bracket)} {ns : List Nat} :
    tr.foldl addProbes ns = [] ↔ ns = [] ∧ tr.filter staysUnresolved = [] := by
  induction tr generalizing ns with
  | nil => simp
  | cons gb tr ih =>
    rw [List.foldl_cons, ih, addProbes_eq_nil, List.filter_cons]
    cases staysUnresolved gb <;> simp

/-! ## The loop of `adjustSplitters` and its trace -/

theorem adjustLoop_eq_trace (bc : List Int) (sp : List Nat) (ce : Int) (cursor : Nat)
    (goals : List Int) (kb ns : List Nat) :
    adjustLoop bc sp ce cursor goals kb ns =
      (traceGoals bc sp ce cursor goals).map (fun tr =>
        ((tr.filter staysUnresolved).map Prod.fst, kb ++ tr.filterMap acceptedKey,
          tr.foldl addProbes ns)) := by
  induction goals generalizing cursor kb ns with
  | nil => simp [adjustLoop, traceGoals]
  | cons g gs ih =>
    unfold adjustLoop traceGoals
    cases hb : bracketGoal bc sp ce cursor g with
    | none => rfl
    | some b =>
      simp only []
      cases hv : b.verdict with
      | acceptLeft =>
        simp only [ih]
        cases traceGoals bc sp ce b.pos gs with
        | none => rfl
        | some tr =>
          simp [staysUnresolved, acceptedKey, addProbes, hv]
      | acceptRight =>
        simp only [ih]
        cases traceGoals bc sp ce b.pos gs with
        | none => rfl
        | some tr =>
          simp [staysUnresolved, acceptedKey, addProbes, hv]
      | unresolved =>
        simp only [ih]
        cases traceGoals bc sp ce b.pos gs with
        | none => rfl
        | some tr =>
          simp [staysUnresolved, acceptedKey, addProbes, hv]

theorem traceGoals_map_fst {bc : List Int} {sp : List Nat} {ce : Int} {cursor : Nat}
    {goals : List Int} {tr : List (Int × Bracket)}
    (h : traceGoals bc sp ce cursor goals = some tr) : tr.map Prod.fst = goals := by
  induction goals generalizing cursor tr with
  | nil =>
    simp only [traceGoals, Option.some.injEq] at h
    subst h; rfl
  | cons g gs ih =>
    unfold traceGoals at h
    cases hb : bracketGoal bc sp ce cursor g with
    | none => rw [hb] at h; exact absurd h (by simp)
    | some b =>
      rw [hb] at h
      simp only [] at h
      cases ht : traceGoals bc sp ce b.pos gs with
      | none => rw [ht] at h; exact absurd h (by simp)
      | some tr1 =>
        rw [ht] at h
        simp only [Option.some.injEq] at h
        subst h
        simp [ih ht]

/-- Every bracket of a trace came out of `bracketGoal` for its goal at some cursor. -/
theorem traceGoals_mem {bc : List Int} {sp : List Nat} {ce : Int} {cursor : Nat}
    {goals : List Int} {tr : List (Int × Bracket)}
    (h : traceGoals bc sp ce cursor goals = some tr) :
    ∀ gb ∈ tr, ∃ c, bracketGoal bc sp ce c gb.1 = some gb.2 := by
  induction goals generalizing cursor tr with
  | nil =>
    simp only [traceGoals, Option.some.injEq] at h
    subst h; simp
  | cons g gs ih =>
    unfold traceGoals at h
    cases hb : bracketGoal bc sp ce cursor g with
    | none => rw [hb] at h; exact absurd h (by simp)
    | some b =>
      rw [hb] at h
      simp only [] at h
      cases ht : traceGoals bc sp ce b.pos gs with
      | none => rw [ht] at h; exact absurd h (by simp)
      | some tr1 =>
        rw [ht] at h
        simp only [Option.some.injEq] at h
        subst h
        intro gb hgb
        rcases List.mem_cons.mp hgb with rfl | hgb
        · exact ⟨cursor, hb⟩
        · exact ih ht gb hgb

/-! ## One bracket -/

theorem bracketGoal_spec {bc : List Int} {sp : List Nat} {ce : Int} {cursor : Nat} {g : Int}
    {b : Bracket} (h : bracketGoal bc sp ce cursor g = some b) :
    b.pos = lower_bound bc cursor g ∧ 1 ≤ b.pos ∧
      sp[b.pos - 1]? = some b.leftBound ∧ sp[b.pos]? = some b.rightBound ∧
      ∃ numLeft, bc[b.pos - 1]? = some numLeft ∧
        (b.verdict = Verdict.acceptLeft ↔ |numLeft - g| ≤ ce) ∧
        (b.verdict = Verdict.acceptRight ↔
          ¬ |numLeft - g| ≤ ce ∧ ∃ numRight, bc[b.pos]? = some numRight ∧
            |numRight - g| ≤ ce) ∧
        (b.verdict = Verdict.unresolved ↔
          ¬ |numLeft - g| ≤ ce ∧ ∃ numRight, bc[b.pos]? = some numRight ∧
            ¬ |numRight - g| ≤ ce) := by
  unfold bracketGoal at h
  simp only [] at h
  split_ifs at h with h0
  have hpos : 1 ≤ lower_bound bc cursor g := Nat.pos_of_ne_zero h0
  split at h
  · rename_i lb rb nl hlb hrb hnl
    rw [Int.natCast_natAbs] at h
    split_ifs at h with hl
    · cases h
      refine ⟨rfl, hpos, hlb, hrb, nl, hnl, ⟨fun _ => hl, fun _ => rfl⟩,
        ⟨fun hv => Verdict.noConfusion hv, fun hv => absurd hl hv.1⟩,
        ⟨fun hv => Verdict.noConfusion hv, fun hv => absurd hl hv.1⟩⟩
    · split at h
      · exact absurd h (by simp)
      · rename_i nr hnr
        rw [Int.natCast_natAbs] at h
        split_ifs at h with hr
        · cases h
          refine ⟨rfl, hpos, hlb, hrb, nl, hnl,
            ⟨fun hv => Verdict.noConfusion hv, fun hv => absurd hv hl⟩,
            ⟨fun _ => ⟨hl, nr, hnr, hr⟩, fun _ => rfl⟩,
            ⟨fun hv => Verdict.noConfusion hv, ?_⟩⟩
          rintro ⟨_, nr1, hnr1, hr1⟩
          rw [show bc[lower_bound bc cursor g]? = some nr from hnr] at hnr1
          cases hnr1
          exact absurd hr hr1
        · cases h
          refine ⟨rfl, hpos, hlb, hrb, nl, hnl,
            ⟨fun hv => Verdict.noConfusion hv, fun hv => absurd hv hl⟩,
            ⟨fun hv => Verdict.noConfusion hv, ?_⟩,
            ⟨fun _ => ⟨hl, nr, hnr, hr⟩, fun _ => rfl⟩⟩
          rintro ⟨_, nr1, hnr1, hr1⟩
          rw [show bc[lower_bound bc cursor g]? = some nr from hnr] at hnr1
          cases hnr1
          exact absurd hr1 hr
  · exact absurd h (by simp)

/-! ## The refinement step in terms of its trace -/

theorem adjustSplitters_eq {fk lk : Nat} {s t : Sorter} (h : adjustSplitters fk lk s = some t) :
    ∃ tr, traceGoals s.binCounts s.splitters s.closeEnough 0 s.goals = some tr ∧
      t.goals = (tr.filter staysUnresolved).map Prod.fst ∧
      t.keyBoundaries = s.keyBoundaries ++ tr.filterMap acceptedKey ∧
      ((tr.filter staysUnresolved = [] ∧ t.sorted = true ∧ t.splitters = s.splitters) ∨
        (tr.filter staysUnresolved ≠ [] ∧ t.sorted = s.sorted ∧
          t.splitters = setInsert lk (setInsert fk (tr.foldl addProbes [])))) := by
  unfold adjustSplitters at h
  rw [adjustLoop_eq_trace] at h
  cases htr : traceGoals s.binCounts s.splitters s.closeEnough 0 s.goals with
  | none => rw [htr] at h; exact absurd h (by simp)
  | some tr =>
    rw [htr] at h
    simp only [Option.map_some'] at h
    refine ⟨tr, rfl, ?_⟩
    split_ifs at h with hn
    · cases h
      exact ⟨rfl, rfl, Or.inl ⟨(foldl_addProbes_eq_nil.mp hn).2, rfl, rfl⟩⟩
    · cases h
      refine ⟨rfl, rfl, Or.inr ⟨?_, rfl, rfl⟩⟩
      intro hf
      exact hn (foldl_addProbes_eq_nil.mpr ⟨rfl, hf⟩)

theorem staysUnresolved_iff (gb : Int × Bracket) :
    staysUnresolved gb = true ↔ gb.2.verdict = Verdict.unresolved := by
  unfold staysUnresolved
  cases gb.2.verdict <;> simp

theorem pairwise_getElem? {l : List Nat} (h : l.Pairwise (· < ·)) {i j a b : Nat}
    (hi : l[i]? = some a) (hj : l[j]? = some b) (hij : i < j) : a < b := by
  obtain ⟨hi1, rfl⟩ := List.getElem?_eq_some_iff.mp hi
  obtain ⟨hj1, rfl⟩ := List.getElem?_eq_some_iff.mp hj
  exact List.pairwise_iff_getElem.mp h i j hi1 hj1 hij

/-- The keys of a bracket are two neighbours of the candidate list. -/
theorem bracket_keys {bc : List Int} {sp : List Nat} {ce : Int} {cursor : Nat} {g : Int}
    {b : Bracket} (h : bracketGoal bc sp ce cursor g = some b) :
    b.leftBound ∈ sp ∧ b.rightBound ∈ sp ∧
      (sp.Pairwise (· < ·) → b.leftBound < b.rightBound) := by
  obtain ⟨_, hpos, hlb, hrb, _⟩ := bracketGoal_spec h
  exact ⟨List.getElem?_mem hlb, List.getElem?_mem hrb,
    fun hp => pairwise_getElem? hp hlb hrb (by omega)⟩

/-- C10: every key `adjustSplitters` appends to `keyBoundaries` is an entry `splitters[i]` of
the current candidate list whose cumulative count `binCounts[i]` is within `closeEnough` of
the goal being resolved: the left bracket `splitters[pos - 1]` is accepted exactly when
`|binCounts[pos - 1] - goal| ≤ closeEnough`, the right bracket `splitters[pos]` exactly when
the left one does not qualify and `|binCounts[pos] - goal| ≤ closeEnough`, and the goal stays
in the goal list exactly when neither qualifies. -/
theorem adjustSplitters_accepts (firstPossibleKey lastPossibleKey : Nat) (s t : Sorter)
    (h : adjustSplitters firstPossibleKey lastPossibleKey s = some t) :
    ∃ tr, traceGoals s.binCounts s.splitters s.closeEnough 0 s.goals = some tr ∧
      tr.map Prod.fst = s.goals ∧
      t.keyBoundaries = s.keyBoundaries ++ tr.filterMap acceptedKey ∧
      t.goals = (tr.filter staysUnresolved).map Prod.fst ∧
      ∀ gb ∈ tr, ∃ numLeft,
        1 ≤ gb.2.pos ∧
        s.splitters[gb.2.pos - 1]? = some gb.2.leftBound ∧
        s.splitters[gb.2.pos]? = some gb.2.rightBound ∧
        s.binCounts[gb.2.pos - 1]? = some numLeft ∧
        (acceptedKey gb = some gb.2.leftBound ∧ staysUnresolved gb = false ∧
            |numLeft - gb.1| ≤ s.closeEnough ∨
          ¬ |numLeft - gb.1| ≤ s.closeEnough ∧
            ∃ numRight, s.binCounts[gb.2.pos]? = some numRight ∧
              (acceptedKey gb = some gb.2.rightBound ∧ staysUnresolved gb = false ∧
                  |numRight - gb.1| ≤ s.closeEnough ∨
                acceptedKey gb = none ∧ staysUnresolved gb = true ∧
                  ¬ |numRight - gb.1| ≤ s.closeEnough)) := by
  obtain ⟨tr, htr, hgoals, hkb, _⟩ := adjustSplitters_eq h
  refine ⟨tr, htr, traceGoals_map_fst htr, hkb, hgoals, ?_⟩
  intro gb hgb
  obtain ⟨c, hc⟩ := traceGoals_mem htr gb hgb
  obtain ⟨_, hpos, hlb, hrb, nl, hnl, h1, h2, h3⟩ := bracketGoal_spec hc
  refine ⟨nl, hpos, hlb, hrb, hnl, ?_⟩
  cases hv : gb.2.verdict with
  | acceptLeft =>
    exact Or.inl ⟨by simp [acceptedKey, hv], by simp [staysUnresolved, hv], h1.mp hv⟩
  | acceptRight =>
    obtain ⟨hl, nr, hnr, hr⟩ := h2.mp hv
    exact Or.inr ⟨hl, nr, hnr,
      Or.inl ⟨by simp [acceptedKey, hv], by simp [staysUnresolved, hv], hr⟩⟩
  | unresolved =>
    obtain ⟨hl, nr, hnr, hr⟩ := h3.mp hv
    exact Or.inr ⟨hl, nr, hnr,
      Or.inr ⟨by simp [acceptedKey, hv], by simp [staysUnresolved, hv], hr⟩⟩

/-- C10 at the step from `probingThree` to `refinedThree`. -/
theorem adjustSplitters_accepts_witness :
    adjustSplitters 0 100 probingThree = some refinedThree ∧
    ∃ tr, traceGoals probingThree.binCounts probingThree.splitters probingThree.closeEnough 0
        probingThree.goals = some tr ∧
      tr.map Prod.fst = probingThree.goals ∧
      refinedThree.keyBoundaries = probingThree.keyBoundaries ++ tr.filterMap acceptedKey ∧
      refinedThree.goals = (tr.filter staysUnresolved).map Prod.fst ∧
      ∀ gb ∈ tr, ∃ numLeft,
        1 ≤ gb.2.pos ∧
        probingThree.splitters[gb.2.pos - 1]? = some gb.2.leftBound ∧
        probingThree.splitters[gb.2.pos]? = some gb.2.rightBound ∧
        probingThree.binCounts[gb.2.pos - 1]? = some numLeft ∧
        (acceptedKey gb = some gb.2.leftBound ∧ staysUnresolved gb = false ∧
            |numLeft - gb.1| ≤ probingThree.closeEnough ∨
          ¬ |numLeft - gb.1| ≤ probingThree.closeEnough ∧
            ∃ numRight, probingThree.binCounts[gb.2.pos]? = some numRight ∧
              (acceptedKey gb = some gb.2.rightBound ∧ staysUnresolved gb = false ∧
                  |numRight - gb.1| ≤ probingThree.closeEnough ∨
                acceptedKey gb = none ∧ staysUnresolved gb = true ∧
                  ¬ |numRight - gb.1| ≤ probingThree.closeEnough)) :=
  ⟨rfl, adjustSplitters_accepts 0 100 probingThree refinedThree rfl⟩

theorem mid_bounds {a b : Nat} (h : a < b) : a ≤ a / 2 + b / 2 ∧ a / 2 + b / 2 ≤ b := by
  omega

/-- The membership in the candidate list stored when some goal stays unresolved. -/
theorem mem_new_splitters {fk lk : Nat} {tr : List (Int × Bracket)} {k : Nat} :
    k ∈ setInsert lk (setInsert fk (tr.foldl addProbes [])) ↔
      k = fk ∨ k = lk ∨
        ∃ gb ∈ tr, staysUnresolved gb = true ∧
          (k = gb.2.leftBound ∨ k = gb.2.rightBound ∨
            k = gb.2.leftBound / 2 + gb.2.rightBound / 2) := by
  rw [mem_setInsert, mem_setInsert, mem_foldl_addProbes]
  constructor
  · rintro (h1 | h1 | h1 | ⟨gb, hgb, hv, hk⟩)
    · exact Or.inr (Or.inl h1)
    · exact Or.inl h1
    · exact absurd h1 (List.not_mem_nil _)
    · exact Or.inr (Or.inr ⟨gb, hgb, (staysUnresolved_iff gb).mpr hv, hk⟩)
  · rintro (h1 | h1 | ⟨gb, hgb, hv, hk⟩)
    · exact Or.inr (Or.inl h1)
    · exact Or.inl h1
    · exact Or.inr (Or.inr (Or.inr ⟨gb, hgb, (staysUnresolved_iff gb).mp hv, hk⟩))

/-- The candidate list after a refinement step is strictly increasing and within the key
range if the one before it is. -/
theorem adjustSplitters_splitters_range {fk lk : Nat} {s t : Sorter}
    (h : adjustSplitters fk lk s = some t) (hle : fk ≤ lk)
    (hsp : s.splitters.Pairwise (· < ·)) (hr : ∀ k ∈ s.splitters, fk ≤ k ∧ k ≤ lk) :
    t.splitters.Pairwise (· < ·) ∧ ∀ k ∈ t.splitters, fk ≤ k ∧ k ≤ lk := by
  obtain ⟨tr, htr, _, _, hcase⟩ := adjustSplitters_eq h
  rcases hcase with ⟨_, _, hsame⟩ | ⟨_, _, hsplit⟩
  · rw [hsame]
    exact ⟨hsp, hr⟩
  · rw [hsplit]
    refine ⟨setInsert_pairwise (setInsert_pairwise
      (foldl_addProbes_pairwise tr List.Pairwise.nil)), ?_⟩
    intro k hk
    rcases mem_new_splitters.mp hk with rfl | rfl | ⟨gb, hgb, _, hk1⟩
    · exact ⟨le_refl _, hle⟩
    · exact ⟨hle, le_refl _⟩
    · obtain ⟨c, hc⟩ := traceGoals_mem htr gb hgb
      obtain ⟨hl, hrt, hlt⟩ := bracket_keys hc
      have h1 := (hr _ hl).1
      have h2 := (hr _ hrt).2
      have h3 := mid_bounds (hlt hsp)
      have h4 := hlt hsp
      rcases hk1 with rfl | rfl | rfl <;> omega

/-- The keys a refinement step appends to `keyBoundaries` are candidate keys. -/
theorem adjustSplitters_keyBoundaries {fk lk : Nat} {s t : Sorter}
    (h : adjustSplitters fk lk s = some t) :
    ∃ added, t.keyBoundaries = s.keyBoundaries ++ added ∧
      added.length + t.goals.length = s.goals.length ∧ (∀ k ∈ added, k ∈ s.splitters) ∧
      (t.sorted = true ∨ t.sorted = s.sorted) ∧
      (s.sorted = false → t.sorted = true → t.goals = []) ∧
      (t.goals = [] → t.sorted = true) := by
  obtain ⟨tr, htr, hgoals, hkb, hcase⟩ := adjustSplitters_eq h
  refine ⟨tr.filterMap acceptedKey, hkb, ?_, ?_, ?_, ?_, ?_⟩
  · rw [hgoals, List.length_map, ← traceGoals_map_fst htr, List.length_map]
    clear htr hgoals hkb hcase h
    induction tr with
    | nil => rfl
    | cons gb tr ih =>
      rw [List.filterMap_cons, List.filter_cons]
      unfold acceptedKey staysUnresolved at *
      cases gb.2.verdict <;> simp <;> omega
  · intro k hk
    obtain ⟨gb, hgb, hacc⟩ := List.mem_filterMap.mp hk
    obtain ⟨c, hc⟩ := traceGoals_mem htr gb hgb
    obtain ⟨hl, hrt, _⟩ := bracket_keys hc
    unfold acceptedKey at hacc
    cases hv : gb.2.verdict <;> rw [hv] at hacc <;> simp at hacc
    · rw [← hacc]; exact hl
    · rw [← hacc]; exact hrt
  · rcases hcase with ⟨_, hs, _⟩ | ⟨_, hs, _⟩
    · exact Or.inl hs
    · exact Or.inr hs
  · intro hs0 hs
    rcases hcase with ⟨hnil, _, _⟩ | ⟨hne, hs1, _⟩
    · rw [hgoals, hnil]; rfl
    · rw [hs1, hs0] at hs
      exact absurd hs (by simp)
  · intro hg
    rcases hcase with ⟨_, hs, _⟩ | ⟨hne, _, _⟩
    · exact hs
    · rw [hgoals] at hg
      exact absurd (List.map_eq_nil_iff.mp hg) hne

/-- C9: when `adjustSplitters` leaves at least one goal unresolved and the current candidate
list is strictly increasing within `[firstPossibleKey, lastPossibleKey]`, the candidate list
it stores in `splitters` is strictly increasing, starts with `firstPossibleKey`, ends with
`lastPossibleKey`, and its elements are exactly the two sentinels together with `leftBound`,
`rightBound` and `leftBound / 2 + rightBound / 2` of every goal that stayed unresolved in
this round. -/
theorem adjustSplitters_new_candidates (firstPossibleKey lastPossibleKey : Nat)
    (s t : Sorter) (h : adjustSplitters firstPossibleKey lastPossibleKey s = some t)
    (hg : t.goals ≠ []) (hsp : s.splitters.Pairwise (· < ·))
    (hr : ∀ k ∈ s.splitters, firstPossibleKey ≤ k ∧ k ≤ lastPossibleKey) :
    t.splitters.Pairwise (· < ·) ∧
      t.splitters.head? = some firstPossibleKey ∧
      t.splitters.getLast? = some lastPossibleKey ∧
      t.sorted = s.sorted ∧
      ∃ tr, traceGoals s.binCounts s.splitters s.closeEnough 0 s.goals = some tr ∧
        t.goals = (tr.filter staysUnresolved).map Prod.fst ∧
        ∀ k, k ∈ t.splitters ↔
          k = firstPossibleKey ∨ k = lastPossibleKey ∨
            ∃ gb ∈ tr, staysUnresolved gb = true ∧
              (k = gb.2.leftBound ∨ k = gb.2.rightBound ∨
                k = gb.2.leftBound / 2 + gb.2.rightBound / 2) := by
  obtain ⟨tr, htr, hgoals, _, hcase⟩ := adjustSplitters_eq h
  rcases hcase with ⟨hnil, _, _⟩ | ⟨_, hsorted, hsplit⟩
  · rw [hgoals, hnil] at hg
    exact absurd rfl hg
  have hmem : ∀ k, k ∈ t.splitters ↔
      k = firstPossibleKey ∨ k = lastPossibleKey ∨
        ∃ gb ∈ tr, staysUnresolved gb = true ∧
          (k = gb.2.leftBound ∨ k = gb.2.rightBound ∨
            k = gb.2.leftBound / 2 + gb.2.rightBound / 2) := by
    intro k
    rw [hsplit]
    exact mem_new_splitters
  have hle : firstPossibleKey ≤ lastPossibleKey := by
    cases htr1 : tr.filter staysUnresolved with
    | nil => rw [hgoals, htr1] at hg; exact absurd rfl hg
    | cons gb rest =>
      have hgb : gb ∈ tr.filter staysUnresolved := by rw [htr1]; exact List.mem_cons_self _ _
      obtain ⟨c, hc⟩ := traceGoals_mem htr gb (List.mem_filter.mp hgb).1
      have h1 := hr _ (bracket_keys hc).1
      omega
  obtain ⟨hpw, hrange⟩ := adjustSplitters_splitters_range h hle hsp hr
  refine ⟨hpw, ?_, ?_, hsorted, tr, htr, hgoals, hmem⟩
  · exact head?_of_pairwise_lt hpw ((hmem _).mpr (Or.inl rfl)) (fun x hx => (hrange x hx).1)
  · exact getLast?_of_pairwise_lt hpw ((hmem _).mpr (Or.inr (Or.inl rfl)))
      (fun x hx => (hrange x hx).2)

/-- C9 at the step from `probingThree` to `refinedThree`. -/
theorem adjustSplitters_new_candidates_witness :
    (adjustSplitters 0 100 probingThree = some refinedThree ∧ refinedThree.goals ≠ [] ∧
      probingThree.splitters.Pairwise (· < ·) ∧
      ∀ k ∈ probingThree.splitters, 0 ≤ k ∧ k ≤ 100) ∧
    (refinedThree.splitters.Pairwise (· < ·) ∧
      refinedThree.splitters.head? = some 0 ∧
      refinedThree.splitters.getLast? = some 100 ∧
      refinedThree.sorted = probingThree.sorted ∧
      ∃ tr, traceGoals probingThree.binCounts probingThree.splitters
          probingThree.closeEnough 0 probingThree.goals = some tr ∧
        refinedThree.goals = (tr.filter staysUnresolved).map Prod.fst ∧
        ∀ k, k ∈ refinedThree.splitters ↔
          k = 0 ∨ k = 100 ∨
            ∃ gb ∈ tr, staysUnresolved gb = true ∧
              (k = gb.2.leftBound ∨ k = gb.2.rightBound ∨
                k = gb.2.leftBound / 2 + gb.2.rightBound / 2)) :=
  ⟨⟨rfl, by decide, by decide, by decide⟩,
    adjustSplitters_new_candidates 0 100 probingThree refinedThree rfl (by decide)
      (by decide) (by decide)⟩

/-! ## Non-negative counts -/

theorem runningSumsFrom_nonneg {acc : Int} {l : List Int} (hacc : 0 ≤ acc)
    (hl : ∀ c ∈ l, 0 ≤ c) : ∀ x ∈ runningSumsFrom acc l, 0 ≤ x := by
  induction l generalizing acc with
  | nil => simp [runningSumsFrom]
  | cons y ys ih =>
    intro x hx
    rw [runningSumsFrom, List.mem_cons] at hx
    have hy : 0 ≤ y := hl y (List.mem_cons_self _ _)
    rcases hx with rfl | hx
    · omega
    · exact ih (by omega) (fun c hc => hl c (List.mem_cons_of_mem _ hc)) x hx

theorem runningSums_zero_cons_nonneg {counts : List Int} (hl : ∀ c ∈ counts, 0 ≤ c) :
    ∀ x ∈ runningSums (0 :: counts), 0 ≤ x := by
  intro x hx
  rw [runningSums, List.mem_cons] at hx
  rcases hx with rfl | hx
  · exact le_refl _
  · exact runningSumsFrom_nonneg (le_refl _) hl x hx

theorem sum_nonneg_of_nonneg {counts : List Int} (hl : ∀ c ∈ counts, 0 ≤ c) :
    0 ≤ counts.sum := List.sum_nonneg hl

/-! ## The lower bound of a value that nothing is below -/

theorem lowerBoundLoop_of_all_ge {v : List Int} {val : Int} (h : ∀ i, val ≤ v.getD i 0)
    (fuel first len : Nat) : lowerBoundLoop v val fuel first len = first := by
  induction fuel generalizing len with
  | zero => rfl
  | succ n ih =>
    unfold lowerBoundLoop
    by_cases h1 : len = 0
    · rw [if_pos h1]
    · have h2 : ¬ v.getD (first + len / 2) 0 < val := not_lt.mpr (h _)
      simp only [if_neg h1, if_neg h2]
      exact ih _

theorem lower_bound_zero_of_nonneg {v : List Int} (h : ∀ x ∈ v, 0 ≤ x) (first : Nat) :
    lower_bound v first 0 = first := by
  apply lowerBoundLoop_of_all_ge
  intro i
  rw [List.getD_eq_getElem?_getD]
  cases hi : v[i]? with
  | none => simp
  | some x => exact h x (List.getElem?_mem hi)

theorem traceGoals_zero_goal {bc : List Int} (h : ∀ x ∈ bc, 0 ≤ x) (sp : List Nat) (ce : Int)
    (gs : List Int) : traceGoals bc sp ce 0 (0 :: gs) = none := by
  unfold traceGoals bracketGoal
  simp [lower_bound_zero_of_nonneg h]

/-! ## One probing round, stage by stage -/

theorem collectEvaluations_step {fk lk : Nat} {s s1 : Sorter} {m : Msg} {counts : List Int}
    (hs : s.sorted = false) (h : collectEvaluations fk lk s counts = some (s1, m)) :
    ∃ s2 t, prepareRound (receiveCounts s counts) = some s2 ∧
      adjustSplitters fk lk s2 = some t ∧ sendRound lk t = some (s1, m) := by
  rw [collectEvaluations_probing counts hs] at h
  cases h2 : prepareRound (receiveCounts s counts) with
  | none => rw [h2] at h; exact absurd h (by simp)
  | some s2 =>
    rw [h2, Option.some_bind] at h
    cases h3 : adjustSplitters fk lk s2 with
    | none => rw [h3] at h; exact absurd h (by simp)
    | some t =>
      rw [h3, Option.some_bind] at h
      exact ⟨s2, t, rfl, h3, h⟩

theorem prepareRound_spec {s s2 : Sorter} {counts : List Int} (hP : 1 ≤ s.numChares)
    (h : prepareRound (receiveCounts s counts) = some s2) :
    s2.numChares = s.numChares ∧ s2.sorted = s.sorted ∧
      s2.keyBoundaries = s.keyBoundaries ∧ s2.splitters = s.splitters ∧
      s2.binCounts = runningSums (0 :: counts) ∧ s2.tolerance = s.tolerance ∧
      ((s.numKeys ≠ 0 ∧ s2.numKeys = s.numKeys ∧ s2.goals = s.goals ∧
          s2.closeEnough = s.closeEnough) ∨
        (s.numKeys = 0 ∧ s2.numKeys = counts.sum ∧
          s2.goals = (List.range (s.numChares - 1)).map
            (fun (i : Nat) => ((i : Int) + 1) * Int.tdiv counts.sum s.numChares) ∧
          s2.closeEnough = closeEnoughFor (Int.tdiv counts.sum s.numChares) s.tolerance)) := by
  have hov := prepareRound_defined h
  by_cases hk : s.numKeys = 0
  · rw [prepareRound_first counts hP hk hov] at h
    cases h
    exact ⟨rfl, rfl, rfl, rfl, rfl, rfl, Or.inr ⟨hk, rfl, rfl, rfl⟩⟩
  · simp only [prepareRound, receiveCounts, hov, hk, if_false, Option.some.injEq] at h
    cases h
    exact ⟨rfl, rfl, rfl, rfl, rfl, rfl, Or.inl ⟨hk, rfl, rfl, rfl⟩⟩

theorem sendRound_spec {lk : Nat} {t s1 : Sorter} {m : Msg}
    (h : sendRound lk t = some (s1, m)) :
    (t.sorted = false ∧ s1 = t ∧ m = Msg.acceptCandidateKeys t.splitters) ∨
      (t.sorted = true ∧ ∃ b bs, t.keyBoundaries = b :: bs ∧
        s1 = { t with keyBoundaries := b :: (bs.insertionSort (· ≤ ·) ++ [lk]) } ∧
        m = Msg.acceptCandidateKeys (b :: (bs.insertionSort (· ≤ ·) ++ [lk]))) := by
  unfold sendRound at h
  split_ifs at h with hs
  · split at h
    · exact absurd h (by simp)
    · rename_i b bs hkb
      cases h
      exact Or.inr ⟨hs, b, bs, hkb, rfl, rfl⟩
  · cases h
    exact Or.inl ⟨by simpa using hs, rfl, rfl⟩

/-- With non-negative counts that sum to zero no goal can be bracketed: the refinement step
is undefined unless the goal list is empty. -/
theorem goals_nil_of_sum_zero {fk lk : Nat} {s s2 t : Sorter} {counts : List Int}
    (hP : 1 ≤ s.numChares) (hk : s.numKeys = 0) (hc : ∀ c ∈ counts, 0 ≤ c)
    (hsum : counts.sum = 0)
    (h2 : prepareRound (receiveCounts s counts) = some s2)
    (h3 : adjustSplitters fk lk s2 = some t) : s2.goals = [] := by
  obtain ⟨_, _, _, _, hbc, _, hcase⟩ := prepareRound_spec hP h2
  rcases hcase with ⟨hne, _⟩ | ⟨_, _, hgoals, _⟩
  · exact absurd hk hne
  · obtain ⟨tr, htr, _⟩ := adjustSplitters_eq h3
    rw [hgoals, hsum] at htr ⊢
    cases hn : s.numChares - 1 with
    | zero => rfl
    | succ n =>
      rw [hn, List.range_succ_eq_map, List.map_cons] at htr
      have hz : ((((0 : Nat) : Int) + 1) * Int.tdiv 0 (s.numChares : Int)) = 0 := by simp
      rw [hz, hbc, traceGoals_zero_goal (runningSums_zero_cons_nonneg hc)] at htr
      exact absurd htr (by simp)

/-! ## The invariants of the probing rounds -/

theorem startSorting_probing (fk lk : Nat) (s : Sorter) (P : Nat) (toler : ℚ) :
    Probing fk P (startSorting fk lk s P toler).1 :=
  ⟨rfl, rfl, [], rfl, Or.inl ⟨rfl, rfl⟩⟩

theorem probing_step {fk lk P : Nat} {s s1 : Sorter} {m : Msg} {counts : List Int}
    (hP : 1 ≤ P) (hI : Probing fk P s) (hc : ∀ c ∈ counts, 0 ≤ c)
    (h : collectEvaluations fk lk s counts = some (s1, m)) :
    (Probing fk P s1 ∧ m = Msg.acceptCandidateKeys s1.splitters) ∨
      (s1.sorted = true ∧ m = Msg.acceptCandidateKeys s1.keyBoundaries ∧
        ∃ interior, s1.keyBoundaries = fk :: (interior ++ [lk]) ∧
          interior.length + 1 = P ∧ interior.Sorted (· ≤ ·)) := by
  obtain ⟨hs, hn, rest, hkb, hcnt⟩ := hI
  obtain ⟨s2, t, h2, h3, h4⟩ := collectEvaluations_step hs h
  have hP1 : 1 ≤ s.numChares := by omega
  obtain ⟨h2n, h2s, h2kb, _, _, _, h2case⟩ := prepareRound_spec hP1 h2
  obtain ⟨added, hkb1, hlen, _, _, hsg, hgs⟩ := adjustSplitters_keyBoundaries h3
  obtain ⟨h3n, _, h3k, _⟩ := adjustSplitters_frame h3
  have hcount : rest.length + s2.goals.length + 1 = P := by
    rcases h2case with ⟨hne, _, hg, _⟩ | ⟨hz, _, hg, _⟩
    · rcases hcnt with ⟨hz, _⟩ | ⟨_, hcnt⟩
      · exact absurd hz hne
      · rw [hg]; exact hcnt
    · rcases hcnt with ⟨_, hrest⟩ | ⟨hne, _⟩
      · rw [hg, hrest, List.length_map, List.length_range]
        simp only [List.length_nil]
        omega
      · exact absurd hz hne
  rcases sendRound_spec h4 with ⟨hts, rfl, hm⟩ | ⟨hts, b, bs, htkb, rfl, hm⟩
  · left
    refine ⟨⟨hts, by rw [h3n, h2n, hn], rest ++ added, ?_, Or.inr ⟨?_, ?_⟩⟩, hm⟩
    · rw [hkb1, h2kb, hkb]; rfl
    · rw [h3k]
      rcases h2case with ⟨hne, hk, _⟩ | ⟨hz, hk, _⟩
      · rw [hk]; exact hne
      · rw [hk]
        intro hsum
        have hg2 := goals_nil_of_sum_zero hP1 hz hc hsum h2 h3
        rw [hg2] at hlen
        simp only [List.length_nil] at hlen
        have hg1 : s1.goals = [] := List.length_eq_zero.mp (by omega)
        rw [hgs hg1] at hts
        exact absurd hts (by simp)
    · rw [List.length_append]; omega
  · right
    have hg1 : t.goals = [] := hsg (by rw [h2s]; exact hs) hts
    rw [hkb1, h2kb, hkb, List.cons_append, List.cons.injEq] at htkb
    obtain ⟨rfl, hbs⟩ := htkb
    refine ⟨hts, hm, bs.insertionSort (· ≤ ·), rfl, ?_, List.sorted_insertionSort _ _⟩
    rw [List.length_insertionSort, ← hbs, List.length_append]
    rw [hg1] at hlen
    simp only [List.length_nil] at hlen
    omega

/-- The probing rounds preserve an invariant of the unconverged states; what a round
establishes when it converges holds after the last response. -/
theorem probeRounds_induct (fk lk : Nat) (I : Sorter → Prop) (F : Sorter → Msg → Prop)
    (hI : ∀ s, I s → s.sorted = false)
    (hstep : ∀ s counts s1 m, I s → (∀ c ∈ counts, 0 ≤ c) →
      collectEvaluations fk lk s counts = some (s1, m) →
        I s1 ∨ (s1.sorted = true ∧ F s1 m)) :
    ∀ (rs : List (List Int)) (s : Sorter) (m0 : Msg) (s1 : Sorter) (m : Msg), I s →
      (∀ counts ∈ rs, ∀ c ∈ counts, 0 ≤ c) →
      probeRounds fk lk s m0 rs = some (s1, m) → s1.sorted = true → F s1 m := by
  intro rs
  induction rs with
  | nil =>
    intro s m0 s1 m hs _ h hsorted
    simp only [probeRounds, Option.some.injEq, Prod.mk.injEq] at h
    rw [← h.1, hI s hs] at hsorted
    exact absurd hsorted (by simp)
  | cons counts rest ih =>
    intro s m0 s1 m hs hc h hsorted
    unfold probeRounds at h
    rw [if_neg (by rw [hI s hs]; simp)] at h
    cases hce : collectEvaluations fk lk s counts with
    | none => rw [hce] at h; exact absurd h (by simp)
    | some r =>
      obtain ⟨s2, m2⟩ := r
      rw [hce] at h
      simp only [] at h
      rcases hstep s counts s2 m2 hs (hc counts (List.mem_cons_self _ _)) hce with h2 | h2
      · exact ih s2 m2 s1 m h2 (fun c hcm => hc c (List.mem_cons_of_mem _ hcm)) h hsorted
      · cases rest with
        | nil =>
          simp only [probeRounds, Option.some.injEq, Prod.mk.injEq] at h
          rw [← h.1, ← h.2]
          exact h2.2
        | cons c2 rest2 =>
          unfold probeRounds at h
          rw [if_pos h2.1] at h
          exact absurd h (by simp)

/-! ## Counts of a fixed data set -/

theorem countIn_self (data : List Nat) (a : Nat) : countIn data a a = 0 := by
  unfold countIn
  have : data.countP (fun d => decide (a ≤ d ∧ d < a)) = 0 := by
    rw [List.countP_eq_zero]
    intro d _
    simp only [decide_eq_true_eq]
    omega
  rw [this]; rfl

theorem countP_interval_add (data : List Nat) {a b c : Nat} (hab : a ≤ b) (hbc : b ≤ c) :
    data.countP (fun d => decide (a ≤ d ∧ d < b)) +
        data.countP (fun d => decide (b ≤ d ∧ d < c)) =
      data.countP (fun d => decide (a ≤ d ∧ d < c)) := by
  induction data with
  | nil => rfl
  | cons d ds ih =>
    simp only [List.countP_cons]
    have key : (if decide (a ≤ d ∧ d < b) = true then 1 else 0) +
        (if decide (b ≤ d ∧ d < c) = true then 1 else 0) =
        (if decide (a ≤ d ∧ d < c) = true then 1 else 0) := by
      clear ih
      split_ifs with h1 h2 h3 h3 h2 h3 h3 <;> simp only [decide_eq_true_eq] at * <;> omega
    omega

theorem countIn_add (data : List Nat) {a b c : Nat} (hab : a ≤ b) (hbc : b ≤ c) :
    countIn data a b + countIn data b c = countIn data a c := by
  unfold countIn
  rw [← countP_interval_add data hab hbc]
  push_cast
  rfl

theorem countIn_nonneg (data : List Nat) (a b : Nat) : 0 ≤ countIn data a b := by
  unfold countIn
  exact Int.ofNat_nonneg _

theorem countIn_mono (data : List Nat) (a : Nat) {b c : Nat} (hbc : b ≤ c) :
    countIn data a b ≤ countIn data a c := by
  unfold countIn
  refine Int.ofNat_le.mpr (List.countP_mono_left ?_ )
  intro d _ hd
  simp only [decide_eq_true_eq] at hd ⊢
  omega

theorem histogram_nonneg (data : List Nat) (l : List Nat) : ∀ c ∈ histogram data l, 0 ≤ c := by
  induction l with
  | nil => simp [histogram]
  | cons a l ih =>
    cases l with
    | nil => simp [histogram]
    | cons b rest =>
      intro c hc
      rw [histogram, List.mem_cons] at hc
      rcases hc with rfl | hc
      · exact countIn_nonneg _ _ _
      · exact ih c hc

/-- The running sums of the histogram of a sorted candidate list are the counts of the
records below each candidate. -/
theorem runningSumsFrom_histogram (data : List Nat) (base a : Nat) (l : List Nat)
    (hbase : base ≤ a) (hs : (a :: l).Pairwise (· ≤ ·)) :
    runningSumsFrom (countIn data base a) (histogram data (a :: l)) =
      l.map (countIn data base) := by
  induction l generalizing a with
  | nil => rfl
  | cons b rest ih =>
    rw [List.pairwise_cons] at hs
    have hab : a ≤ b := hs.1 b (List.mem_cons_self _ _)
    rw [histogram, runningSumsFrom, countIn_add data hbase hab, ih b (le_trans hbase hab) hs.2,
      List.map_cons]

theorem runningSums_histogram (data : List Nat) (a : Nat) (l : List Nat)
    (hs : (a :: l).Pairwise (· ≤ ·)) :
    runningSums (0 :: histogram data (a :: l)) = (a :: l).map (countIn data a) := by
  rw [runningSums, List.map_cons, countIn_self, ← runningSumsFrom_histogram data a a l
    (le_refl _) hs, countIn_self]

/-- Entry `i` of the histogram of a sorted candidate list that starts at `base`. -/
theorem histogram_getElem? (data : List Nat) (base : Nat) (l : List Nat)
    (hs : l.Pairwise (· ≤ ·)) (hbase : ∀ k ∈ l, base ≤ k) (i : Nat) (a b : Nat)
    (ha : l[i]? = some a) (hb : l[i + 1]? = some b) :
    (histogram data l)[i]? = some (countIn data base b - countIn data base a) := by
  induction l generalizing i with
  | nil => simp at ha
  | cons x l ih =>
    cases l with
    | nil => simp at hb
    | cons y rest =>
      rw [List.pairwise_cons] at hs
      rw [histogram]
      cases i with
      | zero =>
        simp only [List.getElem?_cons_zero, Option.some.injEq, zero_add,
          List.getElem?_cons_succ] at ha hb ⊢
        subst ha hb
        have h1 := countIn_add data (hbase x (List.mem_cons_self _ _))
          (hs.1 y (List.mem_cons_self _ _))
        omega
      | succ j =>
        rw [List.getElem?_cons_succ] at ha hb ⊢
        exact ih hs.2 (fun k hk => hbase k (List.mem_cons_of_mem _ hk)) j ha hb

theorem histogram_length (data : List Nat) (l : List Nat) :
    (histogram data l).length = l.length - 1 := by
  induction l with
  | nil => rfl
  | cons a l ih =>
    cases l with
    | nil => rfl
    | cons b rest =>
      rw [histogram, List.length_cons, ih]
      simp

/-! ## Sorting the decided keys keeps every one of them close to a goal -/

theorem countP_le_of_sorted {ks : List Nat} (hs : ks.Pairwise (· ≤ ·)) {i k : Nat}
    (hi : ks[i]? = some k) : i + 1 ≤ ks.countP (fun x => decide (x ≤ k)) := by
  induction ks generalizing i with
  | nil => simp at hi
  | cons x rest ih =>
    rw [List.pairwise_cons] at hs
    rw [List.countP_cons]
    cases i with
    | zero =>
      simp only [List.getElem?_cons_zero, Option.some.injEq] at hi
      subst hi
      simp
    | succ j =>
      rw [List.getElem?_cons_succ] at hi
      have h1 := ih hs.2 hi
      have h2 : x ≤ k := hs.1 k (List.getElem?_mem hi)
      simp only [h2, decide_True, if_true]
      omega

theorem countP_ge_of_sorted {ks : List Nat} (hs : ks.Pairwise (· ≤ ·)) {i k : Nat}
    (hi : ks[i]? = some k) : ks.length - i ≤ ks.countP (fun x => decide (k ≤ x)) := by
  induction ks generalizing i with
  | nil => simp at hi
  | cons x rest ih =>
    rw [List.pairwise_cons] at hs
    cases i with
    | zero =>
      simp only [List.getElem?_cons_zero, Option.some.injEq] at hi
      subst hi
      have : (x :: rest).countP (fun y => decide (x ≤ y)) = (x :: rest).length := by
        rw [List.countP_eq_length]
        intro y hy
        rcases List.mem_cons.mp hy with rfl | hy
        · simp
        · simpa using hs.1 y hy
      omega
    | succ j =>
      rw [List.getElem?_cons_succ] at hi
      have h1 := ih hs.2 hi
      rw [List.countP_cons, List.length_cons]
      omega

theorem countP_range_lt (n i : Nat) :
    (List.range n).countP (fun j => decide (j < i)) ≤ i := by
  have h : ∀ n, (List.range n).countP (fun j => decide (j < i)) ≤ min n i := by
    intro n
    induction n with
    | zero => simp
    | succ n ih =>
      rw [List.range_succ, List.countP_append, List.countP_cons, List.countP_nil]
      by_cases h : n < i
      · simp only [h, decide_True, if_true]; omega
      · simp only [h, decide_False]; simp; omega
  have := h n
  omega

theorem countP_range_gt (n i : Nat) :
    (List.range n).countP (fun j => decide (i < j)) ≤ n - (i + 1) := by
  induction n with
  | zero => simp
  | succ n ih =>
    rw [List.range_succ, List.countP_append, List.countP_cons, List.countP_nil]
    by_cases h : i < n
    · simp only [h, decide_True, if_true]; omega
    · simp only [h, decide_False]; simp; omega

/-- If every decided key has its count within `ce` of its goal, and the goals are
`avg, 2 * avg, ..., n * avg`, then the `i`-th smallest key has its count within `ce` of
`(i + 1) * avg`. -/
theorem sorted_keys_close (F : Nat → Int) (hF : ∀ a b, a ≤ b → F a ≤ F b) (avg ce : Int)
    (havg : 0 ≤ avg) (n : Nat) (pairs : List (Nat × Int))
    (hperm : (pairs.map Prod.snd).Perm
      ((List.range n).map (fun (j : Nat) => ((j : Int) + 1) * avg)))
    (hclose : ∀ p ∈ pairs, |F p.1 - p.2| ≤ ce) (i k : Nat)
    (hi : ((pairs.map Prod.fst).insertionSort (· ≤ ·))[i]? = some k) :
    |F k - ((i : Int) + 1) * avg| ≤ ce := by
  have hsorted : ((pairs.map Prod.fst).insertionSort (· ≤ ·)).Pairwise (· ≤ ·) :=
    List.sorted_insertionSort _ _
  have hp : ((pairs.map Prod.fst).insertionSort (· ≤ ·)).Perm (pairs.map Prod.fst) :=
    List.perm_insertionSort _ _
  have hlen : ((pairs.map Prod.fst).insertionSort (· ≤ ·)).length = n := by
    rw [hp.length_eq, List.length_map, ← List.length_map pairs Prod.snd, hperm.length_eq]
    simp
  have hin : i < n := by
    rw [← hlen]
    exact (List.getElem?_eq_some_iff.mp hi).1
  rw [abs_le]
  constructor
  · -- the lower bound: at least `i + 1` keys are not above `k`
    by_contra hlow
    have h1 := countP_le_of_sorted hsorted hi
    rw [hp.countP_eq, List.countP_map] at h1
    have h2 : pairs.countP ((fun x => decide (x ≤ k)) ∘ Prod.fst) ≤
        pairs.countP ((fun g => decide (g ≤ F k + ce)) ∘ Prod.snd) := by
      refine List.countP_mono_left ?_
      intro p hp1 hpk
      simp only [Function.comp_apply, decide_eq_true_eq] at hpk ⊢
      have h3 := hF _ _ hpk
      have h4 := (abs_le.mp (hclose p hp1)).1
      omega
    have h2a : pairs.countP ((fun g => decide (g ≤ F k + ce)) ∘ Prod.snd) =
        (List.range n).countP
          ((fun g => decide (g ≤ F k + ce)) ∘ fun (j : Nat) => ((j : Int) + 1) * avg) := by
      rw [← List.countP_map, hperm.countP_eq, List.countP_map]
    have h5 : (List.range n).countP
        ((fun g => decide (g ≤ F k + ce)) ∘ fun (j : Nat) => ((j : Int) + 1) * avg) ≤
        (List.range n).countP (fun j => decide (j < i)) := by
      refine List.countP_mono_left ?_
      intro j _ hj
      simp only [Function.comp_apply, decide_eq_true_eq] at hj ⊢
      by_contra hji
      have h6 : ((i : Int) + 1) * avg ≤ ((j : Int) + 1) * avg :=
        mul_le_mul_of_nonneg_right (by omega) havg
      omega
    have h7 := countP_range_lt n i
    omega
  · -- the upper bound: at least `n - i` keys are not below `k`
    by_contra hup
    have h1 := countP_ge_of_sorted hsorted hi
    rw [hlen, hp.countP_eq, List.countP_map] at h1
    have h2 : pairs.countP ((fun x => decide (k ≤ x)) ∘ Prod.fst) ≤
        pairs.countP ((fun g => decide (F k - ce ≤ g)) ∘ Prod.snd) := by
      refine List.countP_mono_left ?_
      intro p hp1 hpk
      simp only [Function.comp_apply, decide_eq_true_eq] at hpk ⊢
      have h3 := hF _ _ hpk
      have h4 := (abs_le.mp (hclose p hp1)).2
      omega
    have h2a : pairs.countP ((fun g => decide (F k - ce ≤ g)) ∘ Prod.snd) =
        (List.range n).countP
          ((fun g => decide (F k - ce ≤ g)) ∘ fun (j : Nat) => ((j : Int) + 1) * avg) := by
      rw [← List.countP_map, hperm.countP_eq, List.countP_map]
    have h5 : (List.range n).countP
        ((fun g => decide (F k - ce ≤ g)) ∘ fun (j : Nat) => ((j : Int) + 1) * avg) ≤
        (List.range n).countP (fun j => decide (i < j)) := by
      refine List.countP_mono_left ?_
      intro j _ hj
      simp only [Function.comp_apply, decide_eq_true_eq] at hj ⊢
      by_contra hji
      have h6 : ((j : Int) + 1) * avg ≤ ((i : Int) + 1) * avg :=
        mul_le_mul_of_nonneg_right (by omega) havg
      omega
    have h7 := countP_range_gt n i
    omega

/-! ## The decided keys of a sort against a fixed data set -/

theorem acceptedPair_map_fst (tr : List (Int × Bracket)) :
    (tr.filterMap acceptedPair).map Prod.fst = tr.filterMap acceptedKey := by
  induction tr with
  | nil => rfl
  | cons gb tr ih =>
    rw [List.filterMap_cons, List.filterMap_cons]
    unfold acceptedPair
    cases acceptedKey gb with
    | none => simpa using ih
    | some k => simpa using ih

theorem acceptedPair_perm (tr : List (Int × Bracket)) :
    ((tr.filterMap acceptedPair).map Prod.snd ++
      (tr.filter staysUnresolved).map Prod.fst).Perm (tr.map Prod.fst) := by
  induction tr with
  | nil => simp
  | cons gb tr ih =>
    rw [List.filterMap_cons, List.filter_cons]
    unfold acceptedPair acceptedKey staysUnresolved
    cases gb.2.verdict
    · simpa using ih
    · simpa using ih
    · simp only [Option.map_none', if_true, List.map_cons]
      exact (List.perm_middle).trans (List.Perm.cons _ ih)

/-- A resolved pair is a candidate key whose count is within the window of the goal. -/
theorem acceptedPair_close {bc : List Int} {sp : List Nat} {ce : Int} {cursor : Nat}
    {tr : List (Int × Bracket)} {goals : List Int} (F : Nat → Int) (hbc : bc = sp.map F)
    (htr : traceGoals bc sp ce cursor goals = some tr) :
    ∀ p ∈ tr.filterMap acceptedPair, |F p.1 - p.2| ≤ ce := by
  intro p hp
  obtain ⟨gb, hgb, hacc⟩ := List.mem_filterMap.mp hp
  obtain ⟨c, hc⟩ := traceGoals_mem htr gb hgb
  obtain ⟨_, _, hlb, hrb, nl, hnl, h1, h2, _⟩ := bracketGoal_spec hc
  unfold acceptedPair acceptedKey at hacc
  cases hv : gb.2.verdict with
  | acceptLeft =>
    rw [hv] at hacc
    simp only [Option.map_some', Option.some.injEq] at hacc
    subst hacc
    have h3 := h1.mp hv
    rw [hbc, List.getElem?_map, hlb] at hnl
    simp only [Option.map_some', Option.some.injEq] at hnl
    rw [hnl]
    exact h3
  | acceptRight =>
    rw [hv] at hacc
    simp only [Option.map_some', Option.some.injEq] at hacc
    subst hacc
    obtain ⟨_, nr, hnr, h3⟩ := h2.mp hv
    rw [hbc, List.getElem?_map, hrb] at hnr
    simp only [Option.map_some', Option.some.injEq] at hnr
    rw [hnr]
    exact h3
  | unresolved =>
    rw [hv] at hacc
    simp at hacc

theorem decided_adjust {data : List Nat} {fk lk P : Nat} {toler : ℚ} {s2 t : Sorter}
    {rest : List Nat} (hbc : s2.binCounts = s2.splitters.map (countIn data fk))
    (hkb : s2.keyBoundaries = fk :: rest) (hD : Decided data fk lk P toler s2 rest)
    (h : adjustSplitters fk lk s2 = some t) :
    ∃ added, t.keyBoundaries = fk :: (rest ++ added) ∧
      Decided data fk lk P toler t (rest ++ added) := by
  obtain ⟨hk, hce, pairs, hkeys, hclose, hperm⟩ := hD
  obtain ⟨tr, htr, hgoals, hkb1, _⟩ := adjustSplitters_eq h
  obtain ⟨_, _, hfk, hfce, _⟩ := adjustSplitters_frame h
  refine ⟨tr.filterMap acceptedKey, by rw [hkb1, hkb]; rfl, by rw [hfk]; exact hk,
    by rw [hfce]; exact hce, pairs ++ tr.filterMap acceptedPair, ?_, ?_, ?_⟩
  · rw [List.map_append, acceptedPair_map_fst, hkeys]
  · intro p hp
    rw [hfce]
    rcases List.mem_append.mp hp with hp | hp
    · exact hclose p hp
    · exact acceptedPair_close (countIn data fk) hbc htr p hp
  · rw [List.map_append, List.append_assoc, hgoals]
    refine List.Perm.trans (List.Perm.append_left _ (acceptedPair_perm tr)) ?_
    rw [traceGoals_map_fst htr]
    exact hperm

theorem getLast?_map_of {l : List Nat} {a : Nat} (F : Nat → Int) (h : l.getLast? = some a) :
    (l.map F).getLast?.getD 0 = F a := by
  obtain ⟨ys, rfl⟩ := List.getLast?_eq_some_iff.mp h
  simp

theorem decided_prepare {data : List Nat} {fk lk P : Nat} {toler : ℚ} {s s2 : Sorter}
    (hP : 1 ≤ P) (hI : Probing fk P s) (hR : InRange fk lk s) (htol : s.tolerance = toler)
    (hD : s.numKeys ≠ 0 → ∀ rest, s.keyBoundaries = fk :: rest →
      Decided data fk lk P toler s rest)
    (h : prepareRound (receiveCounts s (histogram data s.splitters)) = some s2) :
    s2.binCounts = s2.splitters.map (countIn data fk) ∧
      ∃ rest, s2.keyBoundaries = fk :: rest ∧ Decided data fk lk P toler s2 rest := by
  obtain ⟨_, hn, rest, hkb, hcnt⟩ := hI
  obtain ⟨hpw, _, _, hhead, hlast⟩ := hR
  obtain ⟨h2n, _, h2kb, h2sp, h2bc, _, h2case⟩ := prepareRound_spec (by omega) h
  obtain ⟨l, hsp⟩ := List.head?_eq_some_iff.mp hhead
  have hbc : s2.binCounts = s2.splitters.map (countIn data fk) := by
    rw [h2bc, h2sp, hsp]
    refine runningSums_histogram data fk l ?_
    rw [← hsp]
    exact hpw
  refine ⟨hbc, rest, by rw [h2kb, hkb], ?_⟩
  rcases h2case with ⟨hne, hk, hg, hc⟩ | ⟨hz, hk, hg, hc⟩
  · obtain ⟨hk0, hce0, pairs, hp1, hp2, hp3⟩ := hD hne rest hkb
    exact ⟨by rw [hk]; exact hk0, by rw [hc]; exact hce0, pairs, hp1,
      by rw [hc]; exact hp2, by rw [hg]; exact hp3⟩
  · have hrest : rest = [] := by
      rcases hcnt with ⟨_, hr⟩ | ⟨hne, _⟩
      · exact hr
      · exact absurd hz hne
    have hsum : (histogram data s.splitters).sum = countIn data fk lk := by
      rw [← runningSums_zero_cons_getLast, ← h2bc, hbc, h2sp]
      exact getLast?_map_of _ hlast
    rw [hsum] at hk hg hc
    refine ⟨hk, by rw [hc, htol, hn], [], by rw [hrest]; rfl, by simp, ?_⟩
    rw [hg, hn]
    simp

/-! ## The key range without a strictly increasing first candidate list -/

theorem closeEnoughFor_lt (avg : Int) (toler : ℚ) (h : 1 ≤ avg) :
    closeEnoughFor avg toler < avg := by
  unfold closeEnoughFor
  simp only []
  split_ifs with h1
  · omega
  · omega

theorem half_sum_bounds {a b lo hi : Nat} (ha : lo ≤ a) (hb : lo ≤ b) (ha1 : a ≤ hi)
    (hb1 : b ≤ hi) : lo - 1 ≤ a / 2 + b / 2 ∧ a / 2 + b / 2 ≤ hi := by
  omega

theorem wideRange_start (fk lk : Nat) (s : Sorter) (P : Nat) (toler : ℚ) (hle : fk ≤ lk) :
    WideRange fk lk (startSorting fk lk s P toler).1 := by
  have hr := startSplitters_range fk lk P hle
  refine ⟨?_, ?_, ?_, ?_, ?_⟩
  · intro k hk
    have : k = fk := by simpa [startSorting] using hk
    omega
  · intro k hk
    have := hr k hk
    omega
  · intro i k _ hk
    exact (hr k (List.getElem?_mem hk)).1
  · intro i a b ha hb
    have h1 := hr a (List.getElem?_mem ha)
    have h2 := hr b (List.getElem?_mem hb)
    exact (half_sum_bounds h1.1 h2.1 h1.2 h2.2).1
  · intro hne
    exact absurd rfl hne

/-- With non-negative counts and average zero no goal can be bracketed. -/
theorem goals_nil_of_avg_zero {fk lk : Nat} {s s2 t : Sorter} {counts : List Int}
    (hP : 1 ≤ s.numChares) (hk : s.numKeys = 0) (hc : ∀ c ∈ counts, 0 ≤ c)
    (havg : Int.tdiv counts.sum s.numChares = 0)
    (h2 : prepareRound (receiveCounts s counts) = some s2)
    (h3 : adjustSplitters fk lk s2 = some t) : s2.goals = [] := by
  obtain ⟨_, _, _, _, hbc, _, hcase⟩ := prepareRound_spec hP h2
  rcases hcase with ⟨hne, _⟩ | ⟨_, _, hgoals, _⟩
  · exact absurd hk hne
  · obtain ⟨tr, htr, _⟩ := adjustSplitters_eq h3
    rw [hgoals, havg] at htr ⊢
    cases hn : s.numChares - 1 with
    | zero => rfl
    | succ n =>
      rw [hn, List.range_succ_eq_map, List.map_cons] at htr
      have hz : ((((0 : Nat) : Int) + 1) * 0) = 0 := by simp
      rw [hz, hbc, traceGoals_zero_goal (runningSums_zero_cons_nonneg hc)] at htr
      exact absurd htr (by simp)

/-- After the counts are received no open goal is within the window of the count `0`, if the
refinement step is defined. -/
theorem goals_away_from_zero {fk lk : Nat} {s s2 t : Sorter} {counts : List Int}
    (hP : 1 ≤ s.numChares) (hW : s.numKeys ≠ 0 → ∀ g ∈ s.goals, ¬ |0 - g| ≤ s.closeEnough)
    (hc : ∀ c ∈ counts, 0 ≤ c)
    (h2 : prepareRound (receiveCounts s counts) = some s2)
    (h3 : adjustSplitters fk lk s2 = some t) :
    ∀ g ∈ s2.goals, ¬ |0 - g| ≤ s2.closeEnough := by
  obtain ⟨_, _, _, _, _, _, hcase⟩ := prepareRound_spec hP h2
  rcases hcase with ⟨hne, _, hg, hce⟩ | ⟨hz, _, hg, hce⟩
  · rw [hg, hce]
    exact hW hne
  · have hsum : 0 ≤ counts.sum := sum_nonneg_of_nonneg hc
    have havg : 0 ≤ Int.tdiv counts.sum s.numChares :=
      Int.tdiv_nonneg hsum (Int.ofNat_nonneg _)
    by_cases heq : Int.tdiv counts.sum s.numChares = 0
    · rw [goals_nil_of_avg_zero hP hz hc heq h2 h3]
      intro g hgm
      exact absurd hgm (List.not_mem_nil _)
    · intro g hgm
      rw [hg] at hgm
      obtain ⟨j, _, rfl⟩ := List.mem_map.mp hgm
      rw [hce]
      have h1 := closeEnoughFor_lt _ s.tolerance (show 1 ≤ Int.tdiv counts.sum s.numChares
        by omega)
      have h2a : Int.tdiv counts.sum s.numChares ≤
          ((j : Int) + 1) * Int.tdiv counts.sum s.numChares := by
        have : (1 : Int) * Int.tdiv counts.sum s.numChares ≤
            ((j : Int) + 1) * Int.tdiv counts.sum s.numChares :=
          mul_le_mul_of_nonneg_right (by omega) havg
        simpa using this
      rw [zero_sub, abs_neg, abs_of_nonneg (by omega)]
      omega

theorem runningSums_zero_cons_head (counts : List Int) :
    (runningSums (0 :: counts))[0]? = some 0 := by
  simp [runningSums]

/-- The keys a refinement step decides lie between the sentinels: the first candidate is
never accepted, because its count is `0`. -/
theorem adjustSplitters_accepted_range {fk lk : Nat} {s t : Sorter}
    (h : adjustSplitters fk lk s = some t) (h0 : s.binCounts[0]? = some 0)
    (hG : ∀ g ∈ s.goals, ¬ |0 - g| ≤ s.closeEnough)
    (hsp : ∀ k ∈ s.splitters, k ≤ lk)
    (h1 : ∀ i k, 1 ≤ i → s.splitters[i]? = some k → fk ≤ k)
    (hkb : ∀ k ∈ s.keyBoundaries, fk ≤ k ∧ k ≤ lk) :
    ∀ k ∈ t.keyBoundaries, fk ≤ k ∧ k ≤ lk := by
  obtain ⟨tr, htr, _, hkb1, _⟩ := adjustSplitters_eq h
  intro k hk
  rw [hkb1, List.mem_append] at hk
  rcases hk with hk | hk
  · exact hkb k hk
  · obtain ⟨gb, hgb, hacc⟩ := List.mem_filterMap.mp hk
    obtain ⟨c, hc⟩ := traceGoals_mem htr gb hgb
    have hgoal : gb.1 ∈ s.goals := by
      rw [← traceGoals_map_fst htr]
      exact List.mem_map_of_mem _ hgb
    obtain ⟨_, hpos, hlb, hrb, nl, hnl, hleft, _, _⟩ := bracketGoal_spec hc
    unfold acceptedKey at hacc
    cases hv : gb.2.verdict with
    | acceptLeft =>
      rw [hv] at hacc
      simp only [Option.some.injEq] at hacc
      subst hacc
      have hclose := hleft.mp hv
      have hp2 : 1 ≤ gb.2.pos - 1 := by
        by_contra hlt
        have hp0 : gb.2.pos - 1 = 0 := by omega
        rw [hp0, h0, Option.some.injEq] at hnl
        rw [← hnl] at hclose
        exact hG _ hgoal hclose
      exact ⟨h1 _ _ hp2 hlb, hsp _ (List.getElem?_mem hlb)⟩
    | acceptRight =>
      rw [hv] at hacc
      simp only [Option.some.injEq] at hacc
      subst hacc
      exact ⟨h1 _ _ hpos hrb, hsp _ (List.getElem?_mem hrb)⟩
    | unresolved =>
      rw [hv] at hacc
      simp at hacc

/-- The candidate list after a refinement step keeps the wide key range. -/
theorem adjustSplitters_wide {fk lk : Nat} {s t : Sorter}
    (h : adjustSplitters fk lk s = some t) (hle : fk ≤ lk)
    (hsp : ∀ k ∈ s.splitters, fk - 1 ≤ k ∧ k ≤ lk)
    (h1 : ∀ i k, 1 ≤ i → s.splitters[i]? = some k → fk ≤ k)
    (hmid : ∀ i a b, s.splitters[i]? = some a → s.splitters[i + 1]? = some b →
      fk - 1 ≤ a / 2 + b / 2) :
    (∀ k ∈ t.splitters, fk - 1 ≤ k ∧ k ≤ lk) ∧
      (∀ i k, 1 ≤ i → t.splitters[i]? = some k → fk ≤ k) ∧
      (∀ i a b, t.splitters[i]? = some a → t.splitters[i + 1]? = some b →
        fk - 1 ≤ a / 2 + b / 2) := by
  obtain ⟨tr, htr, _, _, hcase⟩ := adjustSplitters_eq h
  rcases hcase with ⟨_, _, hsame⟩ | ⟨_, _, hsplit⟩
  · rw [hsame]
    exact ⟨hsp, h1, hmid⟩
  · have hpw : t.splitters.Pairwise (· < ·) := by
      rw [hsplit]
      exact setInsert_pairwise (setInsert_pairwise
        (foldl_addProbes_pairwise tr List.Pairwise.nil))
    have hrange : ∀ k ∈ t.splitters, fk - 1 ≤ k ∧ k ≤ lk := by
      intro k hk
      rw [hsplit] at hk
      rcases mem_new_splitters.mp hk with rfl | rfl | ⟨gb, hgb, _, hk1⟩
      · omega
      · omega
      · obtain ⟨c, hc⟩ := traceGoals_mem htr gb hgb
        obtain ⟨_, hpos, hlb, hrb, _⟩ := bracketGoal_spec hc
        have hl := hsp _ (List.getElem?_mem hlb)
        have hr := hsp _ (List.getElem?_mem hrb)
        have hrb1 : s.splitters[gb.2.pos - 1 + 1]? = some gb.2.rightBound := by
          rw [Nat.sub_add_cancel hpos]; exact hrb
        have hm := hmid _ _ _ hlb hrb1
        rcases hk1 with rfl | rfl | rfl <;> omega
    refine ⟨hrange, ?_, ?_⟩
    · intro i k hi hk
      obtain ⟨hlen, _⟩ := List.getElem?_eq_some_iff.mp hk
      obtain ⟨k0, h0⟩ : ∃ k0, t.splitters[0]? = some k0 :=
        ⟨_, List.getElem?_eq_getElem (by omega)⟩
      have hlt := pairwise_getElem? hpw h0 hk (by omega)
      have := (hrange _ (List.getElem?_mem h0)).1
      omega
    · intro i a b ha hb
      have hlt := pairwise_getElem? hpw ha hb (by omega)
      have := (hrange _ (List.getElem?_mem ha)).1
      have := mid_bounds hlt
      omega

theorem wideRange_step {fk lk : Nat} {s s1 : Sorter} {m : Msg} {counts : List Int}
    (hle : fk ≤ lk) (hs : s.sorted = false) (hP : 1 ≤ s.numChares) (hW : WideRange fk lk s)
    (hc : ∀ c ∈ counts, 0 ≤ c)
    (h : collectEvaluations fk lk s counts = some (s1, m)) : WideRange fk lk s1 := by
  obtain ⟨hkb, hsp, h1, hmid, hG⟩ := hW
  obtain ⟨s2, t, h2, h3, h4⟩ := collectEvaluations_step hs h
  have hG2 := goals_away_from_zero hP hG hc h2 h3
  obtain ⟨_, _, h2kb, h2sp, h2bc, _, _⟩ := prepareRound_spec hP h2
  rw [← h2sp] at hsp h1 hmid
  rw [← h2kb] at hkb
  have tkb := adjustSplitters_accepted_range h3
    (by rw [h2bc]; exact runningSums_zero_cons_head counts) hG2
    (fun k hk => (hsp k hk).2) h1 hkb
  obtain ⟨tsp, t1, tmid⟩ := adjustSplitters_wide h3 hle hsp h1 hmid
  have tG : ∀ g ∈ t.goals, ¬ |0 - g| ≤ t.closeEnough := by
    obtain ⟨tr, htr, hgoals, _⟩ := adjustSplitters_eq h3
    intro g hg
    rw [(adjustSplitters_frame h3).2.2.2.1]
    refine hG2 g ?_
    rw [hgoals] at hg
    obtain ⟨gb, hgb, rfl⟩ := List.mem_map.mp hg
    rw [← traceGoals_map_fst htr]
    exact List.mem_map_of_mem _ (List.mem_filter.mp hgb).1
  rcases sendRound_spec h4 with ⟨_, rfl, _⟩ | ⟨_, b, bs, htkb, rfl, _⟩
  · exact ⟨tkb, tsp, t1, tmid, fun _ => tG⟩
  · refine ⟨?_, tsp, t1, tmid, fun _ => tG⟩
    intro k hk
    rw [htkb] at tkb
    simp only [List.mem_cons, List.mem_append, List.mem_insertionSort, List.mem_singleton,
      List.not_mem_nil, or_false] at hk
    rcases hk with rfl | hk | rfl
    · exact tkb _ (List.mem_cons_self _ _)
    · exact tkb _ (List.mem_cons_of_mem _ hk)
    · exact ⟨hle, le_refl _⟩

/-- C1: for `P ≥ 1` partitions and responses of non-negative counts, when the probing rounds
of a sort end in convergence the finalized `keyBoundaries` (the keys sent for the exact
counts) has exactly `P + 1` entries: `firstPossibleKey` first, `lastPossibleKey` last, and
`P - 1` interior boundaries between them in non-decreasing order. -/
theorem finalized_keyBoundaries (firstPossibleKey lastPossibleKey : Nat) (s0 : Sorter)
    (P : Nat) (toler : ℚ) (responses : List (List Int)) (s : Sorter) (m : Msg)
    (hP : 1 ≤ P) (hc : ∀ counts ∈ responses, ∀ c ∈ counts, 0 ≤ c)
    (h : probeRounds firstPossibleKey lastPossibleKey
        (startSorting firstPossibleKey lastPossibleKey s0 P toler).1
        (startSorting firstPossibleKey lastPossibleKey s0 P toler).2 responses = some (s, m))
    (hs : s.sorted = true) :
    m = Msg.acceptCandidateKeys s.keyBoundaries ∧
      s.keyBoundaries.length = P + 1 ∧
      s.keyBoundaries.head? = some firstPossibleKey ∧
      s.keyBoundaries.getLast? = some lastPossibleKey ∧
      ∃ interior, s.keyBoundaries = firstPossibleKey :: (interior ++ [lastPossibleKey]) ∧
        interior.length = P - 1 ∧ interior.Sorted (· ≤ ·) := by
  have key := probeRounds_induct firstPossibleKey lastPossibleKey
    (Probing firstPossibleKey P)
    (fun s1 m1 => m1 = Msg.acceptCandidateKeys s1.keyBoundaries ∧
      ∃ interior, s1.keyBoundaries = firstPossibleKey :: (interior ++ [lastPossibleKey]) ∧
        interior.length + 1 = P ∧ interior.Sorted (· ≤ ·))
    (fun s1 h1 => h1.1)
    (fun s1 counts s2 m2 h1 hc1 hce => by
      rcases probing_step hP h1 hc1 hce with h2 | h2
      · exact Or.inl h2.1
      · exact Or.inr h2)
    responses _ _ s m (startSorting_probing _ _ _ _ _) hc h hs
  obtain ⟨hm, interior, hkb, hlen, hsorted⟩ := key
  refine ⟨hm, ?_, ?_, ?_, interior, hkb, by omega, hsorted⟩
  · rw [hkb]
    simp only [List.length_cons, List.length_append, List.length_nil]
    omega
  · rw [hkb]; rfl
  · rw [hkb]
    exact List.getLast?_eq_some_iff.mpr ⟨firstPossibleKey :: interior, rfl⟩

/-- C1 at the sort that converges in `convergedThree`. -/
theorem finalized_keyBoundaries_witness :
    (1 ≤ 3 ∧
      (∀ counts ∈ [[14, 14, 2, 0, 0, 0, 0], [14, 7, 7, 2]], ∀ c ∈ counts, (0 : Int) ≤ c) ∧
      probeRounds 0 100 (startSorting 0 100 idle 3 (1 / 2)).1
          (startSorting 0 100 idle 3 (1 / 2)).2 [[14, 14, 2, 0, 0, 0, 0], [14, 7, 7, 2]] =
        some (convergedThree, Msg.acceptCandidateKeys [0, 14, 21, 100]) ∧
      convergedThree.sorted = true) ∧
    (Msg.acceptCandidateKeys [0, 14, 21, 100] =
        Msg.acceptCandidateKeys convergedThree.keyBoundaries ∧
      convergedThree.keyBoundaries.length = 3 + 1 ∧
      convergedThree.keyBoundaries.head? = some 0 ∧
      convergedThree.keyBoundaries.getLast? = some 100 ∧
      ∃ interior, convergedThree.keyBoundaries = 0 :: (interior ++ [100]) ∧
        interior.length = 3 - 1 ∧ interior.Sorted (· ≤ ·)) :=
  ⟨⟨by decide, by decide, by decide!, by decide⟩,
    finalized_keyBoundaries 0 100 idle 3 (1 / 2) [[14, 14, 2, 0, 0, 0, 0], [14, 7, 7, 2]]
      convergedThree (Msg.acceptCandidateKeys [0, 14, 21, 100]) (by decide) (by decide)
      (by decide!) (by decide)⟩

/-- C8 fails as stated: six records with the keys `10, 10, 10, 20, 20, 20`, three partitions
and tolerance one half.  The first response is the histogram of the data, the search
converges on it, and the keys sent for the exact counts are `[0, 20, 20, 70]`: both goals
were resolved at the key `20`, so the list is not duplicate-free.  The tolerance lies in
`[0, 1)`. -/
theorem finalized_candidates_not_strict :
    histogram [10, 10, 10, 20, 20, 20] [0, 10, 20, 30, 40, 50, 60, 70] =
        [0, 3, 3, 0, 0, 0, 0] ∧
      (startSorting 0 70 idle 3 (1 / 2)).2 =
        Msg.acceptCandidateKeys [0, 10, 20, 30, 40, 50, 60, 70] ∧
      ∃ s, probeRounds 0 70 (startSorting 0 70 idle 3 (1 / 2)).1
            (startSorting 0 70 idle 3 (1 / 2)).2 [[0, 3, 3, 0, 0, 0, 0]] =
          some (s, Msg.acceptCandidateKeys [0, 20, 20, 70]) ∧
        s.sorted = true ∧ s.keyBoundaries = [0, 20, 20, 70] ∧
        ¬ s.keyBoundaries.Pairwise (· < ·) ∧ (0 : ℚ) ≤ 1 / 2 ∧ (1 / 2 : ℚ) < 1 := by
  refine ⟨by decide, by decide, ?_⟩
  exact ⟨duplicateThree, by decide!, rfl, rfl, by decide, by norm_num, by norm_num⟩

/-- C8, amended: when the probing rounds of a sort end in convergence, the finalized
candidate set sent for the exact counts is sorted in non-decreasing order, from
`firstPossibleKey` to `lastPossibleKey` (duplicates can occur).  This holds for every `P ≥ 1`,
every tolerance and every sequence of responses of non-negative counts. -/
theorem finalized_candidates_sorted (firstPossibleKey lastPossibleKey : Nat) (s0 : Sorter)
    (P : Nat) (toler : ℚ) (responses : List (List Int)) (s : Sorter) (m : Msg)
    (hP : 1 ≤ P) (hle : firstPossibleKey ≤ lastPossibleKey)
    (hc : ∀ counts ∈ responses, ∀ c ∈ counts, 0 ≤ c)
    (h : probeRounds firstPossibleKey lastPossibleKey
        (startSorting firstPossibleKey lastPossibleKey s0 P toler).1
        (startSorting firstPossibleKey lastPossibleKey s0 P toler).2 responses = some (s, m))
    (hs : s.sorted = true) :
    m = Msg.acceptCandidateKeys s.keyBoundaries ∧
      s.keyBoundaries.Sorted (· ≤ ·) ∧
      s.keyBoundaries.head? = some firstPossibleKey ∧
      s.keyBoundaries.getLast? = some lastPossibleKey := by
  have key := probeRounds_induct firstPossibleKey lastPossibleKey
    (fun s1 => Probing firstPossibleKey P s1 ∧ WideRange firstPossibleKey lastPossibleKey s1)
    (fun s1 m1 => m1 = Msg.acceptCandidateKeys s1.keyBoundaries ∧
      WideRange firstPossibleKey lastPossibleKey s1 ∧
      ∃ interior, s1.keyBoundaries = firstPossibleKey :: (interior ++ [lastPossibleKey]) ∧
        interior.length + 1 = P ∧ interior.Sorted (· ≤ ·))
    (fun s1 h1 => h1.1.1)
    (fun s1 counts s2 m2 h1 hc1 hce => by
      have hin := wideRange_step hle h1.1.1 (by rw [h1.1.2.1]; exact hP) h1.2 hc1 hce
      rcases probing_step hP h1.1 hc1 hce with h2 | h2
      · exact Or.inl ⟨h2.1, hin⟩
      · exact Or.inr ⟨h2.1, h2.2.1, hin, h2.2.2⟩)
    responses _ _ s m
    ⟨startSorting_probing _ _ _ _ _, wideRange_start _ _ _ _ _ hle⟩ hc h hs
  obtain ⟨hm, hin, interior, hkb, _, hsorted⟩ := key
  refine ⟨hm, ?_, ?_, ?_⟩
  · have hall := hin.1
    rw [hkb] at hall ⊢
    refine List.sorted_cons.mpr ⟨fun k hk => (hall k (List.mem_cons_of_mem _ hk)).1, ?_⟩
    refine List.pairwise_append.mpr ⟨hsorted, List.pairwise_singleton _ _, ?_⟩
    intro a ha b hb
    rw [List.mem_singleton] at hb
    rw [hb]
    exact (hall a (List.mem_cons_of_mem _ (List.mem_append_left _ ha))).2
  · rw [hkb]; rfl
  · rw [hkb]
    exact List.getLast?_eq_some_iff.mpr ⟨firstPossibleKey :: interior, rfl⟩

/-- C8, amended, at the sort that converges in `convergedThree`. -/
theorem finalized_candidates_sorted_witness :
    (1 ≤ 3 ∧ 0 ≤ 100 ∧
      (∀ counts ∈ [[14, 14, 2, 0, 0, 0, 0], [14, 7, 7, 2]], ∀ c ∈ counts, (0 : Int) ≤ c) ∧
      probeRounds 0 100 (startSorting 0 100 idle 3 (1 / 2)).1
          (startSorting 0 100 idle 3 (1 / 2)).2 [[14, 14, 2, 0, 0, 0, 0], [14, 7, 7, 2]] =
        some (convergedThree, Msg.acceptCandidateKeys [0, 14, 21, 100]) ∧
      convergedThree.sorted = true) ∧
    (Msg.acceptCandidateKeys [0, 14, 21, 100] =
        Msg.acceptCandidateKeys convergedThree.keyBoundaries ∧
      convergedThree.keyBoundaries.Sorted (· ≤ ·) ∧
      convergedThree.keyBoundaries.head? = some 0 ∧
      convergedThree.keyBoundaries.getLast? = some 100) :=
  ⟨⟨by decide, by decide, by decide, by decide!, by decide⟩,
    finalized_candidates_sorted 0 100 idle 3 (1 / 2)
      [[14, 14, 2, 0, 0, 0, 0], [14, 7, 7, 2]] convergedThree
      (Msg.acceptCandidateKeys [0, 14, 21, 100]) (by decide) (by decide) (by decide)
      (by decide!) (by decide)⟩

/-! ## `std::lower_bound` on a non-decreasing vector -/

/-- The halving loop does not depend on the fuel once there are `len` rounds of it: every
round makes `len` smaller, so the loop has ended before the fuel does. -/
theorem lowerBoundLoop_fuel (v : List Int) (val : Int) :
    ∀ (fuel fuel1 first len : Nat), len ≤ fuel → len ≤ fuel1 →
      lowerBoundLoop v val fuel first len = lowerBoundLoop v val fuel1 first len := by
  intro fuel
  induction fuel with
  | zero =>
    intro fuel1 first len h _
    have h0 : len = 0 := by omega
    subst h0
    cases fuel1 <;> simp [lowerBoundLoop]
  | succ n ih =>
    intro fuel1 first len h h1
    cases fuel1 with
    | zero =>
      have h0 : len = 0 := by omega
      subst h0
      simp [lowerBoundLoop]
    | succ n1 =>
      unfold lowerBoundLoop
      by_cases h0 : len = 0
      · simp only [h0, if_true]
      · simp only [h0, if_false]
        rw [ih n1 (first + len / 2 + 1) (len - len / 2 - 1) (by omega) (by omega),
          ih n1 first (len / 2) (by omega) (by omega)]

theorem sorted_getElem?_le {v : List Int} (hs : v.Pairwise (· ≤ ·)) {i j : Nat} {x y : Int}
    (hi : v[i]? = some x) (hj : v[j]? = some y) (hij : i ≤ j) : x ≤ y := by
  rcases Nat.eq_or_lt_of_le hij with rfl | hlt
  · rw [hi] at hj
    cases hj
    exact le_refl _
  · obtain ⟨hi1, rfl⟩ := List.getElem?_eq_some_iff.mp hi
    obtain ⟨hj1, rfl⟩ := List.getElem?_eq_some_iff.mp hj
    exact List.pairwise_iff_getElem.mp hs i j hi1 hj1 hlt

/-- The halving loop finds the partition point of a non-decreasing vector; `len` rounds of
fuel are enough. -/
theorem lowerBoundLoop_spec {v : List Int} (val : Int) (hs : v.Pairwise (· ≤ ·)) :
    ∀ (fuel first len : Nat), len ≤ fuel → first + len ≤ v.length →
      first ≤ lowerBoundLoop v val fuel first len ∧
      lowerBoundLoop v val fuel first len ≤ first + len ∧
      (∀ j x, first ≤ j → j < lowerBoundLoop v val fuel first len → v[j]? = some x →
        x < val) ∧
      (∀ j x, lowerBoundLoop v val fuel first len ≤ j → j < first + len → v[j]? = some x →
        val ≤ x) := by
  intro fuel
  induction fuel with
  | zero =>
    intro first len hlen _
    have : len = 0 := by omega
    subst this
    refine ⟨le_refl _, by simp [lowerBoundLoop], ?_, ?_⟩
    · intro j x h1 h2
      simp only [lowerBoundLoop] at h2
      omega
    · intro j x h1 h2
      simp only [lowerBoundLoop] at h1
      omega
  | succ n ih =>
    intro first len hlen hbound
    unfold lowerBoundLoop
    by_cases h0 : len = 0
    · simp only [h0, if_true]
      refine ⟨le_refl _, by omega, ?_, ?_⟩
      · intro j x h1 h2; omega
      · intro j x h1 h2; omega
    · simp only [h0, if_false]
      have hmid : first + len / 2 < v.length := by omega
      have hget : v[first + len / 2]? = some (v.getD (first + len / 2) 0) := by
        rw [List.getD_eq_getElem?_getD, List.getElem?_eq_getElem hmid]
        rfl
      by_cases hlt : v.getD (first + len / 2) 0 < val
      · simp only [hlt, if_true]
        obtain ⟨h1, h2, h3, h4⟩ := ih (first + len / 2 + 1) (len - len / 2 - 1) (by omega)
          (by omega)
        refine ⟨by omega, by omega, ?_, ?_⟩
        · intro j x hj1 hj2 hjx
          by_cases hjm : j ≤ first + len / 2
          · have := sorted_getElem?_le hs hjx hget hjm
            omega
          · exact h3 j x (by omega) hj2 hjx
        · intro j x hj1 hj2 hjx
          exact h4 j x hj1 (by omega) hjx
      · simp only [hlt, if_false]
        obtain ⟨h1, h2, h3, h4⟩ := ih first (len / 2) (by omega) (by omega)
        refine ⟨h1, by omega, h3, ?_⟩
        intro j x hj1 hj2 hjx
        by_cases hjm : j < first + len / 2
        · exact h4 j x hj1 hjm hjx
        · have := sorted_getElem?_le hs hget hjx (by omega)
          omega

theorem lower_bound_spec {v : List Int} (val : Int) (hs : v.Pairwise (· ≤ ·)) (first : Nat)
    (hf : first ≤ v.length) :
    first ≤ lower_bound v first val ∧ lower_bound v first val ≤ v.length ∧
      (∀ j x, first ≤ j → j < lower_bound v first val → v[j]? = some x → x < val) ∧
      (∀ j x, lower_bound v first val ≤ j → v[j]? = some x → val ≤ x) := by
  obtain ⟨h1, h2, h3, h4⟩ := lowerBoundLoop_spec val hs (v.length - first) first
    (v.length - first) (le_refl _) (by omega)
  refine ⟨h1, by unfold lower_bound; omega, h3, ?_⟩
  intro j x hj hjx
  have hjl := (List.getElem?_eq_some_iff.mp hjx).1
  exact h4 j x hj (by omega) hjx

/-- On a non-decreasing count vector and ascending goals the forward cursor brackets every
goal: the count left of the position found is below the goal, the count at the position is
not. -/
theorem traceGoals_bracketed {bc : List Int} {sp : List Nat} {ce : Int}
    (hs : bc.Pairwise (· ≤ ·)) :
    ∀ (goals : List Int) (cursor : Nat) (tr : List (Int × Bracket)),
      goals.Pairwise (· ≤ ·) → cursor ≤ bc.length →
      (cursor = 0 ∨ ∃ x, bc[cursor - 1]? = some x ∧ ∀ g ∈ goals, x < g) →
      traceGoals bc sp ce cursor goals = some tr →
      ∀ gb ∈ tr, ∃ x, bc[gb.2.pos - 1]? = some x ∧ x < gb.1 ∧
        ∀ y, bc[gb.2.pos]? = some y → gb.1 ≤ y := by
  intro goals
  induction goals with
  | nil =>
    intro cursor tr _ _ _ h
    simp only [traceGoals, Option.some.injEq] at h
    subst h
    simp
  | cons g rest ih =>
    intro cursor tr hg hcur hleft h
    unfold traceGoals at h
    cases hb : bracketGoal bc sp ce cursor g with
    | none => rw [hb] at h; exact absurd h (by simp)
    | some b =>
      rw [hb] at h
      simp only [] at h
      cases ht : traceGoals bc sp ce b.pos rest with
      | none => rw [ht] at h; exact absurd h (by simp)
      | some tr1 =>
        rw [ht] at h
        simp only [Option.some.injEq] at h
        subst h
        obtain ⟨hpos, hpos1, _, _, nl, hnl, _⟩ := bracketGoal_spec hb
        obtain ⟨h1, h2, h3, h4⟩ := lower_bound_spec g hs cursor hcur
        rw [← hpos] at h1 h2 h3 h4
        rw [List.pairwise_cons] at hg
        have hnlg : nl < g := by
          by_cases hlt : cursor < b.pos
          · exact h3 (b.pos - 1) nl (by omega) (by omega) hnl
          · have heq : b.pos = cursor := by omega
            rcases hleft with h0 | ⟨x, hx, hxg⟩
            · omega
            · rw [heq, hx, Option.some.injEq] at hnl
              rw [← hnl]
              exact hxg g (List.mem_cons_self _ _)
        intro gb hgb
        rcases List.mem_cons.mp hgb with rfl | hgb
        · exact ⟨nl, hnl, hnlg, fun y hy => h4 b.pos y (le_refl _) hy⟩
        · refine ih b.pos tr1 hg.2 h2 (Or.inr ⟨nl, hnl, ?_⟩) ht gb hgb
          intro g1 hg1
          have := hg.1 g1 hg1
          omega

/-- Against the counts of a data set the two keys of a bracket differ. -/
theorem traceGoals_strict {sp : List Nat} {ce : Int} (F : Nat → Int)
    (hF : ∀ a b, a ≤ b → F a ≤ F b) (hsp : sp.Pairwise (· ≤ ·)) {goals : List Int}
    (hg : goals.Pairwise (· ≤ ·)) {tr : List (Int × Bracket)}
    (h : traceGoals (sp.map F) sp ce 0 goals = some tr) :
    ∀ gb ∈ tr, gb.2.leftBound < gb.2.rightBound := by
  have hbc : (sp.map F).Pairwise (· ≤ ·) :=
    List.pairwise_map.mpr (hsp.imp (fun hab => hF _ _ hab))
  intro gb hgb
  obtain ⟨x, hx, hxg, hy⟩ := traceGoals_bracketed hbc goals 0 tr hg (Nat.zero_le _)
    (Or.inl rfl) h gb hgb
  obtain ⟨c, hc⟩ := traceGoals_mem h gb hgb
  obtain ⟨_, hpos, hlb, hrb, _⟩ := bracketGoal_spec hc
  rw [List.getElem?_map, hlb, Option.map_some', Option.some.injEq] at hx
  have hy1 := hy (F gb.2.rightBound) (by rw [List.getElem?_map, hrb]; rfl)
  have hle : gb.2.leftBound ≤ gb.2.rightBound := by
    obtain ⟨hi1, e1⟩ := List.getElem?_eq_some_iff.mp hlb
    obtain ⟨hj1, e2⟩ := List.getElem?_eq_some_iff.mp hrb
    rw [← e1, ← e2]
    exact List.pairwise_iff_getElem.mp hsp _ _ hi1 hj1 (by omega)
  rcases Nat.eq_or_lt_of_le hle with heq | hlt
  · rw [heq] at hx
    omega
  · exact hlt

/-! ## The key range of a sort against a fixed data set -/

theorem startSorting_inRange (fk lk : Nat) (s : Sorter) (P : Nat) (toler : ℚ) (hP : 1 ≤ P)
    (hle : fk ≤ lk) : InRange fk lk (startSorting fk lk s P toler).1 := by
  have hn : 3 * P - 2 = (3 * P - 3) + 1 := by omega
  have hr := startSplitters_range fk lk P hle
  refine ⟨?_, hr, ?_, ?_, ?_⟩
  · show (pushEven (3 * P - 2) fk ((lk - fk) / (3 * P - 2)) ++ [lk]).Pairwise (· ≤ ·)
    refine List.pairwise_append.mpr ⟨?_, List.pairwise_singleton _ _, ?_⟩
    · rw [pushEven_eq_map, List.pairwise_map]
      refine (List.pairwise_lt_range _).imp ?_
      intro a b hab
      exact Nat.add_le_add_left (Nat.mul_le_mul_right _ (Nat.le_of_lt hab)) _
    · intro a ha b hb
      rw [List.mem_singleton] at hb
      rw [hb]
      exact (hr a (List.mem_append_left _ ha)).2
  · intro k hk
    have : k = fk := by simpa [startSorting] using hk
    omega
  · simp only [startSorting]
    rw [hn, pushEven]
    rfl
  · simp [startSorting]

/-- The candidate list after a refinement step whose brackets all have two different keys:
it is sorted from `firstPossibleKey` to `lastPossibleKey`. -/
theorem adjustSplitters_sound {fk lk : Nat} {s t : Sorter}
    (h : adjustSplitters fk lk s = some t) (hle : fk ≤ lk)
    (hsp : s.splitters.Pairwise (· ≤ ·)) (hr : ∀ k ∈ s.splitters, fk ≤ k ∧ k ≤ lk)
    (hhead : s.splitters.head? = some fk) (hlast : s.splitters.getLast? = some lk)
    (hstrict : ∀ tr, traceGoals s.binCounts s.splitters s.closeEnough 0 s.goals = some tr →
      ∀ gb ∈ tr, gb.2.leftBound < gb.2.rightBound) :
    t.splitters.Pairwise (· ≤ ·) ∧ (∀ k ∈ t.splitters, fk ≤ k ∧ k ≤ lk) ∧
      t.splitters.head? = some fk ∧ t.splitters.getLast? = some lk := by
  obtain ⟨tr, htr, _, _, hcase⟩ := adjustSplitters_eq h
  rcases hcase with ⟨_, _, hsame⟩ | ⟨_, _, hsplit⟩
  · rw [hsame]
    exact ⟨hsp, hr, hhead, hlast⟩
  · have hpw : t.splitters.Pairwise (· < ·) := by
      rw [hsplit]
      exact setInsert_pairwise (setInsert_pairwise
        (foldl_addProbes_pairwise tr List.Pairwise.nil))
    have hrange : ∀ k ∈ t.splitters, fk ≤ k ∧ k ≤ lk := by
      intro k hk
      rw [hsplit] at hk
      rcases mem_new_splitters.mp hk with rfl | rfl | ⟨gb, hgb, _, hk1⟩
      · exact ⟨le_refl _, hle⟩
      · exact ⟨hle, le_refl _⟩
      · obtain ⟨c, hc⟩ := traceGoals_mem htr gb hgb
        obtain ⟨hl, hrt, _⟩ := bracket_keys hc
        have h1 := (hr _ hl).1
        have h2 := (hr _ hrt).2
        have h3 := mid_bounds (hstrict tr htr gb hgb)
        have h4 := hstrict tr htr gb hgb
        rcases hk1 with rfl | rfl | rfl <;> omega
    have hfk : fk ∈ t.splitters := by
      rw [hsplit]; exact mem_new_splitters.mpr (Or.inl rfl)
    have hlk : lk ∈ t.splitters := by
      rw [hsplit]; exact mem_new_splitters.mpr (Or.inr (Or.inl rfl))
    exact ⟨hpw.imp (fun hab => Nat.le_of_lt hab), hrange,
      head?_of_pairwise_lt hpw hfk (fun x hx => (hrange x hx).1),
      getLast?_of_pairwise_lt hpw hlk (fun x hx => (hrange x hx).2)⟩

theorem prepare_binCounts {data : List Nat} {fk lk : Nat} {s s2 : Sorter}
    (hP : 1 ≤ s.numChares) (hR : InRange fk lk s)
    (h : prepareRound (receiveCounts s (histogram data s.splitters)) = some s2) :
    s2.binCounts = s2.splitters.map (countIn data fk) := by
  obtain ⟨hpw, _, _, hhead, _⟩ := hR
  obtain ⟨_, _, _, h2sp, h2bc, _, _⟩ := prepareRound_spec hP h
  obtain ⟨l, hsp⟩ := List.head?_eq_some_iff.mp hhead
  rw [h2bc, h2sp, hsp]
  refine runningSums_histogram data fk l ?_
  rw [← hsp]
  exact hpw

theorem targets_pairwise (n : Nat) (avg : Int) (havg : 0 ≤ avg) :
    ((List.range n).map (fun (j : Nat) => ((j : Int) + 1) * avg)).Pairwise (· ≤ ·) := by
  rw [List.pairwise_map]
  refine (List.pairwise_lt_range n).imp ?_
  intro a b hab
  exact mul_le_mul_of_nonneg_right (by omega) havg

/-- One probing round against the histogram of `data` keeps the candidate keys sorted within
the key range and the goals ascending. -/
theorem inRange_step {data : List Nat} {fk lk : Nat} {s s1 : Sorter} {m : Msg}
    (hle : fk ≤ lk) (hs : s.sorted = false) (hP : 1 ≤ s.numChares) (hR : InRange fk lk s)
    (hG : s.numKeys ≠ 0 → s.goals.Pairwise (· ≤ ·))
    (h : collectEvaluations fk lk s (histogram data s.splitters) = some (s1, m)) :
    InRange fk lk s1 ∧ s1.goals.Pairwise (· ≤ ·) := by
  have hbcR := hR
  obtain ⟨hpw, hsp, hkb, hhead, hlast⟩ := hR
  obtain ⟨s2, t, h2, h3, h4⟩ := collectEvaluations_step hs h
  have hbc := prepare_binCounts hP hbcR h2
  obtain ⟨_, _, h2kb, h2sp, _, _, h2case⟩ := prepareRound_spec hP h2
  have hG2 : s2.goals.Pairwise (· ≤ ·) := by
    rcases h2case with ⟨hne, _, hg, _⟩ | ⟨_, _, hg, _⟩
    · rw [hg]; exact hG hne
    · rw [hg]
      exact targets_pairwise _ _ (Int.tdiv_nonneg
        (sum_nonneg_of_nonneg (histogram_nonneg data _)) (Int.ofNat_nonneg _))
  rw [← h2sp] at hpw hsp hhead hlast
  have hstrict : ∀ tr, traceGoals s2.binCounts s2.splitters s2.closeEnough 0 s2.goals
      = some tr → ∀ gb ∈ tr, gb.2.leftBound < gb.2.rightBound := by
    intro tr htr
    rw [hbc] at htr
    exact traceGoals_strict (countIn data fk)
      (fun a b hab => countIn_mono data fk hab) hpw hG2 htr
  obtain ⟨tpw, tsp, thead, tlast⟩ := adjustSplitters_sound h3 hle hpw hsp hhead hlast hstrict
  obtain ⟨added, hkb1, _, hmem, _⟩ := adjustSplitters_keyBoundaries h3
  have tkb : ∀ k ∈ t.keyBoundaries, fk ≤ k ∧ k ≤ lk := by
    intro k hk
    rw [hkb1, List.mem_append] at hk
    rcases hk with hk | hk
    · exact hkb k (h2kb ▸ hk)
    · exact hsp k (hmem k hk)
  have tG : t.goals.Pairwise (· ≤ ·) := by
    obtain ⟨tr, htr, hgoals, _⟩ := adjustSplitters_eq h3
    rw [hgoals]
    refine List.Pairwise.sublist ?_ (traceGoals_map_fst htr ▸ hG2)
    exact List.Sublist.map _ (List.filter_sublist _)
  rcases sendRound_spec h4 with ⟨_, rfl, _⟩ | ⟨_, b, bs, htkb, rfl, _⟩
  · exact ⟨⟨tpw, tsp, tkb, thead, tlast⟩, tG⟩
  · refine ⟨⟨tpw, tsp, ?_, thead, tlast⟩, tG⟩
    intro k hk
    rw [htkb] at tkb
    simp only [List.mem_cons, List.mem_append, List.mem_insertionSort, List.mem_singleton,
      List.not_mem_nil, or_false] at hk
    rcases hk with rfl | hk | rfl
    · exact tkb _ (List.mem_cons_self _ _)
    · exact tkb _ (List.mem_cons_of_mem _ hk)
    · exact ⟨hle, le_refl _⟩

theorem data_step {data : List Nat} {fk lk P : Nat} {toler : ℚ} {s s1 : Sorter} {m : Msg}
    (hP : 1 ≤ P) (hI : Probing fk P s) (hR : InRange fk lk s) (htol : s.tolerance = toler)
    (hD : s.numKeys ≠ 0 → ∀ rest, s.keyBoundaries = fk :: rest →
      Decided data fk lk P toler s rest)
    (h : collectEvaluations fk lk s (histogram data s.splitters) = some (s1, m)) :
    s1.tolerance = toler ∧ ∃ keys, Decided data fk lk P toler s1 keys ∧
      ((s1.sorted = false ∧ s1.keyBoundaries = fk :: keys) ∨
        (s1.sorted = true ∧ s1.goals = [] ∧
          s1.keyBoundaries = fk :: (keys.insertionSort (· ≤ ·) ++ [lk]))) := by
  obtain ⟨s2, t, h2, h3, h4⟩ := collectEvaluations_step hI.1 h
  obtain ⟨hbc, rest, hkb, hD2⟩ := decided_prepare hP hI hR htol hD h2
  obtain ⟨added, hkb1, hD3⟩ := decided_adjust hbc hkb hD2 h3
  obtain ⟨_, h2s, _, _, _, h2t, _⟩ := prepareRound_spec (by rw [hI.2.1]; exact hP) h2
  obtain ⟨_, h3t, _⟩ := adjustSplitters_frame h3
  obtain ⟨_, _, _, _, _, hsg, _⟩ := adjustSplitters_keyBoundaries h3
  rcases sendRound_spec h4 with ⟨hts, rfl, _⟩ | ⟨hts, b, bs, htkb, rfl, _⟩
  · exact ⟨by rw [h3t, h2t, htol], rest ++ added, hD3, Or.inl ⟨hts, hkb1⟩⟩
  · have hg : t.goals = [] := hsg (by rw [h2s]; exact hI.1) hts
    rw [hkb1, List.cons.injEq] at htkb
    obtain ⟨rfl, rfl⟩ := htkb
    exact ⟨by rw [h3t, h2t, htol], rest ++ added, hD3, Or.inr ⟨hts, hg, rfl⟩⟩

/-- The cycle against the histogram of `data`, started in a probing state: the last message
is the commit, for the sorted decided keys and their histogram. -/
theorem serve_data (data : List Nat) (fk lk P : Nat) (toler : ℚ) (hP : 1 ≤ P)
    (hle : fk ≤ lk) :
    ∀ (fuel : Nat) (s s1 : Sorter) (ms : List Msg), Probing fk P s → InRange fk lk s →
      s.tolerance = toler → (s.numKeys ≠ 0 → s.goals.Pairwise (· ≤ ·)) →
      (s.numKeys ≠ 0 → ∀ rest, s.keyBoundaries = fk :: rest →
        Decided data fk lk P toler s rest) →
      serve (histogram data) fk lk fuel s (Msg.acceptCandidateKeys s.splitters)
        = some (s1, ms) →
      ∃ sc keys, Decided data fk lk P toler sc keys ∧ sc.goals = [] ∧
        (∀ k ∈ keys, fk ≤ k ∧ k ≤ lk) ∧
        ms.getLast? = some (Msg.acceptFinalKeys (fk :: (keys.insertionSort (· ≤ ·) ++ [lk]))
          (chareIDs P) (histogram data (fk :: (keys.insertionSort (· ≤ ·) ++ [lk])))) := by
  intro fuel
  induction fuel with
  | zero =>
    intro s s1 ms _ _ _ _ _ h
    exact absurd h (by simp [serve])
  | succ fuel ih =>
    intro s s1 ms hI hR htol hG hD h
    rw [serve] at h
    cases hce : collectEvaluations fk lk s (histogram data s.splitters) with
    | none => rw [hce] at h; exact absurd h (by simp)
    | some r =>
      obtain ⟨s2, m2⟩ := r
      rw [hce] at h
      simp only [] at h
      cases hsv : serve (histogram data) fk lk fuel s2 m2 with
      | none => rw [hsv] at h; exact absurd h (by simp)
      | some r2 =>
        obtain ⟨s3, ms3⟩ := r2
        rw [hsv] at h
        simp only [Option.some.injEq, Prod.mk.injEq] at h
        obtain ⟨_, rfl⟩ := h
        obtain ⟨hR2, hG2⟩ := inRange_step hle hI.1 (by rw [hI.2.1]; exact hP) hR hG hce
        obtain ⟨htol2, keys, hD2, hcase⟩ := data_step hP hI hR htol hD hce
        rcases probing_step hP hI (histogram_nonneg data _) hce with ⟨hI2, hm2⟩ | ⟨hs2, hm2, _⟩
        · rw [hm2] at hsv
          have hD2a : s2.numKeys ≠ 0 → ∀ rest, s2.keyBoundaries = fk :: rest →
              Decided data fk lk P toler s2 rest := by
            intro _ rest hrest
            rcases hcase with ⟨_, hkb⟩ | ⟨hsrt, _⟩
            · rw [hkb, List.cons.injEq] at hrest
              rw [← hrest.2]
              exact hD2
            · rw [hI2.1] at hsrt
              exact absurd hsrt (by simp)
          obtain ⟨sc, keys1, h1, h2, h3, h4⟩ :=
            ih s2 s3 ms3 hI2 hR2 htol2 (fun _ => hG2) hD2a hsv
          refine ⟨sc, keys1, h1, h2, h3, ?_⟩
          rw [List.getLast?_cons, h4]
          rfl
        · rcases hcase with ⟨hsrt, _⟩ | ⟨_, hg, hkb⟩
          · rw [hs2] at hsrt
            exact absurd hsrt (by simp)
          · have hn2 : s2.numChares = P := by
              obtain ⟨s2a, t, h2a, h3a, h4a⟩ := collectEvaluations_step hI.1 hce
              rw [(sendRound_frame h4a).1, (adjustSplitters_frame h3a).1,
                (prepareRound_spec (by rw [hI.2.1]; exact hP) h2a).1, hI.2.1]
            have hkeys : ∀ k ∈ keys, fk ≤ k ∧ k ≤ lk := by
              intro k hk
              refine hR2.2.2.1 k ?_
              rw [hkb]
              exact List.mem_cons_of_mem _ (List.mem_append_left _
                ((List.mem_insertionSort _).mpr hk))
            refine ⟨s2, keys, hD2, hg, hkeys, ?_⟩
            rw [hm2, hkb] at hsv
            cases fuel with
            | zero => exact absurd hsv (by simp [serve])
            | succ f =>
              rw [serve] at hsv
              have hfin : collectEvaluations fk lk s2
                  (histogram data (fk :: (keys.insertionSort (· ≤ ·) ++ [lk]))) =
                  some ({ receiveCounts s2
                      (histogram data (fk :: (keys.insertionSort (· ≤ ·) ++ [lk]))) with
                      numIterations := 0, sorted := false },
                    Msg.acceptFinalKeys (fk :: (keys.insertionSort (· ≤ ·) ++ [lk]))
                      (chareIDs P)
                      (histogram data (fk :: (keys.insertionSort (· ≤ ·) ++ [lk])))) := by
                have h0 : ¬ P = 0 := by omega
                simp [collectEvaluations, receiveCounts, hs2, h0, hkb, hn2]
              rw [hfin] at hsv
              simp only [serve_final, Option.some.injEq, Prod.mk.injEq] at hsv
              rw [← hsv.2]
              rfl

theorem closeEnoughFor_nonneg (avg : Int) (toler : ℚ) : 0 ≤ closeEnoughFor avg toler := by
  unfold closeEnoughFor
  simp only []
  split_ifs with h
  · exact le_refl _
  · omega

theorem finalized_pairwise {fk lk : Nat} {interior : List Nat}
    (hs : interior.Pairwise (· ≤ ·)) (hr : ∀ k ∈ interior, fk ≤ k ∧ k ≤ lk) (hle : fk ≤ lk) :
    (fk :: (interior ++ [lk])).Pairwise (· ≤ ·) := by
  refine List.pairwise_cons.mpr ⟨?_, List.pairwise_append.mpr
    ⟨hs, List.pairwise_singleton _ _, ?_⟩⟩
  · intro k hk
    rcases List.mem_append.mp hk with hk | hk
    · exact (hr k hk).1
    · rw [List.mem_singleton] at hk
      omega
  · intro a ha b hb
    rw [List.mem_singleton] at hb
    rw [hb]
    exact (hr a ha).2

/-- The counts below the finalized boundaries: boundary `j < P` has the count of the records
below it within `ce` of `j * avg`. -/
theorem finalized_counts_close (F : Nat → Int) (hF : ∀ a b, a ≤ b → F a ≤ F b) (fk lk : Nat)
    (hF0 : F fk = 0) (avg ce : Int) (havg : 0 ≤ avg) (hce : 0 ≤ ce) (P : Nat)
    (pairs : List (Nat × Int))
    (hperm : (pairs.map Prod.snd).Perm
      ((List.range (P - 1)).map (fun (j : Nat) => ((j : Int) + 1) * avg)))
    (hclose : ∀ p ∈ pairs, |F p.1 - p.2| ≤ ce) (j k : Nat) (hj : j < P)
    (hk : (fk :: ((pairs.map Prod.fst).insertionSort (· ≤ ·) ++ [lk]))[j]? = some k) :
    |F k - (j : Int) * avg| ≤ ce := by
  cases j with
  | zero =>
    simp only [List.getElem?_cons_zero, Option.some.injEq] at hk
    subst hk
    simpa [hF0] using hce
  | succ i =>
    rw [List.getElem?_cons_succ] at hk
    have hlen : ((pairs.map Prod.fst).insertionSort (· ≤ ·)).length = P - 1 := by
      rw [List.length_insertionSort, List.length_map, ← List.length_map pairs Prod.snd,
        hperm.length_eq]
      simp
    rw [List.getElem?_append_left (by omega)] at hk
    have := sorted_keys_close F hF avg ce havg (P - 1) pairs hperm hclose i k hk
    push_cast
    exact this

/-- C2 fails as stated: the thirteen records of `thirteenRecords` (five with key `5`, two
with key `15`, six with key `25`), three partitions and tolerance one quarter, so the average
is `4`, the remainder `13 mod 3 = 1` and the tolerance window `floor(4 * 1/4) = 1`.  The
search converges on the first response with the boundaries `10` and `20` (cumulative counts
`5` and `7`, each within `1` of its goal `4` or `8`), and the commit delivers the counts
`[5, 2, 6]`.  The first count is within the window of the average; the middle one, between
two interior boundaries, differs from it by `2`, twice the window; the last one differs from
it by `2`, the window and the remainder. -/
theorem commit_count_outside_window :
    (runSort (histogram thirteenRecords) 0 70 2 idle 3 (1 / 4)).map Prod.snd =
      some [Msg.acceptCandidateKeys [0, 10, 20, 30, 40, 50, 60, 70],
        Msg.acceptCandidateKeys [0, 10, 20, 70],
        Msg.acceptFinalKeys [0, 10, 20, 70] [0, 1, 2] [5, 2, 6]] ∧
      thirteenRecords.length = 13 ∧ Int.tdiv 13 3 = 4 ∧ (13 : Int) % 3 = 1 ∧
      ⌊((4 : Int) : ℚ) * (1 / 4)⌋ = 1 ∧ closeEnoughFor 4 (1 / 4) = 1 ∧
      (¬ ∀ c ∈ [(5 : Int), 2, 6], |c - 4| ≤ 1) ∧
      |(5 : Int) - 4| ≤ 1 ∧ ¬ |(2 : Int) - 4| ≤ 1 ∧ ¬ |(6 : Int) - 4| ≤ 1 := by
  refine ⟨by decide!, by decide, by decide, by decide, by norm_num, by decide!, ?_, by decide,
    by decide, by decide⟩
  intro h
  have := h 2 (by simp)
  norm_num at this

/-- C2, amended: for a provider that answers with the histogram of a fixed data set, whenever
the sort converges (the cycle ends with the commit), the counts delivered at commit are the
histogram of the finalized boundaries, one per partition, and they add up to the total `T`
(the number of records between the sentinels).  A count differs from the average `T / P` by
at most one tolerance window for every interior boundary that bounds its interval: the first
count by at most the window, a count between two interior boundaries by at most twice the
window, and the last count, which also takes the remainder, differs from
`T / P + T mod P` by at most the window (with one partition the single count is `T`). -/
theorem commit_counts_balanced (firstPossibleKey lastPossibleKey : Nat) (data : List Nat)
    (s0 : Sorter) (P : Nat) (toler : ℚ) (fuel : Nat) (s : Sorter) (msgs : List Msg)
    (hP : 1 ≤ P) (hle : firstPossibleKey ≤ lastPossibleKey)
    (h : runSort (histogram data) firstPossibleKey lastPossibleKey fuel s0 P toler
      = some (s, msgs)) :
    ∃ keys ids counts,
      msgs.getLast? = some (Msg.acceptFinalKeys keys ids counts) ∧
      counts = histogram data keys ∧
      counts.length = P ∧
      counts.sum = countIn data firstPossibleKey lastPossibleKey ∧
      ∀ i c, counts[i]? = some c →
        |c - Int.tdiv (countIn data firstPossibleKey lastPossibleKey) P -
            (if i + 1 = P then countIn data firstPossibleKey lastPossibleKey % P else 0)| ≤
          (if i = 0 then 0
            else closeEnoughFor (Int.tdiv (countIn data firstPossibleKey lastPossibleKey) P)
              toler) +
          (if i + 1 = P then 0
            else closeEnoughFor (Int.tdiv (countIn data firstPossibleKey lastPossibleKey) P)
              toler) := by
  -- the cycle ends with the commit of the sorted decided keys
  unfold runSort at h
  simp only [] at h
  cases hsv : serve (histogram data) firstPossibleKey lastPossibleKey fuel
      (startSorting firstPossibleKey lastPossibleKey s0 P toler).1
      (startSorting firstPossibleKey lastPossibleKey s0 P toler).2 with
  | none => rw [hsv] at h; exact absurd h (by simp)
  | some r =>
    obtain ⟨s1, ms⟩ := r
    rw [hsv] at h
    simp only [Option.some.injEq, Prod.mk.injEq] at h
    obtain ⟨_, rfl⟩ := h
    obtain ⟨sc, keys, hD, hg, hkeys, hlast⟩ :=
      serve_data data firstPossibleKey lastPossibleKey P toler hP hle fuel _ s1 ms
        (startSorting_probing _ _ _ _ _) (startSorting_inRange _ _ _ _ _ hP hle) rfl
        (fun hne => absurd rfl hne) (fun hne => absurd rfl hne) hsv
    obtain ⟨_, hce, pairs, hpk, hclose, hperm⟩ := hD
    rw [hg, List.append_nil] at hperm
    rw [hce] at hclose
    subst hpk
    have hT : 0 ≤ countIn data firstPossibleKey lastPossibleKey := countIn_nonneg _ _ _
    have havg : 0 ≤ Int.tdiv (countIn data firstPossibleKey lastPossibleKey) P :=
      Int.tdiv_nonneg hT (Int.ofNat_nonneg _)
    have hw := closeEnoughFor_nonneg
      (Int.tdiv (countIn data firstPossibleKey lastPossibleKey) P) toler
    have hlen : ((pairs.map Prod.fst).insertionSort (· ≤ ·)).length = P - 1 := by
      rw [List.length_insertionSort, List.length_map, ← List.length_map pairs Prod.snd,
        hperm.length_eq]
      simp
    have hsorted := finalized_pairwise (List.sorted_insertionSort (· ≤ ·) (pairs.map Prod.fst))
      (fun k hk => hkeys k ((List.mem_insertionSort _).mp hk)) hle
    have hbase : ∀ k ∈ firstPossibleKey ::
        ((pairs.map Prod.fst).insertionSort (· ≤ ·) ++ [lastPossibleKey]),
        firstPossibleKey ≤ k := by
      intro k hk
      rcases List.mem_cons.mp hk with rfl | hk
      · exact le_refl _
      · exact (List.pairwise_cons.mp hsorted).1 k hk
    have hclen : (histogram data (firstPossibleKey ::
        ((pairs.map Prod.fst).insertionSort (· ≤ ·) ++ [lastPossibleKey]))).length = P := by
      rw [histogram_length]
      simp only [List.length_cons, List.length_append, List.length_nil, hlen]
      omega
    refine ⟨firstPossibleKey ::
        ((pairs.map Prod.fst).insertionSort (· ≤ ·) ++ [lastPossibleKey]), chareIDs P,
      histogram data (firstPossibleKey ::
        ((pairs.map Prod.fst).insertionSort (· ≤ ·) ++ [lastPossibleKey])),
      ?_, rfl, hclen, ?_, ?_⟩
    · rw [List.getLast?_cons, hlast]
      rfl
    · rw [← runningSums_zero_cons_getLast, runningSums_histogram data _ _ hsorted]
      exact getLast?_map_of _
        (List.getLast?_eq_some_iff.mpr ⟨firstPossibleKey ::
          (pairs.map Prod.fst).insertionSort (· ≤ ·), rfl⟩)
    · intro i c hc
      have hi : i < P := by
        rw [← hclen]
        exact (List.getElem?_eq_some_iff.mp hc).1
      have hkl : (firstPossibleKey ::
          ((pairs.map Prod.fst).insertionSort (· ≤ ·) ++ [lastPossibleKey])).length
          = P + 1 := by
        simp only [List.length_cons, List.length_append, List.length_nil, hlen]
        omega
      obtain ⟨a, ha⟩ : ∃ a, (firstPossibleKey ::
          ((pairs.map Prod.fst).insertionSort (· ≤ ·) ++ [lastPossibleKey]))[i]? = some a :=
        ⟨_, List.getElem?_eq_getElem (by omega)⟩
      obtain ⟨b, hb⟩ : ∃ b, (firstPossibleKey ::
          ((pairs.map Prod.fst).insertionSort (· ≤ ·) ++ [lastPossibleKey]))[i + 1]?
          = some b :=
        ⟨_, List.getElem?_eq_getElem (by omega)⟩
      rw [histogram_getElem? data firstPossibleKey _ hsorted hbase i a b ha hb,
        Option.some.injEq] at hc
      have hA := finalized_counts_close (countIn data firstPossibleKey)
        (fun x y hxy => countIn_mono data firstPossibleKey hxy) firstPossibleKey
        lastPossibleKey (countIn_self data firstPossibleKey) _ _ havg hw P pairs hperm
        hclose i a hi ha
      have hA0 : i = 0 → countIn data firstPossibleKey a = 0 ∧
          (i : Int) * Int.tdiv (countIn data firstPossibleKey lastPossibleKey) P = 0 := by
        intro h0
        rw [h0] at ha
        simp only [List.getElem?_cons_zero, Option.some.injEq] at ha
        rw [← ha, h0]
        exact ⟨countIn_self data firstPossibleKey, by simp⟩
      rw [abs_le] at hA ⊢
      by_cases hiP : i + 1 = P
      · -- the last interval ends at `lastPossibleKey`
        rw [if_pos hiP, if_pos hiP]
        have hbl : b = lastPossibleKey := by
          rw [List.getElem?_cons_succ, List.getElem?_append_right (by omega), hlen] at hb
          have h0 : i - (P - 1) = 0 := by omega
          rw [h0] at hb
          simpa using hb.symm
        have hdiv : Int.tdiv (countIn data firstPossibleKey lastPossibleKey) P =
            countIn data firstPossibleKey lastPossibleKey / P :=
          Int.tdiv_eq_ediv hT (Int.ofNat_nonneg _)
        have hmod := Int.emod_add_ediv (countIn data firstPossibleKey lastPossibleKey) P
        have hsplit : (P : Int) * Int.tdiv (countIn data firstPossibleKey lastPossibleKey) P =
            (i : Int) * Int.tdiv (countIn data firstPossibleKey lastPossibleKey) P +
              Int.tdiv (countIn data firstPossibleKey lastPossibleKey) P := by
          have hPi : (P : Int) = (i : Int) + 1 := by omega
          rw [hPi]; ring
        rw [← hdiv, hsplit] at hmod
        rw [hbl] at hc
        generalize (i : Int) * Int.tdiv (countIn data firstPossibleKey lastPossibleKey) P = X
          at hA hA0 hmod
        generalize countIn data firstPossibleKey lastPossibleKey % (P : Int) = r
          at hmod ⊢
        by_cases hi0 : i = 0
        · rw [if_pos hi0]
          obtain ⟨h1, h2⟩ := hA0 hi0
          constructor <;> omega
        · rw [if_neg hi0]
          constructor <;> omega
      · -- an interval that ends at a decided key
        rw [if_neg hiP, if_neg hiP]
        have hB := finalized_counts_close (countIn data firstPossibleKey)
          (fun x y hxy => countIn_mono data firstPossibleKey hxy) firstPossibleKey
          lastPossibleKey (countIn_self data firstPossibleKey) _ _ havg hw P pairs hperm
          hclose (i + 1) b (by omega) hb
        rw [abs_le] at hB
        have hexp : (((i + 1 : Nat) : Int)) *
            Int.tdiv (countIn data firstPossibleKey lastPossibleKey) P =
            (i : Int) * Int.tdiv (countIn data firstPossibleKey lastPossibleKey) P +
            Int.tdiv (countIn data firstPossibleKey lastPossibleKey) P := by
          push_cast; ring
        rw [hexp] at hB
        generalize (i : Int) * Int.tdiv (countIn data firstPossibleKey lastPossibleKey) P = X
          at hA hA0 hB
        by_cases hi0 : i = 0
        · rw [if_pos hi0]
          obtain ⟨h1, h2⟩ := hA0 hi0
          constructor <;> omega
        · rw [if_neg hi0]
          constructor <;> omega

/-- C2, amended, at the sort of `thirteenRecords` into three partitions. -/
theorem commit_counts_balanced_witness :
    (1 ≤ 3 ∧ 0 ≤ 70 ∧
      runSort (histogram thirteenRecords) 0 70 2 idle 3 (1 / 4) =
        some (committedThirteen, [Msg.acceptCandidateKeys [0, 10, 20, 30, 40, 50, 60, 70],
          Msg.acceptCandidateKeys [0, 10, 20, 70],
          Msg.acceptFinalKeys [0, 10, 20, 70] [0, 1, 2] [5, 2, 6]])) ∧
    ∃ keys ids counts,
      [Msg.acceptCandidateKeys [0, 10, 20, 30, 40, 50, 60, 70],
          Msg.acceptCandidateKeys [0, 10, 20, 70],
          Msg.acceptFinalKeys [0, 10, 20, 70] [0, 1, 2] [5, 2, 6]].getLast? =
        some (Msg.acceptFinalKeys keys ids counts) ∧
      counts = histogram thirteenRecords keys ∧
      counts.length = 3 ∧
      counts.sum = countIn thirteenRecords 0 70 ∧
      ∀ i c, counts[i]? = some c →
        |c - Int.tdiv (countIn thirteenRecords 0 70) (3 : Nat) -
            (if i + 1 = 3 then countIn thirteenRecords 0 70 % (3 : Nat) else 0)| ≤
          (if i = 0 then 0
            else closeEnoughFor (Int.tdiv (countIn thirteenRecords 0 70) (3 : Nat)) (1 / 4)) +
          (if i + 1 = 3 then 0
            else closeEnoughFor (Int.tdiv (countIn thirteenRecords 0 70) (3 : Nat)) (1 / 4)) :=
  ⟨⟨by decide, by decide, by decide!⟩,
    commit_counts_balanced 0 70 thirteenRecords idle 3 (1 / 4) 2 committedThirteen _
      (by decide) (by decide) (by decide!)⟩

/-! ## The goal list never grows -/

theorem adjustSplitters_goals_sublist {fk lk : Nat} {s t : Sorter}
    (h : adjustSplitters fk lk s = some t) : t.goals.Sublist s.goals := by
  obtain ⟨tr, htr, hg, -, -⟩ := adjustSplitters_eq h
  rw [hg, ← traceGoals_map_fst htr]
  exact List.Sublist.map _ (List.filter_sublist _)

theorem prepareRound_later {s s2 : Sorter} {counts : List Int} (hk : s.numKeys ≠ 0)
    (h : prepareRound (receiveCounts s counts) = some s2) :
    s2 = { receiveCounts s counts with binCounts := runningSums (0 :: counts) } := by
  have hov := prepareRound_defined h
  simp only [prepareRound, receiveCounts, hov, hk, if_false, Option.some.injEq] at h
  rw [← h]
  rfl

theorem prepareRound_later_some {s : Sorter} (counts : List Int) (hk : s.numKeys ≠ 0)
    (hov : partial_sum (0 :: counts) = some (runningSums (0 :: counts))) :
    prepareRound (receiveCounts s counts) =
      some { receiveCounts s counts with binCounts := runningSums (0 :: counts) } := by
  simp only [prepareRound, receiveCounts, hov, hk, if_false]

theorem collectEvaluations_goals_sublist {fk lk : Nat} {s s1 : Sorter} {m : Msg}
    {counts : List Int} (hs : s.sorted = false) (hk : s.numKeys ≠ 0)
    (h : collectEvaluations fk lk s counts = some (s1, m)) :
    s1.goals.Sublist s.goals ∧ s1.numKeys ≠ 0 := by
  obtain ⟨s2, t, h2, h3, h4⟩ := collectEvaluations_step hs h
  have e2 : s2.goals = s.goals ∧ s2.numKeys = s.numKeys := by
    rw [prepareRound_later hk h2]
    exact ⟨rfl, rfl⟩
  have hsub := adjustSplitters_goals_sublist h3
  obtain ⟨-, -, hk3, -⟩ := adjustSplitters_frame h3
  obtain ⟨-, -, hk4, -, -, -, hg4, -⟩ := sendRound_frame h4
  rw [hg4, ← e2.1]
  refine ⟨hsub, ?_⟩
  rw [hk4, hk3, e2.2]
  exact hk

/-- The response that arrives after convergence (the exact counts) leaves the goal list as it
is. -/
theorem collectEvaluations_sorted_goals {fk lk : Nat} {s s1 : Sorter} {m : Msg}
    {counts : List Int} (hs : s.sorted = true)
    (h : collectEvaluations fk lk s counts = some (s1, m)) : s1.goals = s.goals := by
  unfold collectEvaluations at h
  have hs1 : (receiveCounts s counts).sorted = true := hs
  simp only [hs1, if_true] at h
  split_ifs at h
  simp only [Option.some.injEq, Prod.mk.injEq] at h
  rw [← h.1]
  rfl

theorem probeRounds_numKeys {fk lk : Nat} :
    ∀ (rest : List (List Int)) (s : Sorter) (m : Msg) (s2 : Sorter) (m2 : Msg),
      s.numKeys ≠ 0 → probeRounds fk lk s m rest = some (s2, m2) → s2.numKeys ≠ 0 := by
  intro rest
  induction rest with
  | nil =>
    intro s m s2 m2 hk h
    simp only [probeRounds, Option.some.injEq, Prod.mk.injEq] at h
    rw [← h.1]
    exact hk
  | cons counts rest ih =>
    intro s m s2 m2 hk h
    rw [probeRounds] at h
    by_cases hs : s.sorted = true
    · simp [hs] at h
    · have hs0 : s.sorted = false := by simpa using hs
      simp only [hs0, Bool.false_eq_true, if_false] at h
      rcases hce : collectEvaluations fk lk s counts with _ | ⟨s1, m1⟩
      · simp [hce] at h
      · simp only [hce] at h
        exact ih s1 m1 s2 m2 (collectEvaluations_goals_sublist hs0 hk hce).2 h

theorem probeRounds_of_sorted {fk lk : Nat} {s s2 : Sorter} {m m2 : Msg}
    {rest : List (List Int)} (hs : s.sorted = true)
    (h : probeRounds fk lk s m rest = some (s2, m2)) : s2 = s := by
  cases rest with
  | nil =>
    simp only [probeRounds, Option.some.injEq, Prod.mk.injEq] at h
    exact h.1.symm
  | cons counts rest => simp [probeRounds, hs] at h

/-- After the first response of a sort (of non-negative counts) the total is known or the
search has converged. -/
theorem first_response_settled {fk lk : Nat} {s0 s1 : Sorter} {P : Nat} {toler : ℚ}
    {first : List Int} {m1 : Msg} (hc : ∀ c ∈ first, 0 ≤ c)
    (h1 : collectEvaluations fk lk (startSorting fk lk s0 P toler).1 first = some (s1, m1)) :
    s1.numKeys ≠ 0 ∨ s1.sorted = true := by
  have hs0 : (startSorting fk lk s0 P toler).1.sorted = false := rfl
  have hk0 : (startSorting fk lk s0 P toler).1.numKeys = 0 := rfl
  obtain ⟨p, t1, h2, h3, h4⟩ := collectEvaluations_step hs0 h1
  by_cases hP : 1 ≤ (startSorting fk lk s0 P toler).1.numChares
  · obtain ⟨-, -, -, -, -, -, hcase⟩ := prepareRound_spec hP h2
    rcases hcase with ⟨hne, -⟩ | ⟨-, hsum, -, -⟩
    · exact absurd hk0 hne
    · obtain ⟨-, -, hk3, -⟩ := adjustSplitters_frame h3
      obtain ⟨-, -, hk4, -, -, hsorted4, hg4, -⟩ := sendRound_frame h4
      by_cases hz : first.sum = 0
      · have hnil := goals_nil_of_sum_zero hP hk0 hc hz h2 h3
        have ht : t1.goals = [] := by
          have := adjustSplitters_goals_sublist h3
          rw [hnil] at this
          exact List.eq_nil_of_sublist_nil this
        obtain ⟨-, -, -, -, -, -, hfin⟩ := adjustSplitters_keyBoundaries h3
        right
        rw [hsorted4]
        exact hfin ht
      · left
        rw [hk4, hk3, hsum]
        exact hz
  · have hP0 : (startSorting fk lk s0 P toler).1.numChares = 0 := by omega
    have hov := prepareRound_defined h2
    simp only [prepareRound, receiveCounts, hov, firstResponse, hk0, hP0, if_true] at h2
    cases hgl : (runningSums (0 :: first)).getLast? <;> simp [hgl] at h2

/-- C11: one call of `adjustSplitters` leaves a goal list that is a sublist (same order) of
the goal list it found, so the number of open goals does not grow and no resolved goal comes
back.  And in a sort, round over round: for the state `s2` reached after the first response
(of non-negative counts) and any number `later` of further probing rounds, the goal list
`s3.goals` after the next response is a sublist of the goal list `s2.goals` before it, so
the number of open goals does not increase from any round to the next. -/
theorem goals_never_grow (firstPossibleKey lastPossibleKey : Nat) (s t : Sorter)
    (s0 : Sorter) (P : Nat) (toler : ℚ) (first : List Int) (later : List (List Int))
    (counts : List Int) (s1 : Sorter) (m1 : Msg) (s2 : Sorter) (m2 : Msg) (s3 : Sorter)
    (m3 : Msg)
    (h : adjustSplitters firstPossibleKey lastPossibleKey s = some t)
    (hc : ∀ c ∈ first, 0 ≤ c)
    (h1 : collectEvaluations firstPossibleKey lastPossibleKey
        (startSorting firstPossibleKey lastPossibleKey s0 P toler).1 first = some (s1, m1))
    (h2 : probeRounds firstPossibleKey lastPossibleKey s1 m1 later = some (s2, m2))
    (h3 : collectEvaluations firstPossibleKey lastPossibleKey s2 counts = some (s3, m3)) :
    (t.goals.Sublist s.goals ∧ t.goals.length ≤ s.goals.length ∧
      ∀ g, g ∈ t.goals → g ∈ s.goals) ∧
    (s3.goals.Sublist s2.goals ∧ s3.goals.length ≤ s2.goals.length ∧
      ∀ g, g ∈ s3.goals → g ∈ s2.goals) := by
  have hsub := adjustSplitters_goals_sublist h
  refine ⟨⟨hsub, hsub.length_le, fun g hg => hsub.subset hg⟩, ?_⟩
  suffices hS : s3.goals.Sublist s2.goals from ⟨hS, hS.length_le, fun g hg => hS.subset hg⟩
  by_cases hs2 : s2.sorted = true
  · rw [collectEvaluations_sorted_goals hs2 h3]
  · have hs20 : s2.sorted = false := by simpa using hs2
    have hk2 : s2.numKeys ≠ 0 := by
      rcases first_response_settled hc h1 with hk1 | hsorted1
      · exact probeRounds_numKeys later s1 m1 s2 m2 hk1 h2
      · rw [probeRounds_of_sorted hsorted1 h2] at hs20
        rw [hsorted1] at hs20
        exact absurd hs20 (by decide)
    exact (collectEvaluations_goals_sublist hs20 hk2 h3).1

/-- C11 at the step from `probingThree` to `refinedThree` and at the sort of thirty records
into three partitions: the first response leaves the goal `20` open (`refinedThree`), the
second response resolves it (`convergedThree`). -/
theorem goals_never_grow_witness :
    (adjustSplitters 0 100 probingThree = some refinedThree ∧
      (∀ c ∈ [(14 : Int), 14, 2, 0, 0, 0, 0], 0 ≤ c) ∧
      collectEvaluations 0 100 (startSorting 0 100 idle 3 (1 / 2)).1 [14, 14, 2, 0, 0, 0, 0] =
        some (refinedThree, Msg.acceptCandidateKeys [0, 14, 21, 28, 100]) ∧
      probeRounds 0 100 refinedThree (Msg.acceptCandidateKeys [0, 14, 21, 28, 100]) [] =
        some (refinedThree, Msg.acceptCandidateKeys [0, 14, 21, 28, 100]) ∧
      collectEvaluations 0 100 refinedThree [14, 7, 7, 2] =
        some (convergedThree, Msg.acceptCandidateKeys [0, 14, 21, 100])) ∧
    (refinedThree.goals.Sublist probingThree.goals ∧
      refinedThree.goals.length ≤ probingThree.goals.length ∧
      ∀ g, g ∈ refinedThree.goals → g ∈ probingThree.goals) ∧
    (convergedThree.goals.Sublist refinedThree.goals ∧
      convergedThree.goals.length ≤ refinedThree.goals.length ∧
      ∀ g, g ∈ convergedThree.goals → g ∈ refinedThree.goals) :=
  ⟨⟨rfl, by decide, by decide!, rfl, by decide!⟩,
    goals_never_grow 0 100 probingThree refinedThree idle 3 (1 / 2) [14, 14, 2, 0, 0, 0, 0] []
      [14, 7, 7, 2] refinedThree (Msg.acceptCandidateKeys [0, 14, 21, 28, 100]) refinedThree
      (Msg.acceptCandidateKeys [0, 14, 21, 28, 100]) convergedThree
      (Msg.acceptCandidateKeys [0, 14, 21, 100]) rfl (by decide) (by decide!) rfl
      (by decide!)⟩

/-! ## The cumulative count vector -/

theorem runningSumsFrom_getElem? (l : List Int) :
    ∀ (acc : Int) (i : Nat), i < l.length →
      (runningSumsFrom acc l)[i]? = some (acc + (l.take (i + 1)).sum) := by
  induction l with
  | nil => intro acc i hi; simp at hi
  | cons x xs ih =>
    intro acc i hi
    cases i with
    | zero => simp [runningSumsFrom]
    | succ j =>
      have hj : j < xs.length := by simpa using hi
      simp only [runningSumsFrom, List.getElem?_cons_succ, ih (acc + x) j hj, List.take_succ_cons,
        List.sum_cons, Option.some.injEq]
      ring

theorem runningSums_zero_cons_getElem? (counts : List Int) (i : Nat) (hi : i ≤ counts.length) :
    (runningSums (0 :: counts))[i]? = some (counts.take i).sum := by
  cases i with
  | zero => simp [runningSums]
  | succ j =>
    have hj : j < counts.length := hi
    simp [runningSums, runningSumsFrom_getElem? counts 0 j hj]

theorem runningSumsFrom_ge (l : List Int) (hl : ∀ c ∈ l, 0 ≤ c) :
    ∀ (acc : Int), ∀ y ∈ runningSumsFrom acc l, acc ≤ y := by
  induction l with
  | nil => intro acc y hy; simp [runningSumsFrom] at hy
  | cons x xs ih =>
    intro acc y hy
    have hx : 0 ≤ x := hl x (List.mem_cons_self _ _)
    simp only [runningSumsFrom, List.mem_cons] at hy
    rcases hy with rfl | hy
    · omega
    · have := ih (fun c hc => hl c (List.mem_cons_of_mem _ hc)) (acc + x) y hy
      omega

theorem runningSumsFrom_pairwise (l : List Int) (hl : ∀ c ∈ l, 0 ≤ c) :
    ∀ (acc : Int), (acc :: runningSumsFrom acc l).Pairwise (· ≤ ·) := by
  induction l with
  | nil => intro acc; simp [runningSumsFrom]
  | cons x xs ih =>
    intro acc
    have hx : 0 ≤ x := hl x (List.mem_cons_self _ _)
    have hxs : ∀ c ∈ xs, 0 ≤ c := fun c hc => hl c (List.mem_cons_of_mem _ hc)
    rw [runningSumsFrom, List.pairwise_cons]
    refine ⟨?_, ih hxs (acc + x)⟩
    intro y hy
    rcases List.mem_cons.1 hy with rfl | hy
    · omega
    · have := runningSumsFrom_ge xs hxs (acc + x) y hy
      omega

theorem runningSums_zero_cons_pairwise {counts : List Int} (hl : ∀ c ∈ counts, 0 ≤ c) :
    (runningSums (0 :: counts)).Pairwise (· ≤ ·) := by
  rw [runningSums]
  exact runningSumsFrom_pairwise counts hl 0

theorem countIn_eq_below (data : List Nat) (a k : Nat) (hd : ∀ d ∈ data, a ≤ d) :
    countIn data a k = (data.countP (fun d => decide (d < k)) : Int) := by
  unfold countIn
  congr 1
  apply List.countP_congr
  intro d hdm
  simp [hd d hdm]

theorem sum_take_nonneg {counts : List Int} (hc : ∀ c ∈ counts, 0 ≤ c) (i : Nat) :
    0 ≤ (counts.take i).sum ∧ (counts.take i).sum ≤ counts.sum := by
  have h1 : 0 ≤ (counts.take i).sum :=
    List.sum_nonneg (fun c hcm => hc c (List.mem_of_mem_take hcm))
  have h2 : 0 ≤ (counts.drop i).sum :=
    List.sum_nonneg (fun c hcm => hc c (List.mem_of_mem_drop hcm))
  have h3 := List.sum_take_add_sum_drop counts i
  omega

theorem isInt_take_sum {counts : List Int} (hc : ∀ c ∈ counts, 0 ≤ c)
    (hmax : counts.sum ≤ INT_MAX) :
    ∀ i, i ≤ counts.length → isInt ((counts.take i).sum) = true := by
  intro i _
  obtain ⟨h1, h2⟩ := sum_take_nonneg hc i
  rw [isInt_iff]
  have hmin : INT_MIN ≤ 0 := by decide
  exact ⟨le_trans hmin h1, le_trans h2 hmax⟩

/-- C12: in a probing round that answers a candidate list of `n + 1` keys with `n`
non-negative counts whose total is at most `INT_MAX` (so that no addition of
`std::partial_sum` overflows), the cumulative count vector `binCounts` that
`collectEvaluations` hands to `adjustSplitters` is the result of `partial_sum` on the counts
behind a leading zero; it has `n + 1` entries, as many as the candidate list; entry `0` is
`0`, entry `i` is the sum of the first `i` counts, and the vector is non-decreasing.  When the
counts are the histogram of a data set over the (sorted) candidates and no record lies below
the first candidate, entry `i` is the number of records with key below candidate `i`. -/
theorem collectEvaluations_cumulative (firstPossibleKey lastPossibleKey : Nat) (s : Sorter)
    (counts : List Int) (hP : 1 ≤ s.numChares) (hs : s.sorted = false)
    (hc : ∀ c ∈ counts, 0 ≤ c) (hmax : counts.sum ≤ INT_MAX)
    (hlen : s.splitters.length = counts.length + 1) :
    ∃ s2, prepareRound (receiveCounts s counts) = some s2 ∧
      collectEvaluations firstPossibleKey lastPossibleKey s counts =
        (adjustSplitters firstPossibleKey lastPossibleKey s2).bind (sendRound lastPossibleKey) ∧
      partial_sum (0 :: counts) = some s2.binCounts ∧
      s2.splitters = s.splitters ∧
      s2.binCounts.length = counts.length + 1 ∧
      s2.binCounts.length = s2.splitters.length ∧
      s2.binCounts[0]? = some 0 ∧
      (∀ i, i ≤ counts.length → s2.binCounts[i]? = some (counts.take i).sum) ∧
      s2.binCounts.Pairwise (· ≤ ·) ∧
      (∀ x ∈ s2.binCounts, isInt x = true) ∧
      (∀ t m, collectEvaluations firstPossibleKey lastPossibleKey s counts = some (t, m) →
        t.binCounts = s2.binCounts) ∧
      ∀ (data : List Nat) (a : Nat) (rest : List Nat), s.splitters = a :: rest →
        s.splitters.Pairwise (· ≤ ·) → counts = histogram data s.splitters →
        (∀ d ∈ data, a ≤ d) →
        ∀ (i k : Nat), s.splitters[i]? = some k →
          s2.binCounts[i]? = some (data.countP (fun d => decide (d < k)) : Int) := by
  have hov := partial_sum_zero_cons_of_isInt (isInt_take_sum hc hmax)
  have hex : ∃ s2, prepareRound (receiveCounts s counts) = some s2 := by
    by_cases hk : s.numKeys = 0
    · exact ⟨_, prepareRound_first counts hP hk hov⟩
    · exact ⟨_, prepareRound_later_some counts hk hov⟩
  obtain ⟨s2, h2⟩ := hex
  obtain ⟨-, -, -, hsp, hbc, -, -⟩ := prepareRound_spec hP h2
  have hl : s2.binCounts.length = counts.length + 1 := by
    rw [hbc, runningSums_length]
    simp
  have hentry : ∀ i, i ≤ counts.length → s2.binCounts[i]? = some (counts.take i).sum := by
    intro i hi
    rw [hbc]
    exact runningSums_zero_cons_getElem? counts i hi
  refine ⟨s2, h2, ?_, ?_, hsp, hl, ?_, ?_, hentry, ?_, ?_, ?_, ?_⟩
  · rw [collectEvaluations_probing counts hs, h2, Option.some_bind]
  · rw [hbc]
    exact hov
  · rw [hl, hsp, hlen]
  · rw [hbc]
    exact runningSums_zero_cons_head counts
  · rw [hbc]
    exact runningSums_zero_cons_pairwise hc
  · intro x hx
    obtain ⟨i, hi, hxi⟩ := List.getElem_of_mem hx
    have hi1 : i ≤ counts.length := by omega
    have h3 := hentry i hi1
    rw [List.getElem?_eq_getElem hi, Option.some.injEq] at h3
    rw [← hxi, h3]
    exact isInt_take_sum hc hmax i hi1
  · intro t m h
    obtain ⟨p, t1, hp, h3, h4⟩ := collectEvaluations_step hs h
    rw [h2] at hp
    cases hp
    obtain ⟨-, -, -, -, hb3, -⟩ := adjustSplitters_frame h3
    obtain ⟨-, -, -, -, hb4, -⟩ := sendRound_frame h4
    rw [hb4, hb3]
  · intro data a rest hsplit hsorted hcounts hdata i k hik
    rw [hbc, hcounts, hsplit, runningSums_histogram data a rest (hsplit ▸ hsorted),
      ← hsplit, List.getElem?_map, hik, Option.map_some', countIn_eq_below data a k hdata]

/-- C12 at the first response `[0, 3, 3, 0, 0, 0, 0]` of the sort `startedThree`. -/
theorem collectEvaluations_cumulative_witness :
    (1 ≤ startedThree.numChares ∧ startedThree.sorted = false ∧
      (∀ c ∈ [(0 : Int), 3, 3, 0, 0, 0, 0], 0 ≤ c) ∧
      [(0 : Int), 3, 3, 0, 0, 0, 0].sum ≤ INT_MAX ∧
      startedThree.splitters.length = [(0 : Int), 3, 3, 0, 0, 0, 0].length + 1) ∧
    ∃ s2, prepareRound (receiveCounts startedThree [0, 3, 3, 0, 0, 0, 0]) = some s2 ∧
      collectEvaluations 0 70 startedThree [0, 3, 3, 0, 0, 0, 0] =
        (adjustSplitters 0 70 s2).bind (sendRound 70) ∧
      partial_sum (0 :: [0, 3, 3, 0, 0, 0, 0]) = some s2.binCounts ∧
      s2.splitters = startedThree.splitters ∧
      s2.binCounts.length = [(0 : Int), 3, 3, 0, 0, 0, 0].length + 1 ∧
      s2.binCounts.length = s2.splitters.length ∧
      s2.binCounts[0]? = some 0 ∧
      (∀ i, i ≤ [(0 : Int), 3, 3, 0, 0, 0, 0].length →
        s2.binCounts[i]? = some ([(0 : Int), 3, 3, 0, 0, 0, 0].take i).sum) ∧
      s2.binCounts.Pairwise (· ≤ ·) ∧
      (∀ x ∈ s2.binCounts, isInt x = true) ∧
      (∀ t m, collectEvaluations 0 70 startedThree [0, 3, 3, 0, 0, 0, 0] = some (t, m) →
        t.binCounts = s2.binCounts) ∧
      ∀ (data : List Nat) (a : Nat) (rest : List Nat), startedThree.splitters = a :: rest →
        startedThree.splitters.Pairwise (· ≤ ·) →
        [(0 : Int), 3, 3, 0, 0, 0, 0] = histogram data startedThree.splitters →
        (∀ d ∈ data, a ≤ d) →
        ∀ (i k : Nat), startedThree.splitters[i]? = some k →
          s2.binCounts[i]? = some (data.countP (fun d => decide (d < k)) : Int) :=
  ⟨⟨by decide, rfl, by decide, by decide, rfl⟩,
    collectEvaluations_cumulative 0 70 startedThree [0, 3, 3, 0, 0, 0, 0] (by decide) rfl
      (by decide) (by decide) rfl⟩

/-! ## The probe between the two bracketing keys -/

/-- C13: in the second probing round of the sort of `fourRecords` into two partitions (keys
ranging over `0 .. 20`, tolerance zero) the goal `2` stays unresolved between
`leftBound = 5` and `rightBound = 7`.  The third probe `adjustSplitters` contributes is
`5 / 2 + 7 / 2 = 5`, the left key itself, not the integer average `(5 + 7) / 2 = 6`: the new
candidate list is `[0, 5, 7, 20]` and the average is not among the candidates.  The two
values differ by one whenever both bracketing keys are odd. -/
theorem third_probe_not_average :
    collectEvaluations 0 20 (startSorting 0 20 idle 2 0).1
        (histogram fourRecords [0, 5, 10, 15, 20]) =
      some (probedTwo, Msg.acceptCandidateKeys [0, 5, 7, 10, 20]) ∧
    traceGoals probedTwo.binCounts probedTwo.splitters probedTwo.closeEnough 0 probedTwo.goals =
      some [(2, ⟨2, 5, 7, Verdict.unresolved⟩)] ∧
    (adjustSplitters 0 20 probedTwo).map (fun t => t.splitters) = some [0, 5, 7, 20] ∧
    (5 : Nat) < 7 ∧ (5 : Nat) / 2 + 7 / 2 = 5 ∧ ((5 : Nat) + 7) / 2 = 6 ∧
    ((5 : Nat) + 7) / 2 ∉ [0, 5, 7, 20] ∧
    ∀ leftBound rightBound : Nat, leftBound % 2 = 1 → rightBound % 2 = 1 →
      leftBound / 2 + rightBound / 2 + 1 = (leftBound + rightBound) / 2 := by
  refine ⟨by decide!, by decide, by decide, by decide, by decide, by decide, by decide, ?_⟩
  intro l r hl hr
  omega

/-! ## A bracket that is not narrowed -/

theorem stuckTwo_loop :
    adjustLoop [0, 0, 4, 4] [0, 5, 7, 20] 0 0 [2] [0] [] = some ([2], [0], [5, 7]) := by
  decide

theorem stuckTwo_adjust (n : Nat) : adjustSplitters 0 20 (stuckTwo n) = some (stuckTwo n) := by
  have h : adjustLoop (stuckTwo n).binCounts (stuckTwo n).splitters (stuckTwo n).closeEnough 0
      (stuckTwo n).goals (stuckTwo n).keyBoundaries [] = some ([2], [0], [5, 7]) :=
    stuckTwo_loop
  rw [adjustSplitters, h]
  rfl

theorem stuckTwo_step (n : Nat) :
    collectEvaluations 0 20 (stuckTwo n) [0, 4, 0] =
      some (stuckTwo (n + 1), Msg.acceptCandidateKeys [0, 5, 7, 20]) := by
  rw [collectEvaluations_probing _ rfl]
  have h1 : prepareRound (receiveCounts (stuckTwo n) [0, 4, 0]) = some (stuckTwo (n + 1)) := rfl
  rw [h1, Option.some_bind, stuckTwo_adjust, Option.some_bind]
  rfl

theorem serve_stuckTwo :
    ∀ (fuel n : Nat),
      serve (histogram fourRecords) 0 20 fuel (stuckTwo n)
        (Msg.acceptCandidateKeys [0, 5, 7, 20]) = none := by
  intro fuel
  induction fuel with
  | zero => intro n; rfl
  | succ fuel ih =>
    intro n
    have hh : histogram fourRecords [0, 5, 7, 20] = [0, 4, 0] := by decide
    rw [serve, hh, stuckTwo_step]
    simp only [ih (n + 1)]

/-- C14: the sort of `fourRecords` (two records with key `5`, two with key `6`) into two
partitions, keys ranging over `0 .. 20`, tolerance zero.  From the third response on the
goal `2` is open between `leftBound = 5` and `rightBound = 7`, a bracket of width two; the
probe added between them is `5 / 2 + 7 / 2 = 5`, so `rightBound - m = 2` exceeds
`ceil((7 - 5) / 2) = 1`, the next candidate list is `[0, 5, 7, 20]` again and the next
bracket is the same one.  The state repeats (only the iteration counter moves) and the sort
never sends `acceptFinalKeys`, for any number of responses, although the key `6` has exactly
two records below it. -/
theorem narrowing_stalls :
    (∀ n, traceGoals (stuckTwo n).binCounts (stuckTwo n).splitters (stuckTwo n).closeEnough 0
        (stuckTwo n).goals = some [(2, ⟨2, 5, 7, Verdict.unresolved⟩)]) ∧
    (5 : Nat) < 7 ∧ 2 ≤ (7 : Nat) - 5 ∧ (5 : Nat) / 2 + 7 / 2 = 5 ∧
    ¬ ((7 : Nat) - (5 / 2 + 7 / 2) ≤ (7 - 5 + 1) / 2) ∧
    (∀ n, collectEvaluations 0 20 (stuckTwo n) (histogram fourRecords (stuckTwo n).splitters) =
      some (stuckTwo (n + 1), Msg.acceptCandidateKeys (stuckTwo n).splitters)) ∧
    (∀ fuel, runSort (histogram fourRecords) 0 20 fuel idle 2 0 = none) ∧
    countIn fourRecords 0 6 = 2 ∧ Int.tdiv (countIn fourRecords 0 20) 2 = 2 := by
  refine ⟨fun n => ?_, by decide, by decide, by decide, by decide, fun n => ?_, fun fuel => ?_,
    by decide, by decide⟩
  · show traceGoals [0, 0, 4, 4] [0, 5, 7, 20] 0 0 [2] = _
    decide
  · have hh : histogram fourRecords [0, 5, 7, 20] = [0, 4, 0] := by decide
    show collectEvaluations 0 20 (stuckTwo n) (histogram fourRecords [0, 5, 7, 20]) = _
    rw [hh]
    exact stuckTwo_step n
  · have e : startSorting 0 20 idle 2 0 =
        ((startSorting 0 20 idle 2 0).1, Msg.acceptCandidateKeys [0, 5, 10, 15, 20]) := rfl
    have h1 : collectEvaluations 0 20 (startSorting 0 20 idle 2 0).1
        (histogram fourRecords [0, 5, 10, 15, 20]) =
        some (probedTwo, Msg.acceptCandidateKeys [0, 5, 7, 10, 20]) := by decide!
    have h2 : collectEvaluations 0 20 probedTwo (histogram fourRecords [0, 5, 7, 10, 20]) =
        some (narrowedTwo, Msg.acceptCandidateKeys [0, 5, 7, 20]) := by decide
    have h3 : collectEvaluations 0 20 narrowedTwo (histogram fourRecords [0, 5, 7, 20]) =
        some (stuckTwo 3, Msg.acceptCandidateKeys [0, 5, 7, 20]) := by decide
    rw [runSort, e]
    rcases fuel with _ | _ | _ | fuel
    · rfl
    · simp only [serve, h1]
    · simp only [serve, h1, h2]
    · simp only [serve, h1, h2, h3, serve_stuckTwo]

/-! ## The cursor at the first position and past the last one -/

theorem bracketGoal_at_begin {bc : List Int} {cursor : Nat} {g : Int} (sp : List Nat) (ce : Int)
    (h : lower_bound bc cursor g = 0) : bracketGoal bc sp ce cursor g = none := by
  simp [bracketGoal, h]

theorem bracketGoal_at_end {bc : List Int} {sp : List Nat} {cursor : Nat} {g : Int} (ce : Int)
    (h : sp.length ≤ lower_bound bc cursor g) : bracketGoal bc sp ce cursor g = none := by
  have hnone : sp[lower_bound bc cursor g]? = none := List.getElem?_eq_none h
  unfold bracketGoal
  simp only [hnone]
  split_ifs
  · rfl
  · split <;> simp_all

/-- C15: a sort of one record (key `5`) into two partitions, keys ranging over `0 .. 20`.  The
first response `[0, 1, 0, 0]` gives the cumulative counts `[0, 0, 1, 1, 1]`, as long as the
candidate list, the average `0` and the goal `0`; the lower-bound cursor for the goal lands
on the very first position, `numLeftKey` is the position before `binCounts.begin()`, and the
step reads `splitters` and `binCounts` at the index `-1`: the step is undefined, and so is
the whole sort whatever the number of responses.  Whenever the cursor lands on the first
position the step is undefined, and so it is whenever the cursor lands past the last
position of `splitters`, as for the goal `3` on the counts `[0, 1, 2]`. -/
theorem cursor_at_extreme_undefined :
    histogram [5] [0, 5, 10, 15, 20] = [0, 1, 0, 0] ∧
    (prepareRound (receiveCounts (startSorting 0 20 idle 2 0).1 [0, 1, 0, 0])).map
        (fun s => (s.binCounts, s.splitters, s.goals, s.closeEnough)) =
      some ([0, 0, 1, 1, 1], [0, 5, 10, 15, 20], [0], 0) ∧
    lower_bound [0, 0, 1, 1, 1] 0 0 = 0 ∧
    adjustLoop [0, 0, 1, 1, 1] [0, 5, 10, 15, 20] 0 0 [0] [0] [] = none ∧
    collectEvaluations 0 20 (startSorting 0 20 idle 2 0).1 (histogram [5] [0, 5, 10, 15, 20]) =
      none ∧
    (∀ fuel, runSort (histogram [5]) 0 20 fuel idle 2 0 = none) ∧
    lower_bound [0, 1, 2] 0 3 = 3 ∧
    adjustLoop [0, 1, 2] [0, 5, 20] 0 0 [3] [0] [] = none ∧
    (∀ (bc : List Int) (sp : List Nat) (ce : Int) (cursor : Nat) (g : Int),
      lower_bound bc cursor g = 0 ∨ sp.length ≤ lower_bound bc cursor g →
      bracketGoal bc sp ce cursor g = none) := by
  have h1 : collectEvaluations 0 20 (startSorting 0 20 idle 2 0).1
      (histogram [5] [0, 5, 10, 15, 20]) = none := by decide!
  refine ⟨by decide, by decide!, by decide, by decide, h1, fun fuel => ?_, by decide, by decide,
    ?_⟩
  · have e : startSorting 0 20 idle 2 0 =
        ((startSorting 0 20 idle 2 0).1, Msg.acceptCandidateKeys [0, 5, 10, 15, 20]) := rfl
    rw [runSort, e]
    cases fuel with
    | zero => rfl
    | succ fuel => simp only [serve, h1]
  · intro bc sp ce cursor g h
    rcases h with h | h
    · exact bracketGoal_at_begin sp ce h
    · exact bracketGoal_at_end ce h

/-! ## The forward cursor and the search from the start -/

theorem lower_bound_from_cursor {v : List Int} (hs : v.Pairwise (· ≤ ·)) (val : Int)
    (first : Nat) (hf : first ≤ lower_bound v 0 val) :
    lower_bound v first val = lower_bound v 0 val := by
  obtain ⟨-, hq1, hq2, hq3⟩ := lower_bound_spec val hs 0 (Nat.zero_le _)
  obtain ⟨hp0, hp1, hp2, hp3⟩ := lower_bound_spec val hs first (le_trans hf hq1)
  rcases Nat.lt_trichotomy (lower_bound v first val) (lower_bound v 0 val) with hlt | heq | hgt
  · obtain ⟨x, hx⟩ : ∃ x, v[lower_bound v first val]? = some x :=
      ⟨_, List.getElem?_eq_getElem (by omega)⟩
    have h1 := hq2 _ x (Nat.zero_le _) hlt hx
    have h2 := hp3 _ x (le_refl _) hx
    omega
  · exact heq
  · obtain ⟨x, hx⟩ : ∃ x, v[lower_bound v 0 val]? = some x :=
      ⟨_, List.getElem?_eq_getElem (by omega)⟩
    have h1 := hp2 _ x hf hgt hx
    have h2 := hq3 _ x (le_refl _) hx
    omega

theorem lower_bound_mono {v : List Int} (hs : v.Pairwise (· ≤ ·)) {g g1 : Int} (hg : g ≤ g1) :
    lower_bound v 0 g ≤ lower_bound v 0 g1 := by
  obtain ⟨-, hq1, hq2, -⟩ := lower_bound_spec g hs 0 (Nat.zero_le _)
  obtain ⟨-, -, -, hp3⟩ := lower_bound_spec g1 hs 0 (Nat.zero_le _)
  by_contra hlt
  have hlt1 : lower_bound v 0 g1 < lower_bound v 0 g := by omega
  obtain ⟨x, hx⟩ : ∃ x, v[lower_bound v 0 g1]? = some x :=
    ⟨_, List.getElem?_eq_getElem (by omega)⟩
  have h1 := hq2 _ x (Nat.zero_le _) hlt1 hx
  have h2 := hp3 _ x (le_refl _) hx
  omega

theorem firstPositionAtLeast_spec (v : List Int) (val : Int) :
    firstPositionAtLeast v val ≤ v.length ∧
      (∀ j x, j < firstPositionAtLeast v val → v[j]? = some x → x < val) ∧
      ∀ x, v[firstPositionAtLeast v val]? = some x → val ≤ x := by
  induction v with
  | nil => simp [firstPositionAtLeast]
  | cons a w ih =>
    obtain ⟨ih1, ih2, ih3⟩ := ih
    unfold firstPositionAtLeast at ih1 ih2 ih3 ⊢
    rw [List.findIdx_cons]
    by_cases ha : val ≤ a
    · simp [ha]
    · simp only [ha, decide_False, cond_false, List.length_cons, Nat.add_le_add_iff_right,
        List.getElem?_cons_succ]
      refine ⟨ih1, ?_, ih3⟩
      intro j x hj hx
      cases j with
      | zero =>
        simp only [List.getElem?_cons_zero, Option.some.injEq] at hx
        omega
      | succ i =>
        rw [List.getElem?_cons_succ] at hx
        exact ih2 i x (by omega) hx

theorem lower_bound_eq_firstPositionAtLeast {v : List Int} (hs : v.Pairwise (· ≤ ·))
    (val : Int) : lower_bound v 0 val = firstPositionAtLeast v val := by
  obtain ⟨-, hq1, hq2, hq3⟩ := lower_bound_spec val hs 0 (Nat.zero_le _)
  obtain ⟨hf1, hf2, hf3⟩ := firstPositionAtLeast_spec v val
  rcases Nat.lt_trichotomy (lower_bound v 0 val) (firstPositionAtLeast v val) with hlt | heq | hgt
  · obtain ⟨x, hx⟩ : ∃ x, v[lower_bound v 0 val]? = some x :=
      ⟨_, List.getElem?_eq_getElem (by omega)⟩
    have h1 := hf2 _ x hlt hx
    have h2 := hq3 _ x (le_refl _) hx
    omega
  · exact heq
  · obtain ⟨x, hx⟩ : ∃ x, v[firstPositionAtLeast v val]? = some x :=
      ⟨_, List.getElem?_eq_getElem (by omega)⟩
    have h1 := hq2 _ x (Nat.zero_le _) hgt hx
    have h2 := hf3 x hx
    omega

theorem cursorPositions_eq {v : List Int} (hs : v.Pairwise (· ≤ ·)) :
    ∀ (goals : List Int) (cursor : Nat), goals.Pairwise (· ≤ ·) →
      (∀ g ∈ goals, cursor ≤ lower_bound v 0 g) →
      cursorPositions v cursor goals = goals.map (lower_bound v 0) := by
  intro goals
  induction goals with
  | nil => intro cursor _ _; rfl
  | cons g rest ih =>
    intro cursor hg hc
    rw [List.pairwise_cons] at hg
    have e := lower_bound_from_cursor hs g cursor (hc g (List.mem_cons_self _ _))
    rw [cursorPositions, e, List.map_cons,
      ih (lower_bound v 0 g) hg.2 (fun g1 h1 => lower_bound_mono hs (hg.1 g1 h1))]

theorem traceGoals_pos {bc : List Int} {sp : List Nat} {ce : Int} :
    ∀ (goals : List Int) (cursor : Nat) (tr : List (Int × Bracket)),
      traceGoals bc sp ce cursor goals = some tr →
      tr.map (fun gb => (gb.1, gb.2.pos)) =
        goals.zip (cursorPositions bc cursor goals) := by
  intro goals
  induction goals with
  | nil =>
    intro cursor tr h
    simp only [traceGoals, Option.some.injEq] at h
    subst h
    rfl
  | cons g rest ih =>
    intro cursor tr h
    rw [traceGoals] at h
    rcases hb : bracketGoal bc sp ce cursor g with _ | b
    · simp [hb] at h
    · simp only [hb] at h
      rcases ht : traceGoals bc sp ce b.pos rest with _ | tr1
      · simp [ht] at h
      · simp only [ht, Option.some.injEq] at h
        subst h
        have hpos := (bracketGoal_spec hb).1
        rw [cursorPositions, List.zip_cons_cons, List.map_cons, ← hpos, ih b.pos tr1 ht]

theorem zip_map_self (f : Int → Nat) (l : List Int) :
    l.zip (l.map f) = l.map (fun g => (g, f g)) := by
  induction l with
  | nil => rfl
  | cons a l ih => rw [List.map_cons, List.zip_cons_cons, ih, List.map_cons]

/-- C16: on a non-decreasing cumulative count vector and for goals in ascending order, the
positions the forward cursor of `adjustSplitters` finds (every `lower_bound` started at the
position found for the goal before) are, goal by goal, the results of `lower_bound` started
at the beginning of the vector, and these are the first positions of the whole vector whose
value is at least the goal, as the specification describes the scan.  The brackets of a
defined step stand at these positions. -/
theorem cursor_is_lower_bound (binCounts : List Int) (goals : List Int)
    (hs : binCounts.Pairwise (· ≤ ·)) (hg : goals.Pairwise (· ≤ ·)) :
    cursorPositions binCounts 0 goals = goals.map (lower_bound binCounts 0) ∧
      cursorPositions binCounts 0 goals = goals.map (firstPositionAtLeast binCounts) ∧
      ∀ (splitters : List Nat) (closeEnough : Int) (tr : List (Int × Bracket)),
        traceGoals binCounts splitters closeEnough 0 goals = some tr →
        tr.map (fun gb => (gb.1, gb.2.pos)) =
            goals.map (fun g => (g, firstPositionAtLeast binCounts g)) ∧
          ∀ gb ∈ tr, gb.2.pos = firstPositionAtLeast binCounts gb.1 ∧
            gb.2.pos = lower_bound binCounts 0 gb.1 := by
  have h1 : cursorPositions binCounts 0 goals = goals.map (lower_bound binCounts 0) :=
    cursorPositions_eq hs goals 0 hg (fun _ _ => Nat.zero_le _)
  have h2 : goals.map (lower_bound binCounts 0) = goals.map (firstPositionAtLeast binCounts) :=
    List.map_congr_left (fun g _ => lower_bound_eq_firstPositionAtLeast hs g)
  refine ⟨h1, h1.trans h2, ?_⟩
  intro splitters closeEnough tr htr
  have h3 : tr.map (fun gb => (gb.1, gb.2.pos)) =
      goals.map (fun g => (g, firstPositionAtLeast binCounts g)) := by
    rw [traceGoals_pos goals 0 tr htr, h1, h2, zip_map_self]
  refine ⟨h3, ?_⟩
  intro gb hgb
  have hmem : (gb.1, gb.2.pos) ∈ tr.map (fun gb => (gb.1, gb.2.pos)) :=
    List.mem_map_of_mem _ hgb
  rw [h3, List.mem_map] at hmem
  obtain ⟨g, -, hgeq⟩ := hmem
  simp only [Prod.mk.injEq] at hgeq
  obtain ⟨rfl, hpos⟩ := hgeq
  exact ⟨hpos.symm, by rw [← hpos, lower_bound_eq_firstPositionAtLeast hs]⟩

/-- C16 at the first round of `probingThree`: the goals `10` and `20` on the cumulative
counts `[0, 14, 28, 30, 30, 30, 30, 30]`. -/
theorem cursor_is_lower_bound_witness :
    (probingThree.binCounts.Pairwise (· ≤ ·) ∧ probingThree.goals.Pairwise (· ≤ ·)) ∧
    (cursorPositions probingThree.binCounts 0 probingThree.goals =
        probingThree.goals.map (lower_bound probingThree.binCounts 0) ∧
      cursorPositions probingThree.binCounts 0 probingThree.goals =
        probingThree.goals.map (firstPositionAtLeast probingThree.binCounts) ∧
      ∀ (splitters : List Nat) (closeEnough : Int) (tr : List (Int × Bracket)),
        traceGoals probingThree.binCounts splitters closeEnough 0 probingThree.goals = some tr →
        tr.map (fun gb => (gb.1, gb.2.pos)) =
            probingThree.goals.map
              (fun g => (g, firstPositionAtLeast probingThree.binCounts g)) ∧
          ∀ gb ∈ tr, gb.2.pos = firstPositionAtLeast probingThree.binCounts gb.1 ∧
            gb.2.pos = lower_bound probingThree.binCounts 0 gb.1) :=
  ⟨⟨by decide, by decide⟩,
    cursor_is_lower_bound probingThree.binCounts probingThree.goals (by decide) (by decide)⟩

/-! ## The converged flag -/

/-- C17: after a call of `adjustSplitters` entered with `sorted = false`, `sorted` is true
exactly when the goal list is empty afterwards, which is exactly when the call collected no
new probe points (`newSplitters` stayed empty), which is exactly when every goal of the call
was resolved.  When `sorted` is set, `splitters` is left as it was; when it is not set,
`splitters` is replaced by the new probe points with the two sentinels. -/
theorem adjustSplitters_sorted_iff (firstPossibleKey lastPossibleKey : Nat) (s t : Sorter)
    (h : adjustSplitters firstPossibleKey lastPossibleKey s = some t) (hs : s.sorted = false) :
    (t.sorted = true ↔ t.goals = []) ∧
      ∃ tr, traceGoals s.binCounts s.splitters s.closeEnough 0 s.goals = some tr ∧
        (t.sorted = true ↔ tr.foldl addProbes [] = []) ∧
        (tr.foldl addProbes [] = [] ↔ ∀ gb ∈ tr, staysUnresolved gb = false) ∧
        (t.sorted = true → t.splitters = s.splitters) ∧
        (t.sorted = false →
          t.splitters =
            setInsert lastPossibleKey (setInsert firstPossibleKey (tr.foldl addProbes []))) := by
  obtain ⟨tr, htr, hg, -, hcase⟩ := adjustSplitters_eq h
  have hnil : tr.foldl addProbes [] = [] ↔ tr.filter staysUnresolved = [] := by
    rw [foldl_addProbes_eq_nil]
    simp
  have hall : tr.filter staysUnresolved = [] ↔ ∀ gb ∈ tr, staysUnresolved gb = false := by
    rw [List.filter_eq_nil_iff]
    simp
  have hgoals : t.goals = [] ↔ tr.filter staysUnresolved = [] := by
    rw [hg]
    simp
  rcases hcase with ⟨hf, hsorted, hsp⟩ | ⟨hf, hsorted, hsp⟩
  · refine ⟨⟨fun _ => hgoals.2 hf, fun _ => hsorted⟩, tr, htr,
      ⟨fun _ => hnil.2 hf, fun _ => hsorted⟩, hnil.trans hall, fun _ => hsp, ?_⟩
    intro hfalse
    rw [hsorted] at hfalse
    exact absurd hfalse (by decide)
  · have hts : t.sorted = false := by rw [hsorted, hs]
    refine ⟨⟨fun h1 => ?_, fun h1 => absurd (hgoals.1 h1) hf⟩, tr, htr,
      ⟨fun h1 => ?_, fun h1 => absurd (hnil.1 h1) hf⟩, hnil.trans hall, fun h1 => ?_,
      fun _ => hsp⟩
    · rw [hts] at h1
      exact absurd h1 (by decide)
    · rw [hts] at h1
      exact absurd h1 (by decide)
    · rw [hts] at h1
      exact absurd h1 (by decide)

/-- C17 at the step from `probingThree` to `refinedThree`, which leaves the goal `20` open. -/
theorem adjustSplitters_sorted_iff_witness :
    (adjustSplitters 0 100 probingThree = some refinedThree ∧ probingThree.sorted = false) ∧
    ((refinedThree.sorted = true ↔ refinedThree.goals = []) ∧
      ∃ tr, traceGoals probingThree.binCounts probingThree.splitters probingThree.closeEnough 0
          probingThree.goals = some tr ∧
        (refinedThree.sorted = true ↔ tr.foldl addProbes [] = []) ∧
        (tr.foldl addProbes [] = [] ↔ ∀ gb ∈ tr, staysUnresolved gb = false) ∧
        (refinedThree.sorted = true → refinedThree.splitters = probingThree.splitters) ∧
        (refinedThree.sorted = false →
          refinedThree.splitters = setInsert 100 (setInsert 0 (tr.foldl addProbes [])))) :=
  ⟨⟨rfl, rfl⟩, adjustSplitters_sorted_iff 0 100 probingThree refinedThree rfl rfl⟩

/-! ## A sort does not depend on what the sort before it left behind -/

theorem prepareRound_start (fk lk : Nat) (s s1 : Sorter) (P : Nat) (toler : ℚ)
    (counts : List Int) :
    prepareRound (receiveCounts (startSorting fk lk s P toler).1 counts) =
      prepareRound (receiveCounts (startSorting fk lk s1 P toler).1 counts) := by
  simp only [prepareRound, receiveCounts, startSorting, firstResponse, if_true]

theorem collectEvaluations_start (fk lk : Nat) (s s1 : Sorter) (P : Nat) (toler : ℚ)
    (counts : List Int) :
    collectEvaluations fk lk (startSorting fk lk s P toler).1 counts =
      collectEvaluations fk lk (startSorting fk lk s1 P toler).1 counts := by
  rw [collectEvaluations_probing counts rfl, collectEvaluations_probing counts rfl,
    prepareRound_start fk lk s s1]

/-- C18: `startSorting` sets `sorted = false`, `numIterations = 0`, `numKeys = 0` and
`keyBoundaries = [firstPossibleKey]`, whatever the state before.  For any two states `s` and
`s1`, sorts started from them with the same partition count and tolerance send the same first
candidate list, reach the same state and send the same message on the first response, and
so, against the same provider, reach the same final state and send the same messages, the
final commit included; the same holds for the probing rounds on any list of responses. -/
theorem startSorting_resets (firstPossibleKey lastPossibleKey : Nat) (s s1 : Sorter) (P : Nat)
    (toler : ℚ) :
    ((startSorting firstPossibleKey lastPossibleKey s P toler).1.sorted = false ∧
      (startSorting firstPossibleKey lastPossibleKey s P toler).1.numIterations = 0 ∧
      (startSorting firstPossibleKey lastPossibleKey s P toler).1.numKeys = 0 ∧
      (startSorting firstPossibleKey lastPossibleKey s P toler).1.keyBoundaries =
        [firstPossibleKey]) ∧
    (startSorting firstPossibleKey lastPossibleKey s P toler).2 =
      (startSorting firstPossibleKey lastPossibleKey s1 P toler).2 ∧
    (∀ counts : List Int,
      collectEvaluations firstPossibleKey lastPossibleKey
          (startSorting firstPossibleKey lastPossibleKey s P toler).1 counts =
        collectEvaluations firstPossibleKey lastPossibleKey
          (startSorting firstPossibleKey lastPossibleKey s1 P toler).1 counts) ∧
    (∀ (provider : List Nat → List Int) (fuel : Nat),
      runSort provider firstPossibleKey lastPossibleKey fuel s P toler =
        runSort provider firstPossibleKey lastPossibleKey fuel s1 P toler) ∧
    ∀ responses : List (List Int),
      (probeRounds firstPossibleKey lastPossibleKey
          (startSorting firstPossibleKey lastPossibleKey s P toler).1
          (startSorting firstPossibleKey lastPossibleKey s P toler).2 responses).map Prod.snd =
        (probeRounds firstPossibleKey lastPossibleKey
          (startSorting firstPossibleKey lastPossibleKey s1 P toler).1
          (startSorting firstPossibleKey lastPossibleKey s1 P toler).2 responses).map
          Prod.snd := by
  refine ⟨⟨rfl, rfl, rfl, rfl⟩, rfl, collectEvaluations_start _ _ s s1 P toler, ?_, ?_⟩
  · intro provider fuel
    have e : ∀ s0 : Sorter, startSorting firstPossibleKey lastPossibleKey s0 P toler =
        ((startSorting firstPossibleKey lastPossibleKey s0 P toler).1,
          Msg.acceptCandidateKeys
            (pushEven (3 * P - 2) firstPossibleKey
                ((lastPossibleKey - firstPossibleKey) / (3 * P - 2)) ++
              [lastPossibleKey])) := fun _ => rfl
    rw [runSort, runSort, e s, e s1]
    cases fuel with
    | zero => rfl
    | succ fuel =>
      simp only [serve]
      rw [collectEvaluations_start firstPossibleKey lastPossibleKey s s1]
  · intro responses
    cases responses with
    | nil => rfl
    | cons counts rest =>
      have hs : ∀ s0 : Sorter,
          (startSorting firstPossibleKey lastPossibleKey s0 P toler).1.sorted = false :=
        fun _ => rfl
      rw [probeRounds, probeRounds]
      simp only [hs, Bool.false_eq_true, if_false]
      rw [collectEvaluations_start firstPossibleKey lastPossibleKey s s1]

/-! ## With at least one record per partition the cursor stays inside the vector -/

theorem targets_within_total {T : Int} {P : Nat} (havg : 1 ≤ Int.tdiv T P) {j : Nat}
    (hj : j + 1 < P) :
    1 ≤ ((j : Int) + 1) * Int.tdiv T P ∧ ((j : Int) + 1) * Int.tdiv T P ≤ T := by
  have hT : 0 ≤ T := by
    by_contra hneg
    have h1 : 0 ≤ (-T).tdiv (P : Int) := Int.tdiv_nonneg (by omega) (Int.ofNat_nonneg _)
    rw [Int.neg_tdiv] at h1
    omega
  have hdiv : Int.tdiv T P = T / (P : Int) := Int.tdiv_eq_ediv hT (Int.ofNat_nonneg _)
  have hP : (0 : Int) < P := by omega
  have hmod := Int.emod_add_ediv T P
  have hnn := Int.emod_nonneg T (show (P : Int) ≠ 0 by omega)
  rw [← hdiv] at hmod
  have hle : ((j : Int) + 1) * Int.tdiv T P ≤ (P : Int) * Int.tdiv T P :=
    Int.mul_le_mul_of_nonneg_right (by omega) (by omega)
  have hge : (1 : Int) * Int.tdiv T P ≤ ((j : Int) + 1) * Int.tdiv T P :=
    Int.mul_le_mul_of_nonneg_right (by omega) (by omega)
  generalize ((j : Int) + 1) * Int.tdiv T P = x at hle hge ⊢
  generalize (P : Int) * Int.tdiv T P = y at hle hmod
  omega

theorem bracketGoal_defined {bc : List Int} {sp : List Nat} (ce : Int) {T : Int}
    (hs : bc.Pairwise (· ≤ ·)) (h0 : bc[0]? = some 0) (hT : bc.getLast? = some T)
    (hlen : sp.length = bc.length) {cursor : Nat} (hc : cursor < bc.length) {g : Int}
    (hg1 : 1 ≤ g) (hg2 : g ≤ T) :
    ∃ b, bracketGoal bc sp ce cursor g = some b ∧ b.pos = lower_bound bc cursor g ∧
      1 ≤ b.pos ∧ b.pos < bc.length ∧ cursor ≤ b.pos := by
  obtain ⟨hp0, hp1, hp2, hp3⟩ := lower_bound_spec g hs cursor (le_of_lt hc)
  have hpos : 1 ≤ lower_bound bc cursor g := by
    by_contra hz
    have hz0 : lower_bound bc cursor g = 0 := by omega
    have := hp3 0 0 (by omega) h0
    omega
  have hlt : lower_bound bc cursor g < bc.length := by
    by_contra hge
    have heq : lower_bound bc cursor g = bc.length := by omega
    rw [List.getLast?_eq_getElem?] at hT
    have := hp2 (bc.length - 1) T (by omega) (by omega) hT
    omega
  obtain ⟨l, hl⟩ : ∃ l, sp[lower_bound bc cursor g - 1]? = some l :=
    ⟨_, List.getElem?_eq_getElem (by omega)⟩
  obtain ⟨r, hr⟩ : ∃ r, sp[lower_bound bc cursor g]? = some r :=
    ⟨_, List.getElem?_eq_getElem (by omega)⟩
  obtain ⟨nl, hnl⟩ : ∃ nl, bc[lower_bound bc cursor g - 1]? = some nl :=
    ⟨_, List.getElem?_eq_getElem (by omega)⟩
  obtain ⟨nr, hnr⟩ : ∃ nr, bc[lower_bound bc cursor g]? = some nr :=
    ⟨_, List.getElem?_eq_getElem hlt⟩
  have hne : lower_bound bc cursor g ≠ 0 := by omega
  have hex : ∃ b, bracketGoal bc sp ce cursor g = some b := by
    simp only [bracketGoal, hne, if_false, hl, hr, hnl, hnr]
    split_ifs <;> exact ⟨_, rfl⟩
  obtain ⟨b, hb⟩ := hex
  have hbp := (bracketGoal_spec hb).1
  exact ⟨b, hb, hbp, by omega, by omega, by omega⟩

theorem traceGoals_in_bounds {bc : List Int} {sp : List Nat} (ce : Int) {T : Int}
    (hs : bc.Pairwise (· ≤ ·)) (h0 : bc[0]? = some 0) (hT : bc.getLast? = some T)
    (hlen : sp.length = bc.length) :
    ∀ (goals : List Int) (cursor : Nat), (∀ g ∈ goals, 1 ≤ g ∧ g ≤ T) → cursor < bc.length →
      ∃ tr, traceGoals bc sp ce cursor goals = some tr ∧
        ∀ gb ∈ tr, 1 ≤ gb.2.pos ∧ gb.2.pos < bc.length := by
  intro goals
  induction goals with
  | nil =>
    intro cursor _ _
    exact ⟨[], rfl, by simp⟩
  | cons g rest ih =>
    intro cursor hg hc
    obtain ⟨hg1, hg2⟩ := hg g (List.mem_cons_self _ _)
    obtain ⟨b, hb, -, hb1, hb2, -⟩ := bracketGoal_defined ce hs h0 hT hlen hc hg1 hg2
    obtain ⟨tr, htr, hall⟩ := ih b.pos (fun g1 h1 => hg g1 (List.mem_cons_of_mem _ h1)) hb2
    refine ⟨(g, b) :: tr, ?_, ?_⟩
    · rw [traceGoals, hb]
      simp only [htr]
    · intro gb hgb
      rcases List.mem_cons.1 hgb with rfl | hgb
      · exact ⟨hb1, hb2⟩
      · exact hall gb hgb

/-- C19: when the average `T / P` is at least `1`, the cumulative count vector is
non-decreasing from `0` to `T`, `splitters` is as long as the vector, and the goals are among
the targets `avg, 2 * avg, ..., (P - 1) * avg`, the call of `adjustSplitters` is defined and,
for every goal, the lower-bound cursor lands after the first position and at or before the
last one: neither diagnostic branch is reached, and the indices `pos - 1` and `pos` used for
`binCounts` and `splitters` are in bounds. -/
theorem adjustSplitters_in_bounds (firstPossibleKey lastPossibleKey : Nat) (s : Sorter)
    (T : Int) (P : Nat) (havg : 1 ≤ Int.tdiv T P) (hs : s.binCounts.Pairwise (· ≤ ·))
    (h0 : s.binCounts.head? = some 0) (hT : s.binCounts.getLast? = some T)
    (hlen : s.splitters.length = s.binCounts.length)
    (hg : ∀ g ∈ s.goals, ∃ j : Nat, j + 1 < P ∧ g = ((j : Int) + 1) * Int.tdiv T P) :
    ∃ t tr, adjustSplitters firstPossibleKey lastPossibleKey s = some t ∧
      traceGoals s.binCounts s.splitters s.closeEnough 0 s.goals = some tr ∧
      tr.map Prod.fst = s.goals ∧
      ∀ gb ∈ tr, 0 < gb.2.pos ∧ gb.2.pos ≤ s.binCounts.length - 1 ∧
        gb.2.pos < s.binCounts.length ∧ gb.2.pos < s.splitters.length ∧
        (∃ x, s.binCounts[gb.2.pos - 1]? = some x) ∧ (∃ x, s.binCounts[gb.2.pos]? = some x) ∧
        s.splitters[gb.2.pos - 1]? = some gb.2.leftBound ∧
        s.splitters[gb.2.pos]? = some gb.2.rightBound := by
  have h00 : s.binCounts[0]? = some 0 := by
    rw [← List.head?_eq_getElem?]
    exact h0
  have hne : 0 < s.binCounts.length := by
    cases hbc : s.binCounts with
    | nil => simp [hbc] at h0
    | cons a l => simp
  have hgoals : ∀ g ∈ s.goals, 1 ≤ g ∧ g ≤ T := by
    intro g hgm
    obtain ⟨j, hj, rfl⟩ := hg g hgm
    exact targets_within_total havg hj
  obtain ⟨tr, htr, hall⟩ :=
    traceGoals_in_bounds s.closeEnough hs h00 hT hlen s.goals 0 hgoals hne
  have hdef : ∃ t, adjustSplitters firstPossibleKey lastPossibleKey s = some t := by
    rw [adjustSplitters, adjustLoop_eq_trace, htr]
    simp only [Option.map_some']
    split_ifs <;> exact ⟨_, rfl⟩
  obtain ⟨t, ht⟩ := hdef
  refine ⟨t, tr, ht, htr, traceGoals_map_fst htr, ?_⟩
  intro gb hgb
  obtain ⟨h1, h2⟩ := hall gb hgb
  obtain ⟨c, hc⟩ := traceGoals_mem htr gb hgb
  obtain ⟨-, -, hl, hr, -⟩ := bracketGoal_spec hc
  exact ⟨h1, by omega, h2, by omega, ⟨_, List.getElem?_eq_getElem (by omega)⟩,
    ⟨_, List.getElem?_eq_getElem h2⟩, hl, hr⟩

/-- C19 at the state `probingThree`: thirty records, three partitions, the goals `10` and
`20`. -/
theorem adjustSplitters_in_bounds_witness :
    (1 ≤ Int.tdiv 30 (3 : Nat) ∧ probingThree.binCounts.Pairwise (· ≤ ·) ∧
      probingThree.binCounts.head? = some 0 ∧ probingThree.binCounts.getLast? = some 30 ∧
      probingThree.splitters.length = probingThree.binCounts.length ∧
      ∀ g ∈ probingThree.goals,
        ∃ j : Nat, j + 1 < 3 ∧ g = ((j : Int) + 1) * Int.tdiv 30 (3 : Nat)) ∧
    ∃ t tr, adjustSplitters 0 100 probingThree = some t ∧
      traceGoals probingThree.binCounts probingThree.splitters probingThree.closeEnough 0
        probingThree.goals = some tr ∧
      tr.map Prod.fst = probingThree.goals ∧
      ∀ gb ∈ tr, 0 < gb.2.pos ∧ gb.2.pos ≤ probingThree.binCounts.length - 1 ∧
        gb.2.pos < probingThree.binCounts.length ∧ gb.2.pos < probingThree.splitters.length ∧
        (∃ x, probingThree.binCounts[gb.2.pos - 1]? = some x) ∧
        (∃ x, probingThree.binCounts[gb.2.pos]? = some x) ∧
        probingThree.splitters[gb.2.pos - 1]? = some gb.2.leftBound ∧
        probingThree.splitters[gb.2.pos]? = some gb.2.rightBound :=
  have hg : ∀ g ∈ probingThree.goals,
      ∃ j : Nat, j + 1 < 3 ∧ g = ((j : Int) + 1) * Int.tdiv 30 (3 : Nat) := by
    intro g hgm
    have hgm1 : g = 10 ∨ g = 20 := by simpa [probingThree] using hgm
    rcases hgm1 with rfl | rfl
    · exact ⟨0, by decide, by decide⟩
    · exact ⟨1, by decide, by decide⟩
  ⟨⟨by decide, by decide, rfl, rfl, rfl, hg⟩,
    adjustSplitters_in_bounds 0 100 probingThree 30 3 (by decide) (by decide) rfl rfl rfl hg⟩

/-! ## Distinct goals, distinct keys -/

theorem targets_strict (n : Nat) (avg : Int) (havg : 1 ≤ avg) :
    ((List.range n).map (fun (j : Nat) => ((j : Int) + 1) * avg)).Pairwise (· < ·) := by
  rw [List.pairwise_map]
  refine (List.pairwise_lt_range n).imp ?_
  intro i j hij
  have h1 : ((i : Int) + 1) < (j : Int) + 1 := by omega
  exact Int.mul_lt_mul_of_pos_right h1 (by omega)

theorem targets_apart {n : Nat} {avg : Int} (havg : 1 ≤ avg) {g g1 : Int}
    (hg : g ∈ (List.range n).map (fun (j : Nat) => ((j : Int) + 1) * avg))
    (hg1 : g1 ∈ (List.range n).map (fun (j : Nat) => ((j : Int) + 1) * avg))
    (hne : g ≠ g1) : avg ≤ |g - g1| := by
  obtain ⟨i, -, rfl⟩ := List.mem_map.1 hg
  obtain ⟨j, -, rfl⟩ := List.mem_map.1 hg1
  have hij : i ≠ j := by
    rintro rfl
    exact hne rfl
  rcases Nat.lt_or_gt_of_ne hij with h | h
  · have h1 : ((i : Int) + 1) + 1 ≤ (j : Int) + 1 := by omega
    have h2 := Int.mul_le_mul_of_nonneg_right h1 (show (0 : Int) ≤ avg by omega)
    rw [abs_sub_comm]
    have h3 : ((i : Int) + 1 + 1) * avg = ((i : Int) + 1) * avg + avg := by ring
    rw [h3] at h2
    exact le_trans (by omega) (le_abs_self _)
  · have h1 : ((j : Int) + 1) + 1 ≤ (i : Int) + 1 := by omega
    have h2 := Int.mul_le_mul_of_nonneg_right h1 (show (0 : Int) ≤ avg by omega)
    have h3 : ((j : Int) + 1 + 1) * avg = ((j : Int) + 1) * avg + avg := by ring
    rw [h3] at h2
    exact le_trans (by omega) (le_abs_self _)

theorem resolved_keys_distinct (F : Nat → Int) {avg ce : Int} (havg : 1 ≤ avg)
    (hce : 2 * ce < avg) {n : Nat} {pairs : List (Nat × Int)}
    (hperm : (pairs.map Prod.snd).Perm
      ((List.range n).map (fun (j : Nat) => ((j : Int) + 1) * avg)))
    (hclose : ∀ p ∈ pairs, |F p.1 - p.2| ≤ ce) :
    (∀ p ∈ pairs, ∀ q ∈ pairs, p.2 ≠ q.2 → p.1 ≠ q.1) ∧ (pairs.map Prod.fst).Nodup := by
  have hdist : ∀ p ∈ pairs, ∀ q ∈ pairs, p.2 ≠ q.2 → p.1 ≠ q.1 := by
    intro p hp q hq hne heq
    have hp2 : p.2 ∈ (List.range n).map (fun (j : Nat) => ((j : Int) + 1) * avg) :=
      hperm.subset (List.mem_map_of_mem _ hp)
    have hq2 : q.2 ∈ (List.range n).map (fun (j : Nat) => ((j : Int) + 1) * avg) :=
      hperm.subset (List.mem_map_of_mem _ hq)
    have hap := targets_apart havg hp2 hq2 hne
    have h1 := hclose p hp
    have h2 := hclose q hq
    rw [heq] at h1
    rw [abs_le] at h1 h2
    have h3 : |p.2 - q.2| < avg := by
      rw [abs_lt]
      constructor <;> omega
    omega
  refine ⟨hdist, ?_⟩
  have hnd : (pairs.map Prod.snd).Nodup :=
    hperm.nodup_iff.2 ((targets_strict n avg havg).imp (fun h => ne_of_lt h))
  rw [List.Nodup, List.pairwise_map] at hnd ⊢
  exact hnd.imp_of_mem (fun hp hq hne => hdist _ hp _ hq hne)

theorem targets_margin {T : Int} {P : Nat} (havg : 1 ≤ Int.tdiv T P) {n : Nat} {g : Int}
    (hn : n + 1 ≤ P)
    (hg : g ∈ (List.range n).map (fun (j : Nat) => ((j : Int) + 1) * Int.tdiv T P)) :
    Int.tdiv T P ≤ g ∧ g + Int.tdiv T P ≤ T := by
  obtain ⟨j, hj, rfl⟩ := List.mem_map.1 hg
  rw [List.mem_range] at hj
  have hT : 0 ≤ T := by
    by_contra hneg
    have h1 : 0 ≤ (-T).tdiv (P : Int) := Int.tdiv_nonneg (by omega) (Int.ofNat_nonneg _)
    rw [Int.neg_tdiv] at h1
    omega
  have hdiv : Int.tdiv T P = T / (P : Int) := Int.tdiv_eq_ediv hT (Int.ofNat_nonneg _)
  have hmod := Int.emod_add_ediv T P
  have hnn := Int.emod_nonneg T (show (P : Int) ≠ 0 by omega)
  rw [← hdiv] at hmod
  have hle : ((j : Int) + 1 + 1) * Int.tdiv T P ≤ (P : Int) * Int.tdiv T P :=
    Int.mul_le_mul_of_nonneg_right (by omega) (by omega)
  have hge : (1 : Int) * Int.tdiv T P ≤ ((j : Int) + 1) * Int.tdiv T P :=
    Int.mul_le_mul_of_nonneg_right (by omega) (by omega)
  have h3 : ((j : Int) + 1 + 1) * Int.tdiv T P = ((j : Int) + 1) * Int.tdiv T P + Int.tdiv T P := by
    ring
  rw [h3] at hle
  rw [one_mul] at hge
  generalize ((j : Int) + 1) * Int.tdiv T P = x at hle hge ⊢
  generalize (P : Int) * Int.tdiv T P = y at hle hmod
  generalize Int.tdiv T P = a at *
  omega

theorem countIn_eq_zero_of_le (data : List Nat) {a b : Nat} (h : b ≤ a) :
    countIn data a b = 0 := by
  unfold countIn
  rw [Int.natCast_eq_zero, List.countP_eq_zero]
  intro d _
  simp only [decide_eq_true_eq, not_and, not_lt]
  intro h1
  omega

theorem collectEvaluations_final_keys {fk lk : Nat} {s t : Sorter} {counts : List Int}
    {keys : List Nat} {ids cs : List Int}
    (h : collectEvaluations fk lk s counts = some (t, Msg.acceptFinalKeys keys ids cs)) :
    t.keyBoundaries = keys := by
  by_cases hs : s.sorted = true
  · unfold collectEvaluations at h
    have hs1 : (receiveCounts s counts).sorted = true := hs
    simp only [hs1, if_true] at h
    split_ifs at h
    simp only [Option.some.injEq, Prod.mk.injEq, Msg.acceptFinalKeys.injEq] at h
    obtain ⟨rfl, rfl, -, -⟩ := h
    rfl
  · have hs0 : s.sorted = false := by simpa using hs
    obtain ⟨s2, t1, -, -, h4⟩ := collectEvaluations_step hs0 h
    rcases sendRound_spec h4 with ⟨-, -, hm⟩ | ⟨-, b, bs, -, -, hm⟩ <;> cases hm

theorem serve_keyBoundaries (provider : List Nat → List Int) (fk lk : Nat) :
    ∀ (fuel : Nat) (s : Sorter) (keys0 : List Nat) (s1 : Sorter) (ms : List Msg),
      serve provider fk lk fuel s (Msg.acceptCandidateKeys keys0) = some (s1, ms) →
      ∃ ids counts, ms.getLast? = some (Msg.acceptFinalKeys s1.keyBoundaries ids counts) := by
  intro fuel
  induction fuel with
  | zero =>
    intro s keys0 s1 ms h
    simp [serve] at h
  | succ fuel ih =>
    intro s keys0 s1 ms h
    rw [serve] at h
    rcases hce : collectEvaluations fk lk s (provider keys0) with _ | ⟨s2, m⟩
    · simp [hce] at h
    · simp only [hce] at h
      rcases hsv : serve provider fk lk fuel s2 m with _ | ⟨s3, ms1⟩
      · simp [hsv] at h
      · simp only [hsv, Option.some.injEq, Prod.mk.injEq] at h
        obtain ⟨rfl, rfl⟩ := h
        cases m with
        | acceptFinalKeys keys ids cs =>
          rw [serve_final] at hsv
          simp only [Option.some.injEq, Prod.mk.injEq] at hsv
          obtain ⟨rfl, rfl⟩ := hsv
          rw [collectEvaluations_final_keys hce]
          exact ⟨ids, cs, rfl⟩
        | acceptCandidateKeys keys1 =>
          obtain ⟨ids, cs, hl⟩ := ih s2 keys1 s3 ms1 hsv
          refine ⟨ids, cs, ?_⟩
          rw [List.getLast?_cons, hl]
          rfl

/-- C20: a sort against the histogram of a fixed data set, with `T` records between the
sentinels, whose average `T / P` is at least `1` and more than twice the tolerance window.
When the sort converges, every interior boundary was accepted for a goal of its own with the
count of the records below it within the window of that goal, the goals being the targets
`avg, ..., (P - 1) * avg`; boundaries accepted for distinct goals are distinct keys, every
one of them lies strictly between `firstPossibleKey` and `lastPossibleKey` (no sentinel is
accepted), and the finalized `keyBoundaries`, the two sentinels included, is strictly
increasing. -/
theorem finalized_boundaries_strict (firstPossibleKey lastPossibleKey : Nat) (data : List Nat)
    (s0 : Sorter) (P : Nat) (toler : ℚ) (fuel : Nat) (s : Sorter) (msgs : List Msg)
    (havg : 1 ≤ Int.tdiv (countIn data firstPossibleKey lastPossibleKey) P)
    (hce : 2 * closeEnoughFor (Int.tdiv (countIn data firstPossibleKey lastPossibleKey) P)
      toler < Int.tdiv (countIn data firstPossibleKey lastPossibleKey) P)
    (h : runSort (histogram data) firstPossibleKey lastPossibleKey fuel s0 P toler
      = some (s, msgs)) :
    ∃ (pairs : List (Nat × Int)) (ids counts : List Int),
      msgs.getLast? = some (Msg.acceptFinalKeys s.keyBoundaries ids counts) ∧
      s.keyBoundaries =
        firstPossibleKey :: ((pairs.map Prod.fst).insertionSort (· ≤ ·) ++ [lastPossibleKey]) ∧
      (pairs.map Prod.snd).Perm
        ((List.range (P - 1)).map (fun (j : Nat) =>
          ((j : Int) + 1) * Int.tdiv (countIn data firstPossibleKey lastPossibleKey) P)) ∧
      (∀ p ∈ pairs, |countIn data firstPossibleKey p.1 - p.2| ≤
        closeEnoughFor (Int.tdiv (countIn data firstPossibleKey lastPossibleKey) P) toler) ∧
      (∀ p ∈ pairs, ∀ q ∈ pairs, p.2 ≠ q.2 → p.1 ≠ q.1) ∧
      (pairs.map Prod.fst).Nodup ∧
      (∀ p ∈ pairs, firstPossibleKey < p.1 ∧ p.1 < lastPossibleKey) ∧
      s.keyBoundaries.Pairwise (· < ·) := by
  have hP : 1 ≤ P := by
    by_contra hP0
    have hz : P = 0 := by omega
    rw [hz] at havg
    simp at havg
  have hTpos : 1 ≤ countIn data firstPossibleKey lastPossibleKey := by
    by_contra hT0
    have h1 : 0 ≤ (-countIn data firstPossibleKey lastPossibleKey).tdiv (P : Int) :=
      Int.tdiv_nonneg (by omega) (Int.ofNat_nonneg _)
    rw [Int.neg_tdiv] at h1
    omega
  have hle : firstPossibleKey ≤ lastPossibleKey := by
    by_contra hgt
    have := countIn_eq_zero_of_le data (show lastPossibleKey ≤ firstPossibleKey by omega)
    omega
  unfold runSort at h
  simp only [] at h
  cases hsv : serve (histogram data) firstPossibleKey lastPossibleKey fuel
      (startSorting firstPossibleKey lastPossibleKey s0 P toler).1
      (startSorting firstPossibleKey lastPossibleKey s0 P toler).2 with
  | none => rw [hsv] at h; exact absurd h (by simp)
  | some r =>
    obtain ⟨s1, ms⟩ := r
    rw [hsv] at h
    simp only [Option.some.injEq, Prod.mk.injEq] at h
    obtain ⟨rfl, rfl⟩ := h
    obtain ⟨sc, keys, hD, hg, hkeys, hlast⟩ :=
      serve_data data firstPossibleKey lastPossibleKey P toler hP hle fuel _ s1 ms
        (startSorting_probing _ _ _ _ _) (startSorting_inRange _ _ _ _ _ hP hle) rfl
        (fun hne => absurd rfl hne) (fun hne => absurd rfl hne) hsv
    obtain ⟨ids, cs, hkb⟩ := serve_keyBoundaries (histogram data) firstPossibleKey
      lastPossibleKey fuel _ _ s1 ms hsv
    obtain ⟨_, hwin, pairs, hpk, hclose, hperm⟩ := hD
    rw [hg, List.append_nil] at hperm
    rw [hwin] at hclose
    subst hpk
    have hkeq : s1.keyBoundaries = firstPossibleKey ::
        ((pairs.map Prod.fst).insertionSort (· ≤ ·) ++ [lastPossibleKey]) := by
      rw [hlast] at hkb
      simp only [Option.some.injEq, Msg.acceptFinalKeys.injEq] at hkb
      exact hkb.1.symm
    obtain ⟨hdist, hnd⟩ := resolved_keys_distinct (countIn data firstPossibleKey) havg hce
      hperm hclose
    have hw := closeEnoughFor_nonneg
      (Int.tdiv (countIn data firstPossibleKey lastPossibleKey) P) toler
    have hin : ∀ p ∈ pairs, firstPossibleKey < p.1 ∧ p.1 < lastPossibleKey := by
      intro p hp
      have hp2 := hperm.subset (List.mem_map_of_mem Prod.snd hp)
      obtain ⟨hm1, hm2⟩ := targets_margin havg (by omega) hp2
      have hc := hclose p hp
      rw [abs_le] at hc
      constructor
      · by_contra hnot
        have := countIn_eq_zero_of_le data (show p.1 ≤ firstPossibleKey by omega)
        omega
      · by_contra hnot
        have := countIn_mono data firstPossibleKey (show lastPossibleKey ≤ p.1 by omega)
        omega
    refine ⟨pairs, ids, cs, ?_, hkeq, hperm, hclose, hdist, hnd, hin, ?_⟩
    · rw [List.getLast?_cons, hkb]
      rfl
    · rw [hkeq]
      have hmem : ∀ k ∈ (pairs.map Prod.fst).insertionSort (· ≤ ·),
          firstPossibleKey < k ∧ k < lastPossibleKey := by
        intro k hk
        rw [List.mem_insertionSort, List.mem_map] at hk
        obtain ⟨p, hp, rfl⟩ := hk
        exact hin p hp
      have hstrict : ((pairs.map Prod.fst).insertionSort (· ≤ ·)).Pairwise (· < ·) :=
        (List.sorted_insertionSort (· ≤ ·) (pairs.map Prod.fst)).lt_of_le
          ((List.perm_insertionSort (· ≤ ·) (pairs.map Prod.fst)).nodup_iff.2 hnd)
      rw [List.pairwise_cons, List.pairwise_append]
      refine ⟨?_, hstrict, by simp, ?_⟩
      · intro k hk
        rcases List.mem_append.1 hk with hk | hk
        · exact (hmem k hk).1
        · simp only [List.mem_singleton] at hk
          have := countIn_eq_zero_of_le data (a := firstPossibleKey) (b := lastPossibleKey)
          omega
      · intro a ha b hb
        simp only [List.mem_singleton] at hb
        rw [hb]
        exact (hmem a ha).2

/-- C20 at the sort of `twelveRecords` into three partitions with tolerance one quarter: the
average is `4`, the window `1`, and the finalized boundaries are `[0, 10, 20, 70]`. -/
theorem finalized_boundaries_strict_witness :
    (1 ≤ Int.tdiv (countIn twelveRecords 0 70) (3 : Nat) ∧
      2 * closeEnoughFor (Int.tdiv (countIn twelveRecords 0 70) (3 : Nat)) (1 / 4) <
        Int.tdiv (countIn twelveRecords 0 70) (3 : Nat) ∧
      runSort (histogram twelveRecords) 0 70 2 idle 3 (1 / 4) =
        some (committedThree, [Msg.acceptCandidateKeys [0, 10, 20, 30, 40, 50, 60, 70],
          Msg.acceptCandidateKeys [0, 10, 20, 70],
          Msg.acceptFinalKeys [0, 10, 20, 70] [0, 1, 2] [3, 6, 3]])) ∧
    ∃ (pairs : List (Nat × Int)) (ids counts : List Int),
      [Msg.acceptCandidateKeys [0, 10, 20, 30, 40, 50, 60, 70],
          Msg.acceptCandidateKeys [0, 10, 20, 70],
          Msg.acceptFinalKeys [0, 10, 20, 70] [0, 1, 2] [3, 6, 3]].getLast? =
        some (Msg.acceptFinalKeys committedThree.keyBoundaries ids counts) ∧
      committedThree.keyBoundaries =
        0 :: ((pairs.map Prod.fst).insertionSort (· ≤ ·) ++ [70]) ∧
      (pairs.map Prod.snd).Perm
        ((List.range (3 - 1)).map (fun (j : Nat) =>
          ((j : Int) + 1) * Int.tdiv (countIn twelveRecords 0 70) (3 : Nat))) ∧
      (∀ p ∈ pairs, |countIn twelveRecords 0 p.1 - p.2| ≤
        closeEnoughFor (Int.tdiv (countIn twelveRecords 0 70) (3 : Nat)) (1 / 4)) ∧
      (∀ p ∈ pairs, ∀ q ∈ pairs, p.2 ≠ q.2 → p.1 ≠ q.1) ∧
      (pairs.map Prod.fst).Nodup ∧
      (∀ p ∈ pairs, 0 < p.1 ∧ p.1 < 70) ∧
      committedThree.keyBoundaries.Pairwise (· < ·) :=
  ⟨⟨by decide, by decide!, by decide!⟩,
    finalized_boundaries_strict 0 70 twelveRecords idle 3 (1 / 4) 2 committedThree _
      (by decide) (by decide!) (by decide!)⟩

end ParallelSmooth
